import Mathlib

/-!
# tiny-lc: a call-by-value lambda calculus interpreter (src/main.c)

Shallow embedding of `src/main.c`.

* The three global pools `mem_term`, `mem_val`, `mem_val_list` and the input
  cursor `glob` form the explicit program state `State`.
* `exit(1)` is the result `Res.fatal e s`, where `e` names the diagnostic that
  was printed and `s` is the state at the moment of the exit.
* A C `int` is an `Int` kept in `[-2^31, 2^31)`; every arithmetic operation of
  the source on an `int` is followed by `wrap_int` (two's complement, modulo
  `2^32`).
* `struct value *` and `struct val_list *` are the mutually inductive types
  `value` and `val_list`; both have a `NULL` constructor, as a C pointer has.
  Dereferencing `NULL` is the fatal result `Err.null_dereference`.
* The recursion of `eval` is not bounded by the source, so `eval` takes a
  recursion depth (fuel) and answers `Res.out_of_fuel` when it is used up.
* `printf` is modelled by the list of characters it writes; `pretty_val`
  answers `none` where the source dereferences a null pointer.
* `eval_entries` is a ghost of `eval`: it follows the same control flow and
  lists the environments under which closure bodies are entered.
-/

namespace TinyLC

/-! ## Constants -/

def VALS_SIZE : Nat := 1000000
def VAL_LIST_SIZE : Nat := 1000000
def TERMS_SIZE : Nat := 10000

/-! ## C integers -/

/-- Reduction of a mathematical integer to the 32-bit two's complement `int`. -/
def wrap_int (x : Int) : Int := (x + 2147483648) % 4294967296 - 2147483648

/-- The values an `int` can hold. -/
def int_range (x : Int) : Prop := -2147483648 ≤ x ∧ x ≤ 2147483647

instance (x : Int) : Decidable (int_range x) := by unfold int_range; infer_instance

/-! ## Memory pools and program state -/

structure term_array where
  buff_size : Nat
  addr : Nat
deriving DecidableEq, Repr

structure val_array where
  buff_size : Nat
  addr : Nat
deriving DecidableEq, Repr

structure val_list_array where
  buff_size : Nat
  addr : Nat
deriving DecidableEq, Repr

/-- The globals of the program: the three pools and the input cursor. The
input is the list of characters before the terminating NUL. -/
structure State where
  mem_term : term_array
  mem_val : val_array
  mem_val_list : val_list_array
  glob : List Char
deriving DecidableEq, Repr

/-- The diagnostics after which the source calls `exit(1)`, one constructor per
site, and the dereference of a null pointer. -/
inductive Err where
  | alloc_term_out_of_space
  | alloc_val_out_of_space
  | alloc_val_list_out_of_space
  | unexpected_end_of_input
  | space_unexpected_char (d : Char)
  | parse_term_unexpected_char (c : Char)
  | get_value_list_too_small
  | eval_plus_expected_int
  | eval_ite_expected_int
  | eval_app_expected_lambda
  | null_dereference
deriving DecidableEq, Repr

/-- The taxonomy of fatal conditions of the specification (section 7);
`MemoryFault` is the dereference of a null pointer, which the specification
does not list. -/
inductive Fatal where
  | AllocationExhausted
  | SyntaxError
  | UnboundVariable
  | TypeMismatch
  | MemoryFault
deriving DecidableEq, Repr

/-- The class of the specification's taxonomy a diagnostic belongs to. -/
def Err.kind : Err → Fatal
  | .alloc_term_out_of_space => .AllocationExhausted
  | .alloc_val_out_of_space => .AllocationExhausted
  | .alloc_val_list_out_of_space => .AllocationExhausted
  | .unexpected_end_of_input => .SyntaxError
  | .space_unexpected_char _ => .SyntaxError
  | .parse_term_unexpected_char _ => .SyntaxError
  | .get_value_list_too_small => .UnboundVariable
  | .eval_plus_expected_int => .TypeMismatch
  | .eval_ite_expected_int => .TypeMismatch
  | .eval_app_expected_lambda => .TypeMismatch
  | .null_dereference => .MemoryFault

/-- Outcome of running a piece of the program: a returned value with the state
it left, an exit with a diagnostic, or recursion depth used up. -/
inductive Res (α : Type) where
  | ok (a : α) (s : State)
  | fatal (e : Err) (s : State)
  | out_of_fuel
deriving DecidableEq, Repr

/-- A computation over the global state. -/
def M (α : Type) : Type := State → Res α

def M.pure {α : Type} (a : α) : M α := fun s => Res.ok a s

def M.bind {α β : Type} (x : M α) (f : α → M β) : M β := fun s =>
  match x s with
  | Res.ok a s1 => f a s1
  | Res.fatal e s1 => Res.fatal e s1
  | Res.out_of_fuel => Res.out_of_fuel

instance : Monad M where
  pure := M.pure
  bind := M.bind

/-- The call `exit(1)` after the diagnostic `e`. -/
def M.exit {α : Type} (e : Err) : M α := fun s => Res.fatal e s

/-! ## Terms -/

inductive term where
  | VAR (db_index : Int)
  | NUM (num_val : Int)
  | APP (arg1 : term) (arg2 : term)
  | LAM (body : term)
  | PLUS (arg1 : term) (arg2 : term)
  | ITE (cond : term) (true_branch : term) (false_branch : term)
deriving DecidableEq, Repr

def alloc_term : M Nat := fun s =>
  if s.mem_term.buff_size ≤ 0 then Res.fatal Err.alloc_term_out_of_space s
  else Res.ok s.mem_term.addr
    { s with mem_term := { buff_size := s.mem_term.buff_size - 1, addr := s.mem_term.addr + 1 } }

def mk_var (db_index : Int) : M term := do
  let _ ← alloc_term
  return term.VAR db_index

def mk_num (num_val : Int) : M term := do
  let _ ← alloc_term
  return term.NUM num_val

def mk_app (arg1 arg2 : term) : M term := do
  let _ ← alloc_term
  return term.APP arg1 arg2

def mk_lam (body : term) : M term := do
  let _ ← alloc_term
  return term.LAM body

def mk_plus (arg1 arg2 : term) : M term := do
  let _ ← alloc_term
  return term.PLUS arg1 arg2

def mk_ite (arg1 arg2 arg3 : term) : M term := do
  let _ ← alloc_term
  return term.ITE arg1 arg2 arg3

/-- The characters `printf("%d", i)` writes. -/
def fmt_d (i : Int) : List Char :=
  if i < 0 then '-' :: Nat.toDigits 10 i.natAbs else Nat.toDigits 10 i.toNat

/-- The characters `pretty_term` writes to standard output. -/
def pretty_term : term → List Char
  | .VAR db_index => '$' :: fmt_d db_index
  | .NUM num_val => fmt_d num_val
  | .APP arg1 arg2 => '@' :: ' ' :: (pretty_term arg1 ++ ' ' :: pretty_term arg2)
  | .LAM body => '\\' :: ' ' :: pretty_term body
  | .PLUS arg1 arg2 => '+' :: ' ' :: (pretty_term arg1 ++ ' ' :: pretty_term arg2)
  | .ITE c t e =>
    '?' :: ' ' :: (pretty_term c ++ ' ' :: (pretty_term t ++ ' ' :: pretty_term e))

/-! ## Parser -/

/-- The character under the cursor; the end of the list is the terminating NUL. -/
def peek (s : State) : Char := s.glob.headD (Char.ofNat 0)

def eof (s : State) : Bool := peek s == Char.ofNat 0

def pop : M Char := fun s =>
  if eof s then Res.fatal Err.unexpected_end_of_input s
  else Res.ok (peek s) { s with glob := s.glob.tail }

def is_digit (c : Char) : Bool := decide ('0'.toNat ≤ c.toNat) && decide (c.toNat ≤ '9'.toNat)

def to_digit : M Int := do
  let c ← pop
  return (c.toNat : Int) - ('0'.toNat : Int)

def space : M Unit := do
  let d ← pop
  if d = ' ' then return ()
  else M.exit (Err.space_unexpected_char d)

/-- The loop of `parse_int`; the first argument bounds the number of
iterations and is never reached when it exceeds the length of the input. -/
def parse_int_loop : Nat → Int → M Int
  | 0, _ => fun _ => Res.out_of_fuel
  | n + 1, value => fun s =>
    if !eof s && is_digit (peek s) then
      (do
        let d ← to_digit
        parse_int_loop n (wrap_int (wrap_int (value * 10) + d))) s
    else Res.ok value s

def parse_int : M Int := fun s => parse_int_loop (s.glob.length + 1) 0 s

def parse_num : M term := do
  let i ← parse_int
  mk_num i

def parse_neg : M term := do
  let _ ← pop
  let i ← parse_int
  mk_num (wrap_int (-i))

def parse_var : M term := do
  let _ ← pop
  let i ← parse_int
  mk_var i

def parse_lam (parse_term : M term) : M term := do
  let _ ← pop
  space
  let body ← parse_term
  mk_lam body

def parse_app (parse_term : M term) : M term := do
  let _ ← pop
  space
  let arg1 ← parse_term
  space
  let arg2 ← parse_term
  mk_app arg1 arg2

def parse_plus (parse_term : M term) : M term := do
  let _ ← pop
  space
  let arg1 ← parse_term
  space
  let arg2 ← parse_term
  mk_plus arg1 arg2

def parse_ite (parse_term : M term) : M term := do
  let _ ← pop
  space
  let arg1 ← parse_term
  space
  let arg2 ← parse_term
  space
  let arg3 ← parse_term
  mk_ite arg1 arg2 arg3

/-- The recursive descent of `parse_term` with its recursion depth bounded by
the first argument. -/
def parse_term_aux : Nat → M term
  | 0 => fun _ => Res.out_of_fuel
  | fuel + 1 => fun s =>
    let c := peek s
    if c = '$' then parse_var s
    else if c = '@' then parse_app (parse_term_aux fuel) s
    else if c = '\\' then parse_lam (parse_term_aux fuel) s
    else if c = '?' then parse_ite (parse_term_aux fuel) s
    else if c = '+' then parse_plus (parse_term_aux fuel) s
    else if c = '-' then parse_neg s
    else if is_digit c then parse_num s
    else Res.fatal (Err.parse_term_unexpected_char c) s

/-- The function `parse_term` of the source. Every recursive call comes after at
least one `pop`, so a depth of one more than the length of the input is never
used up (`parse_term_aux_fuel`). -/
def parse_term : M term := fun s => parse_term_aux (s.glob.length + 1) s

/-! ## Values -/

mutual
/-- A `struct value *`. -/
inductive value where
  | NULL
  | VNUM (vnum : Int)
  | VCLOS (clos_body : term) (clos_env : val_list)
/-- A `struct val_list *`. -/
inductive val_list where
  | NULL
  | cons (hd : value) (tl : val_list)
end

def alloc_val : M Nat := fun s =>
  if s.mem_val.buff_size ≤ 0 then Res.fatal Err.alloc_val_out_of_space s
  else Res.ok s.mem_val.addr
    { s with mem_val := { buff_size := s.mem_val.buff_size - 1, addr := s.mem_val.addr + 1 } }

def alloc_val_list : M Nat := fun s =>
  if s.mem_val_list.buff_size ≤ 0 then Res.fatal Err.alloc_val_list_out_of_space s
  else Res.ok s.mem_val_list.addr
    { s with mem_val_list :=
      { buff_size := s.mem_val_list.buff_size - 1, addr := s.mem_val_list.addr + 1 } }

def mk_vnum (i : Int) : M value := do
  let _ ← alloc_val
  return value.VNUM i

def mk_vclos (clos_body : term) (clos_env : val_list) : M value := do
  let _ ← alloc_val
  return value.VCLOS clos_body clos_env

def cons_val_list (hd : value) (tl : val_list) : M val_list := do
  let _ ← alloc_val_list
  return val_list.cons hd tl

/-- The loop of `get_value`, entered with the current `out`, `l` and `pos`. -/
def get_value_loop (out : value) : val_list → Int → M value
  | l, pos => fun s =>
    if 0 ≤ pos then
      match l with
      | val_list.NULL => Res.fatal Err.get_value_list_too_small s
      | val_list.cons hd tl => get_value_loop hd tl (pos - 1) s
    else Res.ok out s

def get_value (l : val_list) (pos : Int) : M value := get_value_loop value.NULL l pos

/-- The function `eval` of the source with its recursion depth bounded by the
first argument. -/
def eval : Nat → term → val_list → M value
  | 0, _, _ => fun _ => Res.out_of_fuel
  | fuel + 1, t, env =>
    match t with
    | .VAR db_index => get_value env db_index
    | .NUM num_val => mk_vnum num_val
    | .PLUS arg1 arg2 => do
      let v1 ← eval fuel arg1 env
      let v2 ← eval fuel arg2 env
      match v1 with
      | .NULL => M.exit Err.null_dereference
      | .VCLOS _ _ => M.exit Err.eval_plus_expected_int
      | .VNUM n1 =>
        match v2 with
        | .NULL => M.exit Err.null_dereference
        | .VCLOS _ _ => M.exit Err.eval_plus_expected_int
        | .VNUM n2 => mk_vnum (wrap_int (n1 + n2))
    | .ITE cond true_branch false_branch => do
      let vcond ← eval fuel cond env
      match vcond with
      | .NULL => M.exit Err.null_dereference
      | .VCLOS _ _ => M.exit Err.eval_ite_expected_int
      | .VNUM n =>
        if n ≠ 0 then eval fuel true_branch env
        else eval fuel false_branch env
    | .LAM body => mk_vclos body env
    | .APP arg1 arg2 => do
      let varg1 ← eval fuel arg1 env
      match varg1 with
      | .NULL => M.exit Err.null_dereference
      | .VNUM _ => M.exit Err.eval_app_expected_lambda
      | .VCLOS clos_body clos_env =>
        let varg2 ← eval fuel arg2 env
        let env1 ← cons_val_list varg2 clos_env
        eval fuel clos_body env1

/-- The call `eval(t, env)` in state `s` ends with the outcome `r`: with a
returned value or with an exit. -/
def Evals (t : term) (env : val_list) (s : State) (r : Res value) : Prop :=
  ∃ fuel, eval fuel t env s = r ∧ r ≠ Res.out_of_fuel

/-- The state `main` sets up before parsing the input text. -/
def init_state (input : List Char) : State :=
  { mem_term := { buff_size := TERMS_SIZE, addr := 0 }
    mem_val := { buff_size := VALS_SIZE, addr := 0 }
    mem_val_list := { buff_size := VAL_LIST_SIZE, addr := 0 }
    glob := input }

/-! ## Specification-level definitions -/

/-- Number of nodes of a term, which is the number of `alloc_term` calls that
build it. -/
def term_size : term → Nat
  | .VAR _ => 1
  | .NUM _ => 1
  | .APP a b => term_size a + term_size b + 1
  | .LAM b => term_size b + 1
  | .PLUS a b => term_size a + term_size b + 1
  | .ITE c a b => term_size c + term_size a + term_size b + 1

/-- The mathematical value of a sequence of decimal digits, most significant
digit first. -/
def decimal_value (ds : List Char) : Int :=
  ds.foldl (fun v c => v * 10 + ((c.toNat : Int) - 48)) 0

/-- The value `parse_int` accumulates in its `int` from `value` over the digits
`ds`: each of `value *= 10` and `value += digit` is reduced modulo `2^32`. -/
def int_acc (value : Int) (ds : List Char) : Int :=
  ds.foldl (fun v c => wrap_int (wrap_int (v * 10) + ((c.toNat : Int) - 48))) value

/-- The grammar of section 4.2 of the specification, with the term each
derivation denotes. An `integer` is a sequence of decimal digits `ds`; it is
non-empty, except that with `empty_ok = true` the integer after `$` or `-` may
be the empty sequence (denoting `0`). The grammar as the specification states it
is `Derives false`. -/
inductive Derives (empty_ok : Bool) : List Char → term → Prop where
  | var (ds : List Char) (hd : ∀ c ∈ ds, is_digit c = true)
      (hne : empty_ok = true ∨ ds ≠ []) :
      Derives empty_ok ('$' :: ds) (term.VAR (decimal_value ds))
  | num (ds : List Char) (hd : ∀ c ∈ ds, is_digit c = true) (hne : ds ≠ []) :
      Derives empty_ok ds (term.NUM (decimal_value ds))
  | neg (ds : List Char) (hd : ∀ c ∈ ds, is_digit c = true)
      (hne : empty_ok = true ∨ ds ≠ []) :
      Derives empty_ok ('-' :: ds) (term.NUM (-decimal_value ds))
  | app {f a : List Char} {tf ta : term} (hf : Derives empty_ok f tf)
      (ha : Derives empty_ok a ta) :
      Derives empty_ok ('@' :: ' ' :: (f ++ ' ' :: a)) (term.APP tf ta)
  | lam {b : List Char} {tb : term} (hb : Derives empty_ok b tb) :
      Derives empty_ok ('\\' :: ' ' :: b) (term.LAM tb)
  | plus {l r : List Char} {tl tr : term} (hl : Derives empty_ok l tl)
      (hr : Derives empty_ok r tr) :
      Derives empty_ok ('+' :: ' ' :: (l ++ ' ' :: r)) (term.PLUS tl tr)
  | ite {c t e : List Char} {tc tt te : term} (hc : Derives empty_ok c tc)
      (ht : Derives empty_ok t tt) (he : Derives empty_ok e te) :
      Derives empty_ok ('?' :: ' ' :: (c ++ ' ' :: (t ++ ' ' :: e))) (term.ITE tc tt te)

/-- The term with every variable index and numeric literal reduced to the
32-bit `int` the source stores it in. -/
def wrap_term : term → term
  | .VAR i => .VAR (wrap_int i)
  | .NUM n => .NUM (wrap_int n)
  | .APP a b => .APP (wrap_term a) (wrap_term b)
  | .LAM b => .LAM (wrap_term b)
  | .PLUS a b => .PLUS (wrap_term a) (wrap_term b)
  | .ITE c a b => .ITE (wrap_term c) (wrap_term a) (wrap_term b)

/-- Every variable index and numeric literal of the term fits in an `int`. -/
def term_in_range : term → Prop
  | .VAR i => int_range i
  | .NUM n => int_range n
  | .APP a b => term_in_range a ∧ term_in_range b
  | .LAM b => term_in_range b
  | .PLUS a b => term_in_range a ∧ term_in_range b
  | .ITE c a b => term_in_range c ∧ term_in_range a ∧ term_in_range b

/-- No variable node of the term has a negative index. -/
def vars_nonneg : term → Prop
  | .VAR i => 0 ≤ i
  | .NUM _ => True
  | .APP a b => vars_nonneg a ∧ vars_nonneg b
  | .LAM b => vars_nonneg b
  | .PLUS a b => vars_nonneg a ∧ vars_nonneg b
  | .ITE c a b => vars_nonneg c ∧ vars_nonneg a ∧ vars_nonneg b

/-- The input does not go on with a decimal digit. -/
def no_digit_head (rest : List Char) : Prop := ∀ c, rest.head? = some c → is_digit c = false

/-- The element at position `n` of an environment, counted from the head. -/
def val_list.nth : val_list → Nat → Option value
  | .NULL, _ => none
  | .cons hd _, 0 => some hd
  | .cons _ tl, n + 1 => tl.nth n

/-- Number of cells of an environment. -/
def val_list.length : val_list → Nat
  | .NULL => 0
  | .cons _ tl => tl.length + 1

/-- On every state with fewer than `n` characters of input left, `x` ends
(with a value or an exit) and leaves no more input than it found. -/
def M.safe {α : Type} (n : Nat) (x : M α) : Prop :=
  ∀ s : State, s.glob.length < n →
    x s ≠ Res.out_of_fuel ∧ ∀ a s1, x s = Res.ok a s1 → s1.glob.length ≤ s.glob.length

/-- The state `alloc_val` leaves when it succeeds: one value slot taken. -/
def State.take_val (s : State) : State :=
  { s with mem_val := { buff_size := s.mem_val.buff_size - 1, addr := s.mem_val.addr + 1 } }

/-- The state `alloc_val_list` leaves when it succeeds: one environment cell
taken. -/
def State.take_val_list (s : State) : State :=
  { s with mem_val_list :=
    { buff_size := s.mem_val_list.buff_size - 1, addr := s.mem_val_list.addr + 1 } }

/-- The value is a closure (not a number, not a null pointer). -/
def value.is_clos : value → Prop
  | .VCLOS _ _ => True
  | _ => False

/-- State `s1` comes after state `s` in a run: in each pool the slots handed out
so far are still handed out, and the free slots are what is left of them
(`addr + buff_size` is constant). -/
def State.pools_le (s s1 : State) : Prop :=
  (s1.mem_term.buff_size ≤ s.mem_term.buff_size ∧
    s1.mem_term.addr + s1.mem_term.buff_size = s.mem_term.addr + s.mem_term.buff_size) ∧
  (s1.mem_val.buff_size ≤ s.mem_val.buff_size ∧
    s1.mem_val.addr + s1.mem_val.buff_size = s.mem_val.addr + s.mem_val.buff_size) ∧
  (s1.mem_val_list.buff_size ≤ s.mem_val_list.buff_size ∧
    s1.mem_val_list.addr + s1.mem_val_list.buff_size
      = s.mem_val_list.addr + s.mem_val_list.buff_size)

/-- Whatever `x` does, the state it ends in comes after the one it started
in. -/
def M.shrinks {α : Type} (x : M α) : Prop :=
  ∀ s : State,
    match x s with
    | Res.ok _ s1 => s.pools_le s1
    | Res.fatal _ s1 => s.pools_le s1
    | Res.out_of_fuel => True

/-- The computations `x` and `y` give the same outcome on every state with
fewer than `n` characters of input left, and `x` leaves no more input than it
found. -/
def M.agree {α : Type} (n : Nat) (x y : M α) : Prop :=
  ∀ s : State, s.glob.length < n →
    x s = y s ∧ ∀ a s1, x s = Res.ok a s1 → s1.glob.length ≤ s.glob.length

/-- The outcome is an exit with a diagnostic of the class `SyntaxError`. -/
def Res.syntax_error {α : Type} (r : Res α) : Prop :=
  ∃ e s1, r = Res.fatal e s1 ∧ e.kind = Fatal.SyntaxError

/-- Every run of `x` that ends is also a run of `y`, with the same outcome. -/
def M.le {α : Type} (x y : M α) : Prop := ∀ s, x s ≠ Res.out_of_fuel → y s = x s

/-- The text of `n` nested abstractions around the literal `0`. -/
def lam_chain_text : Nat → List Char
  | 0 => ['0']
  | n + 1 => '\\' :: ' ' :: lam_chain_text n

/-- The term of `n` nested abstractions around `Number(0)`; it has `n + 1`
nodes. -/
def lam_chain : Nat → term
  | 0 => term.NUM 0
  | n + 1 => term.LAM (lam_chain n)

mutual
/-- The characters `pretty_val` writes to standard output; `none` when it
dereferences a null pointer (`v->vtag` with `v` null). -/
def pretty_val : value → Option (List Char)
  | .NULL => none
  | .VNUM vnum => some (fmt_d vnum)
  | .VCLOS clos_body clos_env =>
    match pretty_val_list clos_env with
    | none => none
    | some l => some ('\\' :: ' ' :: (pretty_term clos_body ++ '[' :: l))
/-- The characters `pretty_val_list` writes to standard output. -/
def pretty_val_list : val_list → Option (List Char)
  | .NULL => some []
  | .cons hd tl =>
    match pretty_val hd with
    | none => none
    | some a =>
      match pretty_val_list tl with
      | none => none
      | some b => some (a ++ ',' :: ' ' :: b)
end

mutual
/-- No null pointer occurs in the value. -/
def value.no_null : value → Prop
  | .NULL => False
  | .VNUM _ => True
  | .VCLOS _ clos_env => clos_env.no_null
/-- No null pointer occurs among the values of the environment. -/
def val_list.no_null : val_list → Prop
  | .NULL => True
  | .cons hd tl => hd.no_null ∧ tl.no_null
end

/-- Every variable literal of the term is at most `2147483647`. -/
def vars_fit : term → Prop
  | .VAR i => i ≤ 2147483647
  | .NUM _ => True
  | .APP a b => vars_fit a ∧ vars_fit b
  | .LAM b => vars_fit b
  | .PLUS a b => vars_fit a ∧ vars_fit b
  | .ITE c a b => vars_fit c ∧ vars_fit a ∧ vars_fit b

/-- The body `@ $0 $0` of the self-application. -/
def omega_body : term := term.APP (term.VAR 0) (term.VAR 0)

/-- The term `Omega`, the text `@ \ @ $0 $0 \ @ $0 $0`. -/
def Omega : term := term.APP (term.LAM omega_body) (term.LAM omega_body)

/-- The environments under which the run `eval(t, env)` from state `s` enters a
closure body (the `env1` of case `APP`), in the order of the entries; one entry
per application performed. -/
def eval_entries : Nat → term → val_list → State → List val_list
  | 0, _, _, _ => []
  | fuel + 1, t, env, s =>
    match t with
    | .VAR _ => []
    | .NUM _ => []
    | .LAM _ => []
    | .PLUS arg1 arg2 =>
      eval_entries fuel arg1 env s ++
        (match eval fuel arg1 env s with
          | Res.ok _ s1 => eval_entries fuel arg2 env s1
          | _ => [])
    | .ITE cond true_branch false_branch =>
      eval_entries fuel cond env s ++
        (match eval fuel cond env s with
          | Res.ok (value.VNUM n) s1 =>
            if n ≠ 0 then eval_entries fuel true_branch env s1
            else eval_entries fuel false_branch env s1
          | _ => [])
    | .APP arg1 arg2 =>
      eval_entries fuel arg1 env s ++
        (match eval fuel arg1 env s with
          | Res.ok (value.VCLOS clos_body clos_env) s1 =>
            eval_entries fuel arg2 env s1 ++
              (match eval fuel arg2 env s1 with
                | Res.ok varg2 s2 =>
                  (match cons_val_list varg2 clos_env s2 with
                    | Res.ok env1 s3 => env1 :: eval_entries fuel clos_body env1 s3
                    | _ => [])
                | _ => [])
          | _ => [])

mutual
/-- A value of the data model: a number, or a closure whose body has no
negative variable index and whose environment holds such values; not a null
pointer. -/
def value.wf : value → Prop
  | .NULL => False
  | .VNUM _ => True
  | .VCLOS clos_body clos_env => vars_nonneg clos_body ∧ clos_env.wf
/-- An environment of the data model: every element is such a value. -/
def val_list.wf : val_list → Prop
  | .NULL => True
  | .cons hd tl => hd.wf ∧ tl.wf
end

/-- The diagnostic belongs to one of the fatal conditions the evaluator can
raise by the specification: pool exhaustion, unbound variable, type mismatch. -/
def Err.eval_fatal (e : Err) : Prop :=
  e.kind = Fatal.AllocationExhausted ∨ e.kind = Fatal.UnboundVariable ∨
    e.kind = Fatal.TypeMismatch

/-- Whenever `x` returns, the returned value satisfies `P`; whenever it exits,
the diagnostic is one of the evaluator's fatal conditions. -/
def M.post {α : Type} (x : M α) (P : α → Prop) : Prop :=
  ∀ s : State,
    match x s with
    | Res.ok a _ => P a
    | Res.fatal e _ => e.eval_fatal
    | Res.out_of_fuel => True

/-- The state in which a run ends, if it ends, satisfies `P`. -/
def Res.final {α : Type} (r : Res α) (P : State → Prop) : Prop :=
  match r with
  | Res.ok _ s1 => P s1
  | Res.fatal _ s1 => P s1
  | Res.out_of_fuel => True

/-- The program text embedded in `main` (the string `test`). -/
def test : List Char :=
  "@ @ @ \\ @ \\ @ $1 \\ @ @ $1 $1 $0 \\ @ $1 \\ @ @ $1 $1 $0 \\ \\ \\ ? $1 + $0 @ @ $2 + $1 -1 $0 0 1000 1000".toList

/-- The body `@ @ $1 $1 $0` of the inner abstraction of `Z`: `x x v`. -/
def Z_eta_body : term := term.APP (term.APP (term.VAR 1) (term.VAR 1)) (term.VAR 0)

/-- The body `@ $1 \ @ @ $1 $1 $0` of the two halves of `Z`: `f (\v. x x v)`. -/
def Z_half_body : term := term.APP (term.VAR 1) (term.LAM Z_eta_body)

/-- The call-by-value fixed-point combinator
`Z = \f. (\x. f (\v. x x v)) (\x. f (\v. x x v))`. -/
def Z_comb : term := term.LAM (term.APP (term.LAM Z_half_body) (term.LAM Z_half_body))

/-- The body of `F`: `if x then y + f (x + -1) y else 0`, with `y = $0`,
`x = $1`, `f = $2`. -/
def F_body : term :=
  term.ITE (term.VAR 1)
    (term.PLUS (term.VAR 0)
      (term.APP (term.APP (term.VAR 2) (term.PLUS (term.VAR 1) (term.NUM (-1)))) (term.VAR 0)))
    (term.NUM 0)

/-- The term `F = \f. \x. \y. if x then y + f (x + -1) y else 0`. -/
def F_term : term := term.LAM (term.LAM (term.LAM F_body))

/-- The application of `Z F` to `Number(x)` and `Number(y)`. -/
def mult_program (x y : Int) : term :=
  term.APP (term.APP (term.APP Z_comb F_term) (term.NUM x)) (term.NUM y)

/-- The state after `v` value slots and `c` environment cells have been taken. -/
def State.use (s : State) (v c : Nat) : State :=
  { s with
    mem_val := { buff_size := s.mem_val.buff_size - v, addr := s.mem_val.addr + v }
    mem_val_list :=
      { buff_size := s.mem_val_list.buff_size - c, addr := s.mem_val_list.addr + c } }

/-- The closure `F` evaluates to at top level. -/
def F_clos : value := value.VCLOS (term.LAM (term.LAM F_body)) val_list.NULL

/-- The closure of a half of `Z`, made with `f` bound to `F`. -/
def Z_half_clos : value := value.VCLOS Z_half_body (val_list.cons F_clos val_list.NULL)

/-- The closure `\v. x x v` with `x` bound to the half of `Z`: the value bound
to `f` inside `F`. -/
def Z_eta_clos : value :=
  value.VCLOS Z_eta_body (val_list.cons Z_half_clos (val_list.cons F_clos val_list.NULL))

/-- The indices of the Variable nodes of the term, from left to right. -/
def var_indices : term → List Int
  | .VAR i => [i]
  | .NUM _ => []
  | .APP a b => var_indices a ++ var_indices b
  | .LAM b => var_indices b
  | .PLUS a b => var_indices a ++ var_indices b
  | .ITE c a b => var_indices c ++ (var_indices a ++ var_indices b)

/-- The digit sequences written after the `$` signs of a text, from left to
right: for each `$`, the longest run of decimal digits that follows it. -/
def var_literals : List Char → List (List Char)
  | [] => []
  | c :: l => if c = '$' then l.takeWhile is_digit :: var_literals l else var_literals l

/-! ## The state monad -/

@[simp] theorem bind_apply {α β : Type} (x : M α) (f : α → M β) (s : State) :
    (x >>= f) s =
      match x s with
      | Res.ok a s1 => f a s1
      | Res.fatal e s1 => Res.fatal e s1
      | Res.out_of_fuel => Res.out_of_fuel := rfl

@[simp] theorem pure_apply {α : Type} (a : α) (s : State) :
    (pure a : M α) s = Res.ok a s := rfl

@[simp] theorem exit_apply {α : Type} (e : Err) (s : State) :
    (M.exit e : M α) s = Res.fatal e s := rfl

theorem M.le_refl {α : Type} (x : M α) : M.le x x := fun _ _ => rfl

theorem M.le_trans {α : Type} {x y z : M α} (h1 : M.le x y) (h2 : M.le y z) : M.le x z := by
  intro s hs
  have h := h1 s hs
  rw [h2 s (by rw [h]; exact hs), h]

theorem M.le_bind {α β : Type} {x y : M α} {f g : α → M β}
    (hx : M.le x y) (hf : ∀ a, M.le (f a) (g a)) : M.le (x >>= f) (y >>= g) := by
  intro s hs
  simp only [bind_apply] at hs ⊢
  cases hxs : x s with
  | out_of_fuel => simp [hxs] at hs
  | fatal e s1 => rw [hx s (by simp [hxs]), hxs]
  | ok a s1 =>
    rw [hx s (by simp [hxs]), hxs]
    rw [hxs] at hs
    exact hf a s1 hs

/-! ## Recursion depth of `eval` -/

theorem eval_le_succ : ∀ (n : Nat) (t : term) (env : val_list),
    M.le (eval n t env) (eval (n + 1) t env) := by
  intro n
  induction n with
  | zero => intro t env s hs; exact absurd rfl hs
  | succ n ih =>
    intro t env
    cases t with
    | VAR i => simp only [eval]; exact M.le_refl _
    | NUM i => simp only [eval]; exact M.le_refl _
    | LAM b => simp only [eval]; exact M.le_refl _
    | PLUS a b =>
      simp only [eval]
      exact M.le_bind (ih a env) (fun _ => M.le_bind (ih b env) (fun _ => M.le_refl _))
    | ITE c a b =>
      simp only [eval]
      refine M.le_bind (ih c env) (fun v => ?_)
      cases v with
      | NULL => exact M.le_refl _
      | VCLOS _ _ => exact M.le_refl _
      | VNUM k =>
        simp only
        split
        · exact ih a env
        · exact ih b env
    | APP a b =>
      simp only [eval]
      refine M.le_bind (ih a env) (fun v => ?_)
      cases v with
      | NULL => exact M.le_refl _
      | VNUM _ => exact M.le_refl _
      | VCLOS body cenv =>
        exact M.le_bind (ih b env) (fun _ => M.le_bind (M.le_refl _) (fun _ => ih _ _))

theorem eval_le {n m : Nat} (h : n ≤ m) (t : term) (env : val_list) :
    M.le (eval n t env) (eval m t env) := by
  induction h with
  | refl => exact M.le_refl _
  | step _ ih => exact M.le_trans ih (eval_le_succ _ t env)

/-- More recursion depth does not change an outcome that was reached. -/
theorem eval_mono {n m : Nat} (h : n ≤ m) {t : term} {env : val_list} {s : State}
    {r : Res value} (hr : eval n t env s = r) (hne : r ≠ Res.out_of_fuel) :
    eval m t env s = r := by
  rw [← hr]; exact eval_le h t env s (by rw [hr]; exact hne)

/-- The outcome of a call of `eval` is unique. -/
theorem Evals.det {t : term} {env : val_list} {s : State} {r1 r2 : Res value}
    (h1 : Evals t env s r1) (h2 : Evals t env s r2) : r1 = r2 := by
  obtain ⟨n1, e1, ne1⟩ := h1
  obtain ⟨n2, e2, ne2⟩ := h2
  rw [← eval_mono (Nat.le_max_left n1 n2) e1 ne1, ← eval_mono (Nat.le_max_right n1 n2) e2 ne2]

/-! ## Integers -/

theorem wrap_int_range (x : Int) : int_range (wrap_int x) := by
  unfold int_range wrap_int; omega

theorem wrap_int_of_range {x : Int} (h : int_range x) : wrap_int x = x := by
  unfold int_range at h; unfold wrap_int; omega

theorem wrap_int_step (v d : Int) :
    wrap_int (wrap_int (wrap_int v * 10) + d) = wrap_int (v * 10 + d) := by
  unfold wrap_int; omega

theorem int_acc_wrap (ds : List Char) : ∀ v : Int,
    int_acc (wrap_int v) ds
      = wrap_int (ds.foldl (fun v c => v * 10 + ((c.toNat : Int) - 48)) v) := by
  induction ds with
  | nil => intro v; simp [int_acc]
  | cons c ds ih =>
    intro v
    have h := ih (v * 10 + ((c.toNat : Int) - 48))
    simp only [int_acc, List.foldl_cons] at h ⊢
    rw [wrap_int_step]
    exact h

theorem int_acc_zero (ds : List Char) : int_acc 0 ds = wrap_int (decimal_value ds) := by
  have h := int_acc_wrap ds 0
  have h0 : wrap_int 0 = 0 := by decide
  rw [h0] at h
  exact h

theorem is_digit_ne_nul {c : Char} (h : is_digit c = true) : (c == Char.ofNat 0) = false := by
  rw [beq_eq_false_iff_ne]
  rintro rfl
  revert h
  decide

/-! ## The parser on explicit inputs -/

theorem parse_int_loop_eq (mt : term_array) (mv : val_array) (ml : val_list_array) :
    ∀ (l : List Char) (n : Nat) (v : Int), l.length < n →
      parse_int_loop n v ⟨mt, mv, ml, l⟩
        = Res.ok (int_acc v (l.takeWhile is_digit)) ⟨mt, mv, ml, l.dropWhile is_digit⟩ := by
  intro l
  induction l with
  | nil =>
    intro n v hn
    obtain ⟨n, rfl⟩ : ∃ k, n = k + 1 := ⟨n - 1, by omega⟩
    simp [parse_int_loop, eof, peek, int_acc]
  | cons c l ih =>
    intro n v hn
    obtain ⟨n, rfl⟩ : ∃ k, n = k + 1 := ⟨n - 1, by simp at hn; omega⟩
    have hn2 : l.length < n := by simp at hn; omega
    by_cases hc : is_digit c = true
    · have hnul := is_digit_ne_nul hc
      simp [parse_int_loop, eof, peek, hc, hnul, to_digit, pop, ih n _ hn2, int_acc]
    · simp [parse_int_loop, eof, peek, hc, int_acc]

theorem parse_int_eq (mt : term_array) (mv : val_array) (ml : val_list_array) (l : List Char) :
    parse_int ⟨mt, mv, ml, l⟩
      = Res.ok (wrap_int (decimal_value (l.takeWhile is_digit)))
          ⟨mt, mv, ml, l.dropWhile is_digit⟩ := by
  rw [← int_acc_zero]
  exact parse_int_loop_eq mt mv ml l _ 0 (Nat.lt_succ_self _)

theorem digits_append_take {ds rest : List Char} (hd : ∀ c ∈ ds, is_digit c = true)
    (hr : no_digit_head rest) : (ds ++ rest).takeWhile is_digit = ds := by
  induction ds with
  | nil =>
    cases rest with
    | nil => rfl
    | cons c r => simp [List.takeWhile, hr c rfl]
  | cons c ds ih =>
    have hc : is_digit c = true := hd c (List.mem_cons_self _ _)
    simp [List.takeWhile, hc, ih (fun x hx => hd x (List.mem_cons_of_mem _ hx))]

theorem digits_append_drop {ds rest : List Char} (hd : ∀ c ∈ ds, is_digit c = true)
    (hr : no_digit_head rest) : (ds ++ rest).dropWhile is_digit = rest := by
  induction ds with
  | nil =>
    cases rest with
    | nil => rfl
    | cons c r => simp [List.dropWhile, hr c rfl]
  | cons c ds ih =>
    have hc : is_digit c = true := hd c (List.mem_cons_self _ _)
    simp [List.dropWhile, hc, ih (fun x hx => hd x (List.mem_cons_of_mem _ hx))]

theorem no_digit_head_space (l : List Char) : no_digit_head (' ' :: l) := by
  intro c hc
  simp at hc
  subst hc
  decide

theorem no_digit_head_nil : no_digit_head [] := by
  intro c hc; simp at hc

theorem is_digit_not_op {c : Char} (h : is_digit c = true) :
    c ≠ '$' ∧ c ≠ '@' ∧ c ≠ '\\' ∧ c ≠ '?' ∧ c ≠ '+' ∧ c ≠ '-' ∧ c ≠ ' ' := by
  refine ⟨?_, ?_, ?_, ?_, ?_, ?_, ?_⟩ <;> (rintro rfl; revert h; decide)

theorem wrap_int_neg (d : Int) : wrap_int (-wrap_int d) = wrap_int (-d) := by
  unfold wrap_int; omega

/-- Completeness of the parser: on a string the grammar derives, followed by
anything that does not go on with a digit, the parser returns the denoted term
with its literals reduced to `int`, and stops right after the string. -/
theorem parse_term_aux_derives {empty_ok : Bool} {str : List Char} {t : term}
    (h : Derives empty_ok str t) :
    ∀ (fuel : Nat) (mt : term_array) (mv : val_array) (ml : val_list_array) (rest : List Char),
      str.length < fuel → no_digit_head rest → term_size t ≤ mt.buff_size →
      parse_term_aux fuel ⟨mt, mv, ml, str ++ rest⟩
        = Res.ok (wrap_term t)
            ⟨⟨mt.buff_size - term_size t, mt.addr + term_size t⟩, mv, ml, rest⟩ := by
  induction h with
  | var ds hd hne =>
    intro fuel mt mv ml rest hf hr hcap
    obtain ⟨fuel, rfl⟩ : ∃ k, fuel = k + 1 := ⟨fuel - 1, by omega⟩
    simp only [term_size] at hcap
    have hb : ¬ mt.buff_size ≤ 0 := by omega
    simp [parse_term_aux, peek, parse_var, pop, eof, parse_int_eq, digits_append_take hd hr,
      digits_append_drop hd hr, mk_var, alloc_term, hb, wrap_term, term_size]
  | neg ds hd hne =>
    intro fuel mt mv ml rest hf hr hcap
    obtain ⟨fuel, rfl⟩ : ∃ k, fuel = k + 1 := ⟨fuel - 1, by omega⟩
    simp only [term_size] at hcap
    have hb : ¬ mt.buff_size ≤ 0 := by omega
    simp [parse_term_aux, peek, parse_neg, pop, eof, parse_int_eq, digits_append_take hd hr,
      digits_append_drop hd hr, mk_num, alloc_term, hb, wrap_term, term_size, wrap_int_neg]
  | num ds hd hne =>
    intro fuel mt mv ml rest hf hr hcap
    obtain ⟨fuel, rfl⟩ : ∃ k, fuel = k + 1 := ⟨fuel - 1, by omega⟩
    simp only [term_size] at hcap
    have hb : ¬ mt.buff_size ≤ 0 := by omega
    obtain ⟨c, cs, rfl⟩ : ∃ c cs, ds = c :: cs := by
      cases ds with
      | nil => exact absurd rfl hne
      | cons c cs => exact ⟨c, cs, rfl⟩
    have hc : is_digit c = true := hd c (List.mem_cons_self _ _)
    obtain ⟨h1, h2, h3, h4, h5, h6, -⟩ := is_digit_not_op hc
    have ht := digits_append_take hd hr
    have hdr := digits_append_drop hd hr
    simp only [List.cons_append] at ht hdr
    simp [parse_term_aux, peek, h1, h2, h3, h4, h5, h6, hc, parse_num, parse_int_eq, ht, hdr,
      mk_num, alloc_term, hb, wrap_term, term_size]
  | @app f a tf ta _ _ ihf iha =>
    intro fuel mt mv ml rest hf hr hcap
    obtain ⟨fuel, rfl⟩ : ∃ k, fuel = k + 1 := ⟨fuel - 1, by omega⟩
    simp only [term_size] at hcap
    simp only [List.length_cons, List.length_append] at hf
    have e1 := ihf fuel mt mv ml (' ' :: (a ++ rest)) (by omega) (no_digit_head_space _) (by omega)
    have e2 := iha fuel ⟨mt.buff_size - term_size tf, mt.addr + term_size tf⟩ mv ml rest
      (by omega) hr (by simp only; omega)
    have hb : ¬ mt.buff_size - term_size tf - term_size ta ≤ 0 := by omega
    simp [parse_term_aux, peek, parse_app, pop, eof, space, e1, e2, mk_app, alloc_term, hb,
      wrap_term, term_size]
    omega
  | @lam b tb _ ihb =>
    intro fuel mt mv ml rest hf hr hcap
    obtain ⟨fuel, rfl⟩ : ∃ k, fuel = k + 1 := ⟨fuel - 1, by omega⟩
    simp only [term_size] at hcap
    simp only [List.length_cons] at hf
    have e1 := ihb fuel mt mv ml rest (by omega) hr (by omega)
    have hb : ¬ mt.buff_size - term_size tb ≤ 0 := by omega
    simp [parse_term_aux, peek, parse_lam, pop, eof, space, e1, mk_lam, alloc_term, hb,
      wrap_term, term_size]
    omega
  | @plus l r tl tr _ _ ihl ihr =>
    intro fuel mt mv ml rest hf hr hcap
    obtain ⟨fuel, rfl⟩ : ∃ k, fuel = k + 1 := ⟨fuel - 1, by omega⟩
    simp only [term_size] at hcap
    simp only [List.length_cons, List.length_append] at hf
    have e1 := ihl fuel mt mv ml (' ' :: (r ++ rest)) (by omega) (no_digit_head_space _) (by omega)
    have e2 := ihr fuel ⟨mt.buff_size - term_size tl, mt.addr + term_size tl⟩ mv ml rest
      (by omega) hr (by simp only; omega)
    have hb : ¬ mt.buff_size - term_size tl - term_size tr ≤ 0 := by omega
    simp [parse_term_aux, peek, parse_plus, pop, eof, space, e1, e2, mk_plus, alloc_term, hb,
      wrap_term, term_size]
    omega
  | @ite c t e tc tt te _ _ _ ihc iht ihe =>
    intro fuel mt mv ml rest hf hr hcap
    obtain ⟨fuel, rfl⟩ : ∃ k, fuel = k + 1 := ⟨fuel - 1, by omega⟩
    simp only [term_size] at hcap
    simp only [List.length_cons, List.length_append] at hf
    have e1 := ihc fuel mt mv ml (' ' :: (t ++ ' ' :: (e ++ rest))) (by omega)
      (no_digit_head_space _) (by omega)
    have e2 := iht fuel ⟨mt.buff_size - term_size tc, mt.addr + term_size tc⟩ mv ml
      (' ' :: (e ++ rest)) (by omega) (no_digit_head_space _) (by simp only; omega)
    have e3 := ihe fuel
      ⟨mt.buff_size - term_size tc - term_size tt, mt.addr + term_size tc + term_size tt⟩ mv ml
      rest (by omega) hr (by simp only; omega)
    have hb : ¬ mt.buff_size - term_size tc - term_size tt - term_size te ≤ 0 := by omega
    simp [parse_term_aux, peek, parse_ite, pop, eof, space, e1, e2, e3, mk_ite, alloc_term, hb,
      wrap_term, term_size]
    omega

/-! ## Recursion depth of the parser -/

theorem safe_bind {α β : Type} {n : Nat} {x : M α} {f : α → M β}
    (hx : M.safe n x) (hf : ∀ a, M.safe n (f a)) : M.safe n (x >>= f) := by
  intro s hs
  obtain ⟨h1, h2⟩ := hx s hs
  simp only [bind_apply]
  cases hxs : x s with
  | out_of_fuel => exact absurd hxs h1
  | fatal e s1 => simp
  | ok a s1 =>
    have hl := h2 a s1 hxs
    obtain ⟨h3, h4⟩ := hf a s1 (by omega)
    exact ⟨h3, fun b s2 hb => Nat.le_trans (h4 b s2 hb) hl⟩

theorem safe_pop_bind {β : Type} {n : Nat} {f : Char → M β}
    (hf : ∀ a, M.safe n (f a)) : M.safe (n + 1) (pop >>= f) := by
  intro s hs
  simp only [bind_apply, pop]
  by_cases he : eof s = true
  · simp [he]
  · simp only [he]
    cases hg : s.glob with
    | nil => simp [eof, peek, hg] at he
    | cons c l =>
      simp only [List.tail_cons]
      rw [hg] at hs
      simp only [List.length_cons] at hs
      obtain ⟨h3, h4⟩ := hf (peek s) { s with glob := l } (by simp only; omega)
      refine ⟨h3, fun b s2 hb => ?_⟩
      have := h4 b s2 hb
      simp only [List.length_cons] at this ⊢
      omega

theorem safe_pure {α : Type} (n : Nat) (a : α) : M.safe n (pure a : M α) := by
  intro s _
  simp

theorem safe_exit {α : Type} (n : Nat) (e : Err) : M.safe n (M.exit e : M α) := by
  intro s _
  simp

theorem safe_alloc_term (n : Nat) : M.safe n alloc_term := by
  intro s _
  unfold alloc_term
  split
  · simp
  · refine ⟨by simp, fun a s1 h => ?_⟩
    cases h
    simp

theorem safe_pop (n : Nat) : M.safe n pop := by
  intro s _
  unfold pop
  split
  · simp
  · refine ⟨by simp, fun a s1 h => ?_⟩
    cases h
    simp

theorem safe_space (n : Nat) : M.safe n space := by
  unfold space
  refine safe_bind (safe_pop n) (fun d => ?_)
  split
  · exact safe_pure n _
  · exact safe_exit n _

theorem safe_parse_int (n : Nat) : M.safe n parse_int := by
  intro s _
  obtain ⟨mt, mv, ml, g⟩ := s
  rw [parse_int_eq]
  refine ⟨by simp, fun a s1 h => ?_⟩
  cases h
  exact (List.dropWhile_sublist _).length_le

theorem safe_mk_var (n : Nat) (i : Int) : M.safe n (mk_var i) :=
  safe_bind (safe_alloc_term n) (fun _ => safe_pure n _)

theorem safe_mk_num (n : Nat) (i : Int) : M.safe n (mk_num i) :=
  safe_bind (safe_alloc_term n) (fun _ => safe_pure n _)

theorem safe_parse_var (n : Nat) : M.safe n parse_var :=
  safe_bind (safe_pop n) (fun _ => safe_bind (safe_parse_int n) (fun _ => safe_mk_var n _))

theorem safe_parse_neg (n : Nat) : M.safe n parse_neg :=
  safe_bind (safe_pop n) (fun _ => safe_bind (safe_parse_int n) (fun _ => safe_mk_num n _))

theorem safe_parse_num (n : Nat) : M.safe n parse_num :=
  safe_bind (safe_parse_int n) (fun _ => safe_mk_num n _)

theorem safe_parse_lam {n : Nat} {f : M term} (hf : M.safe n f) : M.safe (n + 1) (parse_lam f) :=
  safe_pop_bind (fun _ => safe_bind (safe_space n) (fun _ => safe_bind hf (fun _ =>
    safe_bind (safe_alloc_term n) (fun _ => safe_pure n _))))

theorem safe_parse_app {n : Nat} {f : M term} (hf : M.safe n f) : M.safe (n + 1) (parse_app f) :=
  safe_pop_bind (fun _ => safe_bind (safe_space n) (fun _ => safe_bind hf (fun _ =>
    safe_bind (safe_space n) (fun _ => safe_bind hf (fun _ =>
      safe_bind (safe_alloc_term n) (fun _ => safe_pure n _))))))

theorem safe_parse_plus {n : Nat} {f : M term} (hf : M.safe n f) :
    M.safe (n + 1) (parse_plus f) :=
  safe_pop_bind (fun _ => safe_bind (safe_space n) (fun _ => safe_bind hf (fun _ =>
    safe_bind (safe_space n) (fun _ => safe_bind hf (fun _ =>
      safe_bind (safe_alloc_term n) (fun _ => safe_pure n _))))))

theorem safe_parse_ite {n : Nat} {f : M term} (hf : M.safe n f) : M.safe (n + 1) (parse_ite f) :=
  safe_pop_bind (fun _ => safe_bind (safe_space n) (fun _ => safe_bind hf (fun _ =>
    safe_bind (safe_space n) (fun _ => safe_bind hf (fun _ =>
      safe_bind (safe_space n) (fun _ => safe_bind hf (fun _ =>
        safe_bind (safe_alloc_term n) (fun _ => safe_pure n _))))))))

/-- With more recursion depth than characters of input, `parse_term_aux` ends
and leaves no more input than it found. -/
theorem safe_parse_term_aux : ∀ n : Nat, M.safe n (parse_term_aux n) := by
  intro n
  induction n with
  | zero => intro s hs; omega
  | succ n ih =>
    intro s hs
    simp only [parse_term_aux]
    split
    · exact safe_parse_var _ s hs
    split
    · exact safe_parse_app ih s hs
    split
    · exact safe_parse_lam ih s hs
    split
    · exact safe_parse_ite ih s hs
    split
    · exact safe_parse_plus ih s hs
    split
    · exact safe_parse_neg _ s hs
    split
    · exact safe_parse_num _ s hs
    · simp

theorem parse_term_aux_succ (fuel : Nat) (s : State) :
    parse_term_aux (fuel + 1) s =
      if peek s = '$' then parse_var s
      else if peek s = '@' then parse_app (parse_term_aux fuel) s
      else if peek s = '\\' then parse_lam (parse_term_aux fuel) s
      else if peek s = '?' then parse_ite (parse_term_aux fuel) s
      else if peek s = '+' then parse_plus (parse_term_aux fuel) s
      else if peek s = '-' then parse_neg s
      else if is_digit (peek s) then parse_num s
      else Res.fatal (Err.parse_term_unexpected_char (peek s)) s := rfl

theorem parse_lam_le {f g : M term} (h : M.le f g) : M.le (parse_lam f) (parse_lam g) :=
  M.le_bind (M.le_refl _) (fun _ => M.le_bind (M.le_refl _) (fun _ => M.le_bind h
    (fun _ => M.le_refl _)))

theorem parse_app_le {f g : M term} (h : M.le f g) : M.le (parse_app f) (parse_app g) :=
  M.le_bind (M.le_refl _) (fun _ => M.le_bind (M.le_refl _) (fun _ => M.le_bind h
    (fun _ => M.le_bind (M.le_refl _) (fun _ => M.le_bind h (fun _ => M.le_refl _)))))

theorem parse_plus_le {f g : M term} (h : M.le f g) : M.le (parse_plus f) (parse_plus g) :=
  M.le_bind (M.le_refl _) (fun _ => M.le_bind (M.le_refl _) (fun _ => M.le_bind h
    (fun _ => M.le_bind (M.le_refl _) (fun _ => M.le_bind h (fun _ => M.le_refl _)))))

theorem parse_ite_le {f g : M term} (h : M.le f g) : M.le (parse_ite f) (parse_ite g) :=
  M.le_bind (M.le_refl _) (fun _ => M.le_bind (M.le_refl _) (fun _ => M.le_bind h
    (fun _ => M.le_bind (M.le_refl _) (fun _ => M.le_bind h (fun _ =>
      M.le_bind (M.le_refl _) (fun _ => M.le_bind h (fun _ => M.le_refl _)))))))

theorem parse_term_aux_le_succ : ∀ n : Nat, M.le (parse_term_aux n) (parse_term_aux (n + 1)) := by
  intro n
  induction n with
  | zero => intro s hs; exact absurd rfl hs
  | succ n ih =>
    intro s hs
    rw [parse_term_aux_succ n s] at hs
    rw [parse_term_aux_succ (n + 1) s, parse_term_aux_succ n s]
    split
    · rfl
    · next h1 =>
      simp only [h1, if_false] at hs
      split
      · next h2 =>
        simp only [h2, if_true] at hs
        exact parse_app_le ih s hs
      · next h2 =>
        simp only [h2, if_false] at hs
        split
        · next h3 =>
          simp only [h3, if_true] at hs
          exact parse_lam_le ih s hs
        · next h3 =>
          simp only [h3, if_false] at hs
          split
          · next h4 =>
            simp only [h4, if_true] at hs
            exact parse_ite_le ih s hs
          · next h4 =>
            simp only [h4, if_false] at hs
            split
            · next h5 =>
              simp only [h5, if_true] at hs
              exact parse_plus_le ih s hs
            · rfl

theorem parse_term_aux_le {n m : Nat} (h : n ≤ m) : M.le (parse_term_aux n) (parse_term_aux m) := by
  induction h with
  | refl => exact M.le_refl _
  | step _ ih => exact M.le_trans ih (parse_term_aux_le_succ _)

/-- Any recursion depth above the length of the input gives the outcome of
`parse_term`. -/
theorem parse_term_aux_fuel {n : Nat} {s : State} (h : s.glob.length < n) :
    parse_term_aux n s = parse_term s :=
  parse_term_aux_le (Nat.succ_le_of_lt h) s
    (safe_parse_term_aux (s.glob.length + 1) s (Nat.lt_succ_self _)).1

/-! ## Soundness of the parser -/

theorem bind_eq_ok {α β : Type} {x : M α} {f : α → M β} {s : State} {b : β} {s2 : State} :
    (x >>= f) s = Res.ok b s2 ↔ ∃ a s1, x s = Res.ok a s1 ∧ f a s1 = Res.ok b s2 := by
  simp only [bind_apply]
  cases x s with
  | ok a s1 =>
    constructor
    · intro h; exact ⟨a, s1, rfl, h⟩
    · rintro ⟨a1, s3, h1, h2⟩; cases h1; exact h2
  | fatal e s1 => simp
  | out_of_fuel => simp

theorem term_size_wrap (t : term) : term_size (wrap_term t) = term_size t := by
  induction t <;> simp [wrap_term, term_size, *]

theorem term_in_range_wrap (t : term) : term_in_range (wrap_term t) := by
  induction t <;> simp [wrap_term, term_in_range, wrap_int_range, *]

theorem wrap_term_of_range {t : term} (h : term_in_range t) : wrap_term t = t := by
  induction t <;> simp_all [wrap_term, term_in_range, wrap_int_of_range]

theorem pop_ok_inv {mt : term_array} {mv : val_array} {ml : val_list_array} {g : List Char}
    {c : Char} {s1 : State} (h : pop ⟨mt, mv, ml, g⟩ = Res.ok c s1) :
    ∃ l, g = c :: l ∧ s1 = ⟨mt, mv, ml, l⟩ := by
  cases g with
  | nil => simp [pop, eof, peek] at h
  | cons d l =>
    simp only [pop, eof, peek, List.headD_cons, List.tail_cons] at h
    split at h
    · cases h
    · cases h; exact ⟨l, rfl, rfl⟩

theorem space_ok_inv {mt : term_array} {mv : val_array} {ml : val_list_array} {g : List Char}
    {u : Unit} {s1 : State} (h : space ⟨mt, mv, ml, g⟩ = Res.ok u s1) :
    ∃ l, g = ' ' :: l ∧ s1 = ⟨mt, mv, ml, l⟩ := by
  simp only [space, bind_eq_ok] at h
  obtain ⟨d, s0, hp, hd⟩ := h
  obtain ⟨l, rfl, rfl⟩ := pop_ok_inv hp
  split at hd
  · next hsp => subst hsp; cases hd; exact ⟨l, rfl, rfl⟩
  · cases hd

theorem alloc_term_ok_inv {mt : term_array} {mv : val_array} {ml : val_list_array}
    {g : List Char} {a : Nat} {s1 : State} (h : alloc_term ⟨mt, mv, ml, g⟩ = Res.ok a s1) :
    0 < mt.buff_size ∧ s1 = ⟨⟨mt.buff_size - 1, mt.addr + 1⟩, mv, ml, g⟩ := by
  simp only [alloc_term] at h
  split at h
  · cases h
  · cases h; exact ⟨by omega, rfl⟩

theorem parse_int_ok_inv {mt : term_array} {mv : val_array} {ml : val_list_array}
    {g : List Char} {i : Int} {s1 : State} (h : parse_int ⟨mt, mv, ml, g⟩ = Res.ok i s1) :
    ∃ ds rest, g = ds ++ rest ∧ (∀ c ∈ ds, is_digit c = true) ∧ no_digit_head rest ∧
      i = wrap_int (decimal_value ds) ∧ s1 = ⟨mt, mv, ml, rest⟩ := by
  rw [parse_int_eq] at h
  cases h
  refine ⟨g.takeWhile is_digit, g.dropWhile is_digit, (List.takeWhile_append_dropWhile _ _).symm,
    fun c hc => List.mem_takeWhile_imp hc, ?_, rfl, rfl⟩
  intro c hc
  have := List.head?_dropWhile_not is_digit g
  rw [hc] at this
  simpa using this

theorem peek_cons (mt : term_array) (mv : val_array) (ml : val_list_array) (c : Char)
    (l : List Char) : peek ⟨mt, mv, ml, c :: l⟩ = c := rfl

/-- Soundness of the parser: what a successful `parse_term_aux` consumed is
derivable in the grammar in which the integer after `$` or `-` may be empty,
the returned term is the denoted one with its literals reduced to `int`, and one
term slot per node was taken. -/
theorem parse_term_aux_sound : ∀ (fuel : Nat) (mt : term_array) (mv : val_array)
    (ml : val_list_array) (g : List Char) (t : term) (s1 : State),
    parse_term_aux fuel ⟨mt, mv, ml, g⟩ = Res.ok t s1 →
    ∃ consumed t0 rest, g = consumed ++ rest ∧ Derives true consumed t0 ∧ t = wrap_term t0 ∧
      no_digit_head rest ∧ term_size t0 ≤ mt.buff_size ∧
      s1 = ⟨⟨mt.buff_size - term_size t0, mt.addr + term_size t0⟩, mv, ml, rest⟩ := by
  intro fuel
  induction fuel with
  | zero => intro mt mv ml g t s1 h; cases h
  | succ fuel ih =>
    intro mt mv ml g t s1 h
    rw [parse_term_aux_succ] at h
    split at h
    · next hpk =>
      simp only [parse_var, mk_var, bind_eq_ok] at h
      obtain ⟨c, s2, hp, i, s3, hi, a, s4, ha, hr⟩ := h
      obtain ⟨l, rfl, rfl⟩ := pop_ok_inv hp
      obtain ⟨ds, rest, rfl, hd, hnd, rfl, rfl⟩ := parse_int_ok_inv hi
      obtain ⟨hb, rfl⟩ := alloc_term_ok_inv ha
      rw [peek_cons] at hpk
      subst hpk
      cases hr
      exact ⟨'$' :: ds, term.VAR (decimal_value ds), rest, rfl, Derives.var ds hd (Or.inl rfl),
        rfl, hnd, hb, rfl⟩
    split at h
    · next hpk =>
      simp only [parse_app, mk_app, bind_eq_ok] at h
      obtain ⟨c, s2, hp, u, s3, hs, t1, s4, h1, u2, s5, hs2, t2, s6, h2, a, s7, ha, hr⟩ := h
      obtain ⟨l, rfl, rfl⟩ := pop_ok_inv hp
      obtain ⟨l2, rfl, rfl⟩ := space_ok_inv hs
      obtain ⟨c1, t01, r1, rfl, d1, rfl, -, cap1, rfl⟩ := ih _ _ _ _ _ _ h1
      obtain ⟨l3, rfl, rfl⟩ := space_ok_inv hs2
      obtain ⟨c2, t02, r2, rfl, d2, rfl, nd2, cap2, rfl⟩ := ih _ _ _ _ _ _ h2
      obtain ⟨hb, rfl⟩ := alloc_term_ok_inv ha
      rw [peek_cons] at hpk
      subst hpk
      cases hr
      simp only at cap2 hb
      refine ⟨'@' :: ' ' :: (c1 ++ ' ' :: c2), term.APP t01 t02, r2, by simp, Derives.app d1 d2,
        rfl, nd2, by simp only [term_size]; omega, ?_⟩
      simp only [term_size, State.mk.injEq, term_array.mk.injEq, and_true, true_and]
      omega
    split at h
    · next hpk =>
      simp only [parse_lam, mk_lam, bind_eq_ok] at h
      obtain ⟨c, s2, hp, u, s3, hs, t1, s4, h1, a, s7, ha, hr⟩ := h
      obtain ⟨l, rfl, rfl⟩ := pop_ok_inv hp
      obtain ⟨l2, rfl, rfl⟩ := space_ok_inv hs
      obtain ⟨c1, t01, r1, rfl, d1, rfl, nd1, cap1, rfl⟩ := ih _ _ _ _ _ _ h1
      obtain ⟨hb, rfl⟩ := alloc_term_ok_inv ha
      rw [peek_cons] at hpk
      subst hpk
      cases hr
      simp only at hb
      refine ⟨'\\' :: ' ' :: c1, term.LAM t01, r1, by simp, Derives.lam d1,
        rfl, nd1, by simp only [term_size]; omega, ?_⟩
      simp only [term_size, State.mk.injEq, term_array.mk.injEq, and_true, true_and]
      omega
    split at h
    · next hpk =>
      simp only [parse_ite, mk_ite, bind_eq_ok] at h
      obtain ⟨c, s2, hp, u, s3, hs, t1, s4, h1, u2, s5, hs2, t2, s6, h2, u3, s8, hs3, t3, s9, h3,
        a, s7, ha, hr⟩ := h
      obtain ⟨l, rfl, rfl⟩ := pop_ok_inv hp
      obtain ⟨l2, rfl, rfl⟩ := space_ok_inv hs
      obtain ⟨c1, t01, r1, rfl, d1, rfl, -, cap1, rfl⟩ := ih _ _ _ _ _ _ h1
      obtain ⟨l3, rfl, rfl⟩ := space_ok_inv hs2
      obtain ⟨c2, t02, r2, rfl, d2, rfl, -, cap2, rfl⟩ := ih _ _ _ _ _ _ h2
      obtain ⟨l4, rfl, rfl⟩ := space_ok_inv hs3
      obtain ⟨c3, t03, r3, rfl, d3, rfl, nd3, cap3, rfl⟩ := ih _ _ _ _ _ _ h3
      obtain ⟨hb, rfl⟩ := alloc_term_ok_inv ha
      rw [peek_cons] at hpk
      subst hpk
      cases hr
      simp only at cap2 cap3 hb
      refine ⟨'?' :: ' ' :: (c1 ++ ' ' :: (c2 ++ ' ' :: c3)), term.ITE t01 t02 t03, r3, by simp,
        Derives.ite d1 d2 d3, rfl, nd3, by simp only [term_size]; omega, ?_⟩
      simp only [term_size, State.mk.injEq, term_array.mk.injEq, and_true, true_and]
      omega
    split at h
    · next hpk =>
      simp only [parse_plus, mk_plus, bind_eq_ok] at h
      obtain ⟨c, s2, hp, u, s3, hs, t1, s4, h1, u2, s5, hs2, t2, s6, h2, a, s7, ha, hr⟩ := h
      obtain ⟨l, rfl, rfl⟩ := pop_ok_inv hp
      obtain ⟨l2, rfl, rfl⟩ := space_ok_inv hs
      obtain ⟨c1, t01, r1, rfl, d1, rfl, -, cap1, rfl⟩ := ih _ _ _ _ _ _ h1
      obtain ⟨l3, rfl, rfl⟩ := space_ok_inv hs2
      obtain ⟨c2, t02, r2, rfl, d2, rfl, nd2, cap2, rfl⟩ := ih _ _ _ _ _ _ h2
      obtain ⟨hb, rfl⟩ := alloc_term_ok_inv ha
      rw [peek_cons] at hpk
      subst hpk
      cases hr
      simp only at cap2 hb
      refine ⟨'+' :: ' ' :: (c1 ++ ' ' :: c2), term.PLUS t01 t02, r2, by simp,
        Derives.plus d1 d2, rfl, nd2, by simp only [term_size]; omega, ?_⟩
      simp only [term_size, State.mk.injEq, term_array.mk.injEq, and_true, true_and]
      omega
    split at h
    · next hpk =>
      simp only [parse_neg, mk_num, bind_eq_ok] at h
      obtain ⟨c, s2, hp, i, s3, hi, a, s4, ha, hr⟩ := h
      obtain ⟨l, rfl, rfl⟩ := pop_ok_inv hp
      obtain ⟨ds, rest, rfl, hd, hnd, rfl, rfl⟩ := parse_int_ok_inv hi
      obtain ⟨hb, rfl⟩ := alloc_term_ok_inv ha
      rw [peek_cons] at hpk
      subst hpk
      cases hr
      exact ⟨'-' :: ds, term.NUM (-decimal_value ds), rest, rfl,
        Derives.neg ds hd (Or.inl rfl), by simp [wrap_term, wrap_int_neg], hnd, hb, rfl⟩
    split at h
    · next hpk =>
      simp only [parse_num, mk_num, bind_eq_ok] at h
      obtain ⟨i, s3, hi, a, s4, ha, hr⟩ := h
      obtain ⟨ds, rest, rfl, hd, hnd, rfl, rfl⟩ := parse_int_ok_inv hi
      obtain ⟨hb, rfl⟩ := alloc_term_ok_inv ha
      cases hr
      have hne : ds ≠ [] := by
        rintro rfl
        cases rest with
        | nil => simp [peek, is_digit] at hpk
        | cons c r =>
          rw [List.nil_append, peek_cons] at hpk
          rw [hnd c rfl] at hpk
          cases hpk
      exact ⟨ds, term.NUM (decimal_value ds), rest, rfl, Derives.num ds hd hne, rfl, hnd, hb, rfl⟩
    · cases h

/-! ## Printing integers -/

theorem digitChar_spec : ∀ d, d < 10 →
    is_digit (Nat.digitChar d) = true ∧ ((Nat.digitChar d).toNat : Int) - 48 = (d : Int) := by
  decide

theorem decimal_value_snoc (ds : List Char) (c : Char) :
    decimal_value (ds ++ [c]) = decimal_value ds * 10 + ((c.toNat : Int) - 48) := by
  simp [decimal_value, List.foldl_append]

theorem toDigitsCore_spec : ∀ (fuel n : Nat) (acc : List Char), n < fuel →
    ∃ ds, Nat.toDigitsCore 10 fuel n acc = ds ++ acc ∧ ds ≠ [] ∧
      (∀ c ∈ ds, is_digit c = true) ∧ decimal_value ds = (n : Int) := by
  intro fuel
  induction fuel with
  | zero => intro n acc h; omega
  | succ fuel ih =>
    intro n acc h
    obtain ⟨hd1, hd2⟩ := digitChar_spec (n % 10) (Nat.mod_lt _ (by decide))
    simp only [Nat.toDigitsCore]
    split
    · next h0 =>
      refine ⟨[Nat.digitChar (n % 10)], rfl, by simp, by simpa using hd1, ?_⟩
      have := decimal_value_snoc [] (Nat.digitChar (n % 10))
      simp only [List.nil_append] at this
      rw [this, hd2]
      simp only [decimal_value, List.foldl_nil]
      omega
    · next h0 =>
      obtain ⟨ds, h1, h2, h3, h4⟩ := ih (n / 10) (Nat.digitChar (n % 10) :: acc) (by omega)
      refine ⟨ds ++ [Nat.digitChar (n % 10)], by simp [h1], by simp, ?_, ?_⟩
      · intro c hc
        rcases List.mem_append.1 hc with hc | hc
        · exact h3 c hc
        · simp only [List.mem_singleton] at hc; subst hc; exact hd1
      · rw [decimal_value_snoc, h4, hd2]
        omega

theorem toDigits_spec (n : Nat) :
    Nat.toDigits 10 n ≠ [] ∧ (∀ c ∈ Nat.toDigits 10 n, is_digit c = true) ∧
      decimal_value (Nat.toDigits 10 n) = (n : Int) := by
  obtain ⟨ds, h1, h2, h3, h4⟩ := toDigitsCore_spec (n + 1) n [] (Nat.lt_succ_self n)
  simp only [List.append_nil] at h1
  simp only [Nat.toDigits, h1]
  exact ⟨h2, h3, h4⟩

/-- What `pretty_term` prints for a term without negative variable index is
derivable in the grammar of the specification and denotes that term. -/
theorem pretty_term_derives : ∀ t : term, vars_nonneg t → Derives false (pretty_term t) t := by
  intro t
  induction t with
  | VAR i =>
    intro hv
    simp only [vars_nonneg] at hv
    obtain ⟨h1, h2, h3⟩ := toDigits_spec i.toNat
    have h := @Derives.var false _ h2 (Or.inr h1)
    rw [h3, Int.toNat_of_nonneg hv] at h
    simpa [pretty_term, fmt_d, not_lt.2 hv] using h
  | NUM i =>
    intro _
    by_cases hi : i < 0
    · obtain ⟨h1, h2, h3⟩ := toDigits_spec i.natAbs
      have h := @Derives.neg false _ h2 (Or.inr h1)
      have e : -((i.natAbs : Nat) : Int) = i := by omega
      rw [h3, e] at h
      simpa [pretty_term, fmt_d, hi] using h
    · obtain ⟨h1, h2, h3⟩ := toDigits_spec i.toNat
      have h := @Derives.num false _ h2 h1
      rw [h3, Int.toNat_of_nonneg (not_lt.1 hi)] at h
      simpa [pretty_term, fmt_d, hi] using h
  | APP a b iha ihb => intro hv; exact Derives.app (iha hv.1) (ihb hv.2)
  | LAM b ihb => intro hv; exact Derives.lam (ihb hv)
  | PLUS a b iha ihb => intro hv; exact Derives.plus (iha hv.1) (ihb hv.2)
  | ITE c a b ihc iha ihb => intro hv; exact Derives.ite (ihc hv.1) (iha hv.2.1) (ihb hv.2.2)

/-- Completeness of `parse_term` on a whole input derived by the grammar. -/
theorem parse_term_derives {empty_ok : Bool} {str : List Char} {t : term} (s : State)
    (h : Derives empty_ok str t) (hcap : term_size t ≤ s.mem_term.buff_size) :
    parse_term { s with glob := str }
      = Res.ok (wrap_term t)
          { s with
            glob := []
            mem_term := ⟨s.mem_term.buff_size - term_size t, s.mem_term.addr + term_size t⟩ } := by
  have := parse_term_aux_derives h (str.length + 1) s.mem_term s.mem_val s.mem_val_list []
    (Nat.lt_succ_self _) no_digit_head_nil hcap
  simp only [List.append_nil] at this
  exact this

/-! ## C1: the parser accepts the grammar -/

/-- C1, amended: for every string the grammar of section 4.2 derives
(`Derives false`) and every state with at least as many free term slots as the
denoted term has nodes, `parse_term` succeeds, consumes the whole string, takes
exactly one slot per node, and returns the denoted term with each integer
literal reduced modulo `2^32` to the `int` it is stored in; literals that fit in
an `int` are returned unchanged. -/
theorem parse_term_accepts_grammar (str : List Char) (t : term) (s : State)
    (h : Derives false str t) (hcap : term_size t ≤ s.mem_term.buff_size) :
    parse_term { s with glob := str }
        = Res.ok (wrap_term t)
            { s with
              glob := []
              mem_term := ⟨s.mem_term.buff_size - term_size t, s.mem_term.addr + term_size t⟩ }
      ∧ (term_in_range t → wrap_term t = t) := by
  exact ⟨parse_term_derives s h hcap, wrap_term_of_range⟩

/-- C1, witness: the text of an application of an abstraction to a literal. -/
theorem parse_term_accepts_grammar_witness :
    parse_term (init_state "@ \\ $0 12".toList)
      = Res.ok (term.APP (term.LAM (term.VAR 0)) (term.NUM 12))
          { init_state [] with mem_term := ⟨9996, 4⟩ } :=
  (parse_term_accepts_grammar _ _ (init_state [])
    (Derives.app (Derives.lam (Derives.var ['0'] (by decide) (Or.inr (by decide))))
      (Derives.num ['1', '2'] (by decide) (by decide)))
    (by decide)).1

/-- C1 as stated fails: the grammar derives `2147483648` as the literal of that
value, and `parse_term` returns `Number(-2147483648)`. -/
theorem parse_term_literal_overflow :
    Derives false "2147483648".toList (term.NUM 2147483648) ∧
    parse_term (init_state "2147483648".toList)
      = Res.ok (term.NUM (-2147483648)) { init_state [] with mem_term := ⟨9999, 1⟩ } ∧
    parse_term (init_state "2147483648".toList)
      ≠ Res.ok (term.NUM 2147483648) { init_state [] with mem_term := ⟨9999, 1⟩ } :=
  ⟨Derives.num "2147483648".toList (by decide) (by decide), by decide, by decide⟩

/-! ## C2: printing and parsing again -/

/-- C2, amended: if `parse_term` returns a term `t` in which no variable index
is negative (as for every input whose variable literals are below `2^31`), then
`parse_term` on the text `pretty_term` prints for `t`, in any state with at
least `term_size t` free term slots, succeeds, consumes the whole text and
returns `t` itself, negative numeric literals included. -/
theorem parse_pretty_roundtrip (s s1 : State) (t : term) (hp : parse_term s = Res.ok t s1)
    (hv : vars_nonneg t) (s2 : State) (hcap : term_size t ≤ s2.mem_term.buff_size) :
    parse_term { s2 with glob := pretty_term t }
      = Res.ok t
          { s2 with
            glob := []
            mem_term := ⟨s2.mem_term.buff_size - term_size t, s2.mem_term.addr + term_size t⟩ } := by
  obtain ⟨mt, mv, ml, g⟩ := s
  obtain ⟨consumed, t0, rest, -, -, ht, -, -, -⟩ := parse_term_aux_sound _ mt mv ml g t s1 hp
  have hr : term_in_range t := ht ▸ term_in_range_wrap t0
  have h := parse_term_derives s2 (pretty_term_derives t hv) hcap
  rw [wrap_term_of_range hr] at h
  exact h

/-- C2, witness: a conditional with a negative literal and an application. -/
theorem parse_pretty_roundtrip_witness :
    parse_term (init_state (pretty_term
        (term.ITE (term.VAR 1) (term.NUM (-7)) (term.APP (term.LAM (term.VAR 0)) (term.NUM 12)))))
      = Res.ok
          (term.ITE (term.VAR 1) (term.NUM (-7)) (term.APP (term.LAM (term.VAR 0)) (term.NUM 12)))
          { init_state [] with mem_term := ⟨9993, 7⟩ } :=
  parse_pretty_roundtrip (init_state "? $1 -7 @ \\ $0 12".toList)
    { init_state [] with mem_term := ⟨9993, 7⟩ }
    (term.ITE (term.VAR 1) (term.NUM (-7)) (term.APP (term.LAM (term.VAR 0)) (term.NUM 12)))
    (by decide!) (by simp [vars_nonneg]) (init_state []) (by decide)

/-- C2 as stated fails: `$2147483648` conforms to the grammar, `parse_term`
returns `Variable(-2147483648)` for it, `pretty_term` prints that term as
`$-2147483648`, and on this text `parse_term` returns `Variable(0)` and stops
before the `-`. -/
theorem roundtrip_negative_index :
    Derives false "$2147483648".toList (term.VAR 2147483648) ∧
    parse_term (init_state "$2147483648".toList)
      = Res.ok (term.VAR (-2147483648)) { init_state [] with mem_term := ⟨9999, 1⟩ } ∧
    pretty_term (term.VAR (-2147483648)) = "$-2147483648".toList ∧
    parse_term (init_state (pretty_term (term.VAR (-2147483648))))
      = Res.ok (term.VAR 0)
          { init_state "-2147483648".toList with mem_term := ⟨9999, 1⟩ } :=
  ⟨Derives.var "2147483648".toList (by decide) (Or.inr (by decide)), by decide, by decide,
    by decide⟩

/-! ## The evaluator, one step at a time -/

theorem Evals.intro {fuel : Nat} {t : term} {env : val_list} {s : State} {r : Res value}
    (h : eval fuel t env s = r) (hne : r ≠ Res.out_of_fuel) : Evals t env s r :=
  ⟨fuel, h, hne⟩

theorem Evals.eq_or_oof {t : term} {env : val_list} {s : State} {r : Res value}
    (h : Evals t env s r) (f : Nat) : eval f t env s = r ∨ eval f t env s = Res.out_of_fuel := by
  by_cases hf : eval f t env s = Res.out_of_fuel
  · exact Or.inr hf
  · exact Or.inl (Evals.det ⟨f, rfl, hf⟩ h)

theorem eval_zero (t : term) (env : val_list) (s : State) :
    eval 0 t env s = Res.out_of_fuel := by
  cases t <;> rfl

theorem Evals.fuel_pos {t : term} {env : val_list} {s : State} {r : Res value}
    (h : Evals t env s r) : ∃ f, eval (f + 1) t env s = r ∧ r ≠ Res.out_of_fuel := by
  obtain ⟨f, hf, hne⟩ := h
  exact ⟨f, eval_mono (Nat.le_succ f) hf hne, hne⟩

theorem mk_vnum_ok {s : State} (i : Int) (h : 0 < s.mem_val.buff_size) :
    mk_vnum i s = Res.ok (value.VNUM i) s.take_val := by
  have hb : ¬ s.mem_val.buff_size ≤ 0 := by omega
  simp [mk_vnum, alloc_val, hb, State.take_val]

theorem mk_vnum_ne_oof (i : Int) (s : State) : mk_vnum i s ≠ Res.out_of_fuel := by
  by_cases hb : s.mem_val.buff_size ≤ 0 <;> simp [mk_vnum, alloc_val, hb]

theorem mk_vclos_ok {s : State} (b : term) (env : val_list) (h : 0 < s.mem_val.buff_size) :
    mk_vclos b env s = Res.ok (value.VCLOS b env) s.take_val := by
  have hb : ¬ s.mem_val.buff_size ≤ 0 := by omega
  simp [mk_vclos, alloc_val, hb, State.take_val]

theorem cons_val_list_ok {s : State} (hd : value) (tl : val_list)
    (h : 0 < s.mem_val_list.buff_size) :
    cons_val_list hd tl s = Res.ok (val_list.cons hd tl) s.take_val_list := by
  have hb : ¬ s.mem_val_list.buff_size ≤ 0 := by omega
  simp [cons_val_list, alloc_val_list, hb, State.take_val_list]

theorem get_value_loop_nth : ∀ (env : val_list) (n : Nat) (out : value) (s : State),
    get_value_loop out env (n : Int) s =
      match env.nth n with
      | some v => Res.ok v s
      | none => Res.fatal Err.get_value_list_too_small s
  | .NULL, n, out, s => by
    rw [get_value_loop]
    simp [val_list.nth]
  | .cons hd tl, 0, out, s => by
    rw [get_value_loop]
    simp only [Nat.cast_zero, le_refl, if_true, val_list.nth]
    rw [get_value_loop]
    simp
  | .cons hd tl, n + 1, out, s => by
    rw [get_value_loop]
    have h0 : (0 : Int) ≤ ((n + 1 : Nat) : Int) := Int.ofNat_nonneg _
    have h1 : ((n + 1 : Nat) : Int) - 1 = (n : Int) := by push_cast; ring
    simp only [h0, if_true, h1, val_list.nth]
    exact get_value_loop_nth tl n hd s

theorem nth_lt_length : ∀ (env : val_list) (n : Nat), n < env.length → ∃ v, env.nth n = some v
  | .NULL, n, h => by simp [val_list.length] at h
  | .cons hd tl, 0, _ => ⟨hd, rfl⟩
  | .cons hd tl, n + 1, h => by
    simp only [val_list.length] at h
    simpa [val_list.nth] using nth_lt_length tl n (by omega)

theorem nth_ge_length : ∀ (env : val_list) (n : Nat), env.length ≤ n → env.nth n = none
  | .NULL, n, _ => rfl
  | .cons hd tl, 0, h => by simp [val_list.length] at h
  | .cons hd tl, n + 1, h => by
    simp only [val_list.length] at h
    simpa [val_list.nth] using nth_ge_length tl n (by omega)

/-- The conditional: once the condition has evaluated to a number, the outcome
of the conditional is the outcome of the selected branch in the state the
condition left. -/
theorem evals_ite {c t e : term} {env : val_list} {s s1 : State} {n : Int}
    (hc : Evals c env s (Res.ok (value.VNUM n) s1)) (r : Res value) :
    Evals (term.ITE c t e) env s r ↔ Evals (if n ≠ 0 then t else e) env s1 r := by
  constructor
  · intro h
    obtain ⟨f, hf, hne⟩ := h.fuel_pos
    refine ⟨f, ?_, hne⟩
    simp only [eval, bind_apply] at hf
    rcases hc.eq_or_oof f with h1 | h1
    · rw [h1] at hf
      by_cases hn : n = 0
      · simpa [hn] using hf
      · simpa [hn] using hf
    · rw [h1] at hf
      exact absurd hf.symm hne
  · rintro ⟨f2, hf2, hne⟩
    obtain ⟨f1, hf1, hne1⟩ := hc
    have e1 := eval_mono (Nat.le_max_left f1 f2) hf1 hne1
    have e2 := eval_mono (Nat.le_max_right f1 f2) hf2 hne
    refine ⟨max f1 f2 + 1, ?_, hne⟩
    simp only [eval, bind_apply, e1]
    by_cases hn : n = 0
    · simpa [hn] using e2
    · simpa [hn] using e2

/-- The application: once the function has evaluated to a closure and the
argument to a value, and a free environment cell is left, the outcome of the
application is the outcome of the closure body under the captured environment
extended with the argument. -/
theorem evals_app {f a body : term} {env cenv : val_list} {s s1 s2 : State} {v : value}
    (hf : Evals f env s (Res.ok (value.VCLOS body cenv) s1))
    (ha : Evals a env s1 (Res.ok v s2)) (hcell : 0 < s2.mem_val_list.buff_size)
    (r : Res value) :
    Evals (term.APP f a) env s r ↔ Evals body (val_list.cons v cenv) s2.take_val_list r := by
  constructor
  · intro h
    obtain ⟨k, hk, hne⟩ := h.fuel_pos
    refine ⟨k, ?_, hne⟩
    simp only [eval, bind_apply] at hk
    rcases hf.eq_or_oof k with h1 | h1
    · rw [h1] at hk
      simp only [bind_apply] at hk
      rcases ha.eq_or_oof k with h2 | h2
      · rw [h2] at hk
        simpa [cons_val_list_ok _ _ hcell] using hk
      · rw [h2] at hk
        exact absurd hk.symm hne
    · rw [h1] at hk
      exact absurd hk.symm hne
  · rintro ⟨k3, hk3, hne⟩
    obtain ⟨k1, hk1, hne1⟩ := hf
    obtain ⟨k2, hk2, hne2⟩ := ha
    have e1 := eval_mono (Nat.le_max_left k1 (max k2 k3)) hk1 hne1
    have e2 := eval_mono
      (Nat.le_trans (Nat.le_max_left k2 k3) (Nat.le_max_right k1 (max k2 k3))) hk2 hne2
    have e3 := eval_mono
      (Nat.le_trans (Nat.le_max_right k2 k3) (Nat.le_max_right k1 (max k2 k3))) hk3 hne
    refine ⟨max k1 (max k2 k3) + 1, ?_, hne⟩
    simp only [eval, bind_apply, e1, e2, cons_val_list_ok _ _ hcell, e3]

/-- A fatal condition in the first operand ends the compound form with that
condition, in the state of the exit. -/
theorem evals_first_fatal {x : term} {env : val_list} {s s1 : State} {e : Err}
    (hx : Evals x env s (Res.fatal e s1)) (y z : term) :
    Evals (term.PLUS x y) env s (Res.fatal e s1) ∧
    Evals (term.APP x y) env s (Res.fatal e s1) ∧
    Evals (term.ITE x y z) env s (Res.fatal e s1) := by
  obtain ⟨k, hk, hne⟩ := hx
  refine ⟨⟨k + 1, ?_, hne⟩, ⟨k + 1, ?_, hne⟩, ⟨k + 1, ?_, hne⟩⟩ <;>
    simp only [eval, bind_apply, hk]

/-- Addition: the outcome once both operands have evaluated to values. -/
theorem evals_plus {l r : term} {env : val_list} {s s1 s2 : State} {v1 v2 : value}
    (hl : Evals l env s (Res.ok v1 s1)) (hr : Evals r env s1 (Res.ok v2 s2)) :
    Evals (term.PLUS l r) env s
      (match v1 with
        | .NULL => Res.fatal Err.null_dereference s2
        | .VCLOS _ _ => Res.fatal Err.eval_plus_expected_int s2
        | .VNUM n1 =>
          match v2 with
          | .NULL => Res.fatal Err.null_dereference s2
          | .VCLOS _ _ => Res.fatal Err.eval_plus_expected_int s2
          | .VNUM n2 => mk_vnum (wrap_int (n1 + n2)) s2) := by
  obtain ⟨k1, hk1, hne1⟩ := hl
  obtain ⟨k2, hk2, hne2⟩ := hr
  have e1 := eval_mono (Nat.le_max_left k1 k2) hk1 hne1
  have e2 := eval_mono (Nat.le_max_right k1 k2) hk2 hne2
  refine ⟨max k1 k2 + 1, ?_, ?_⟩
  · simp only [eval, bind_apply, e1, e2]
    cases v1 <;> cases v2 <;> rfl
  · cases v1 <;> cases v2 <;> simp [mk_vnum_ne_oof]

/-- A fatal condition in the second operand of an addition, or in the argument
of an application whose function is a closure, ends the compound form with that
condition. -/
theorem evals_second_fatal {x y : term} {env : val_list} {s s1 s2 : State} {v : value} {e : Err}
    (hx : Evals x env s (Res.ok v s1)) (hy : Evals y env s1 (Res.fatal e s2)) :
    Evals (term.PLUS x y) env s (Res.fatal e s2) ∧
    (v.is_clos → Evals (term.APP x y) env s (Res.fatal e s2)) := by
  obtain ⟨k1, hk1, hne1⟩ := hx
  obtain ⟨k2, hk2, hne2⟩ := hy
  have e1 := eval_mono (Nat.le_max_left k1 k2) hk1 hne1
  have e2 := eval_mono (Nat.le_max_right k1 k2) hk2 hne2
  refine ⟨⟨max k1 k2 + 1, ?_, hne2⟩, fun hv => ⟨max k1 k2 + 1, ?_, hne2⟩⟩
  · simp only [eval, bind_apply, e1, e2]
  · cases v with
    | NULL => exact absurd hv (by simp [value.is_clos])
    | VNUM _ => exact absurd hv (by simp [value.is_clos])
    | VCLOS b ce => simp only [eval, bind_apply, e1, e2]

/-! ## C3: de Bruijn lookup -/

/-- C3: for every `n ≥ 0` and every environment, evaluating `Variable(n)` is
`get_value(env, n)`; with at least `n + 1` bindings it returns the element at
position `n` counted from the head, with `n` or fewer it exits with
`get_value: list too small` (an unbound variable); in both cases the state, and
so every pool, is left as it was. -/
theorem eval_var_lookup (n : Nat) (env : val_list) (s : State) :
    (∀ fuel, eval (fuel + 1) (term.VAR n) env s = get_value env n s) ∧
    (n < env.length →
      ∃ v, env.nth n = some v ∧ get_value env n s = Res.ok v s ∧
        Evals (term.VAR n) env s (Res.ok v s)) ∧
    (env.length ≤ n →
      get_value env n s = Res.fatal Err.get_value_list_too_small s ∧
        Evals (term.VAR n) env s (Res.fatal Err.get_value_list_too_small s)) ∧
    Err.kind Err.get_value_list_too_small = Fatal.UnboundVariable := by
  have hg := get_value_loop_nth env n value.NULL s
  refine ⟨fun _ => rfl, fun h => ?_, fun h => ?_, rfl⟩
  · obtain ⟨v, hv⟩ := nth_lt_length env n h
    rw [hv] at hg
    exact ⟨v, hv, hg, 1, hg, by simp⟩
  · rw [nth_ge_length env n h] at hg
    exact ⟨hg, 1, hg, by simp⟩

/-- C3, witness: index 1 in an environment of two bindings is the second most
recently pushed value; index 2 is unbound there. -/
theorem eval_var_lookup_witness :
    (∃ v, (val_list.cons (value.VNUM 7) (val_list.cons (value.VNUM 9) val_list.NULL)).nth 1
        = some v ∧
      get_value (val_list.cons (value.VNUM 7) (val_list.cons (value.VNUM 9) val_list.NULL))
        ((1 : Nat) : Int) (init_state []) = Res.ok v (init_state []) ∧
      Evals (term.VAR ((1 : Nat) : Int))
        (val_list.cons (value.VNUM 7) (val_list.cons (value.VNUM 9) val_list.NULL))
        (init_state []) (Res.ok v (init_state []))) ∧
    Evals (term.VAR ((2 : Nat) : Int))
      (val_list.cons (value.VNUM 7) (val_list.cons (value.VNUM 9) val_list.NULL))
      (init_state []) (Res.fatal Err.get_value_list_too_small (init_state [])) :=
  ⟨(eval_var_lookup 1 _ (init_state [])).2.1 (by decide),
    ((eval_var_lookup 2 _ (init_state [])).2.2.1 (by decide)).2⟩

/-! ## C4: addition of numbers -/

/-- C4, amended: for all integers `a` and `b`, every environment and a value
pool with at least three free slots, evaluating `Addition(Number(a),
Number(b))` returns `Number` of `a + b` reduced modulo `2^32` to an `int`, and
takes exactly three value slots; the result is the mathematical sum whenever
that sum fits in an `int`. -/
theorem eval_plus_numbers (a b : Int) (env : val_list) (s : State)
    (hcap : 3 ≤ s.mem_val.buff_size) :
    Evals (term.PLUS (term.NUM a) (term.NUM b)) env s
        (Res.ok (value.VNUM (wrap_int (a + b)))
          { s with mem_val := ⟨s.mem_val.buff_size - 3, s.mem_val.addr + 3⟩ })
      ∧ (int_range (a + b) → wrap_int (a + b) = a + b) := by
  refine ⟨⟨2, ?_, by simp⟩, wrap_int_of_range⟩
  have h1 : ¬ s.mem_val.buff_size ≤ 0 := by omega
  have h2 : ¬ s.mem_val.buff_size - 1 ≤ 0 := by omega
  have h3 : ¬ s.mem_val.buff_size - 1 - 1 ≤ 0 := by omega
  simp only [eval, bind_apply, mk_vnum, alloc_val, h1, h2, h3, if_false, pure_apply]
  simp only [Res.ok.injEq, State.mk.injEq, val_array.mk.injEq, true_and, and_true]
  omega

/-- C4, witness: `2 + (-5)` is `-3`. -/
theorem eval_plus_numbers_witness :
    Evals (term.PLUS (term.NUM 2) (term.NUM (-5))) val_list.NULL (init_state [])
      (Res.ok (value.VNUM (-3)) { init_state [] with mem_val := ⟨999997, 3⟩ }) :=
  (eval_plus_numbers 2 (-5) val_list.NULL (init_state []) (by decide)).1

/-- C4 as stated fails: `2^30` is representable in an `int`, and the sum of
`Number(2^30)` and `Number(2^30)` evaluates to `Number(-2^31)`, not to the
mathematical sum `2^31`. -/
theorem eval_plus_overflow :
    int_range 1073741824 ∧
    Evals (term.PLUS (term.NUM 1073741824) (term.NUM 1073741824)) val_list.NULL (init_state [])
      (Res.ok (value.VNUM (-2147483648)) { init_state [] with mem_val := ⟨999997, 3⟩ }) ∧
    ¬ Evals (term.PLUS (term.NUM 1073741824) (term.NUM 1073741824)) val_list.NULL (init_state [])
      (Res.ok (value.VNUM (1073741824 + 1073741824))
        { init_state [] with mem_val := ⟨999997, 3⟩ }) := by
  have h : Evals (term.PLUS (term.NUM 1073741824) (term.NUM 1073741824)) val_list.NULL
      (init_state [])
      (Res.ok (value.VNUM (-2147483648)) { init_state [] with mem_val := ⟨999997, 3⟩ }) :=
    ⟨2, rfl, by simp⟩
  refine ⟨by decide, h, fun h2 => ?_⟩
  have e := Evals.det h h2
  simp at e

/-! ## C5: the conditional evaluates one branch only -/

/-- C5: if the condition evaluates to `Number(n)`, leaving state `s1`, the
outcome of `Conditional(c, t, e)` (value or exit, and final state) is exactly
the outcome of `t` from `s1` when `n` is nonzero and of `e` from `s1` when `n`
is zero; the other branch does not occur in it. In particular, with a free
value slot for the condition, `Conditional(Number(0), t, e)` has the outcome
of `e` for every `t`, whatever `t` alone would do, and no slot is taken for
`t`. -/
theorem eval_ite_short_circuit (c t e : term) (env : val_list) (s : State) :
    (∀ n s1 r, Evals c env s (Res.ok (value.VNUM n) s1) →
      (Evals (term.ITE c t e) env s r ↔ Evals (if n ≠ 0 then t else e) env s1 r)) ∧
    (0 < s.mem_val.buff_size →
      ∀ r, Evals (term.ITE (term.NUM 0) t e) env s r ↔ Evals e env s.take_val r) := by
  refine ⟨fun n s1 r hc => evals_ite hc r, fun hv r => ?_⟩
  have hc : Evals (term.NUM 0) env s (Res.ok (value.VNUM 0) s.take_val) :=
    ⟨1, mk_vnum_ok 0 hv, by simp⟩
  simpa using evals_ite (t := t) (e := e) hc r

/-- C5, witness: `Variable(5)` alone is unbound in the empty environment, and
as the untaken branch of `Conditional(Number(0), Variable(5), Number(2))` it is
not evaluated: the value is `Number(2)` and two value slots are taken. The input
`? 0 1 2` parses to a conditional that evaluates to `Number(2)`. -/
theorem eval_ite_short_circuit_witness :
    Evals (term.VAR 5) val_list.NULL (init_state [])
      (Res.fatal Err.get_value_list_too_small (init_state [])) ∧
    Evals (term.ITE (term.NUM 0) (term.VAR 5) (term.NUM 2)) val_list.NULL (init_state [])
      (Res.ok (value.VNUM 2) { init_state [] with mem_val := ⟨999998, 2⟩ }) ∧
    parse_term (init_state "? 0 1 2".toList)
      = Res.ok (term.ITE (term.NUM 0) (term.NUM 1) (term.NUM 2))
          { init_state [] with mem_term := ⟨9996, 4⟩ } ∧
    Evals (term.ITE (term.NUM 0) (term.NUM 1) (term.NUM 2)) val_list.NULL
      { init_state [] with mem_term := ⟨9996, 4⟩ }
      (Res.ok (value.VNUM 2)
        { init_state [] with mem_term := ⟨9996, 4⟩, mem_val := ⟨999998, 2⟩ }) :=
  ⟨⟨1, rfl, by simp⟩,
    ((eval_ite_short_circuit (term.NUM 0) (term.VAR 5) (term.NUM 2) val_list.NULL
      (init_state [])).2 (by decide) _).2 ⟨1, rfl, by simp⟩,
    by decide!,
    ((eval_ite_short_circuit (term.NUM 0) (term.NUM 1) (term.NUM 2) val_list.NULL
      { init_state [] with mem_term := ⟨9996, 4⟩ }).2 (by decide) _).2 ⟨1, rfl, by simp⟩⟩

/-! ## C6: closures capture the environment of their abstraction -/

/-- C6: with a free value slot, `Abstraction(body)` under `E` evaluates to
`Closure(body, E)`. If then the argument `a` evaluates under `E` to `V` and a
free environment cell is left, the outcome of `Application(Abstraction(body),
a)` under `E` is the outcome of `body` under `cons(V, E)`; for a nested
abstraction `body = Abstraction(b)` (and one more free value slot) it is
`Closure(b, cons(V, E))`. In general an application evaluates the body of the
closure under the closure's captured environment extended with the argument,
whatever the environment `env2` of the application site is. -/
theorem closure_capture (body a : term) (E : val_list) (s : State)
    (hv : 0 < s.mem_val.buff_size) :
    Evals (term.LAM body) E s (Res.ok (value.VCLOS body E) s.take_val) ∧
    (∀ V s2, Evals a E s.take_val (Res.ok V s2) → 0 < s2.mem_val_list.buff_size →
      (∀ r, Evals (term.APP (term.LAM body) a) E s r
          ↔ Evals body (val_list.cons V E) s2.take_val_list r) ∧
      (0 < s2.mem_val.buff_size →
        Evals (term.APP (term.LAM (term.LAM body)) a) E s
          (Res.ok (value.VCLOS body (val_list.cons V E)) s2.take_val_list.take_val))) ∧
    (∀ (f x b : term) (env2 cenv : val_list) (s0 s1 s2 : State) (V : value) (r : Res value),
      Evals f env2 s0 (Res.ok (value.VCLOS b cenv) s1) → Evals x env2 s1 (Res.ok V s2) →
      0 < s2.mem_val_list.buff_size →
      (Evals (term.APP f x) env2 s0 r ↔ Evals b (val_list.cons V cenv) s2.take_val_list r)) := by
  have hlam : ∀ b : term, Evals (term.LAM b) E s (Res.ok (value.VCLOS b E) s.take_val) :=
    fun b => ⟨1, mk_vclos_ok b E hv, by simp⟩
  refine ⟨hlam body, fun V s2 ha hcell => ⟨fun r => evals_app (hlam body) ha hcell r, fun hv2 => ?_⟩,
    fun f x b env2 cenv s0 s1 s2 V r hf hx hcell => evals_app hf hx hcell r⟩
  refine (evals_app (hlam (term.LAM body)) ha hcell _).2 ⟨1, ?_, by simp⟩
  exact mk_vclos_ok body (val_list.cons V E) (s := s2.take_val_list) hv2

/-- C6, witness: the input `@ \ $0 4` (the identity applied to 4) parses to
`Application(Abstraction(Variable(0)), Number(4))` and evaluates to
`Number(4)`. -/
theorem closure_capture_witness :
    parse_term (init_state "@ \\ $0 4".toList)
      = Res.ok (term.APP (term.LAM (term.VAR 0)) (term.NUM 4))
          { init_state [] with mem_term := ⟨9996, 4⟩ } ∧
    Evals (term.APP (term.LAM (term.VAR 0)) (term.NUM 4)) val_list.NULL
      { init_state [] with mem_term := ⟨9996, 4⟩ }
      (Res.ok (value.VNUM 4)
        { init_state [] with
          mem_term := ⟨9996, 4⟩, mem_val := ⟨999998, 2⟩, mem_val_list := ⟨999999, 1⟩ }) :=
  ⟨by decide!,
    (((closure_capture (term.VAR 0) (term.NUM 4) val_list.NULL
      { init_state [] with mem_term := ⟨9996, 4⟩ } (by decide)).2.1 (value.VNUM 4)
      { init_state [] with mem_term := ⟨9996, 4⟩, mem_val := ⟨999998, 2⟩ }
      ⟨1, rfl, by simp⟩ (by decide)).1 _).2 ⟨1, rfl, by simp⟩⟩

/-! ## Pools only shrink -/

theorem pools_le_refl (s : State) : s.pools_le s := by
  simp [State.pools_le]

theorem pools_le_trans {s s1 s2 : State} (h1 : s.pools_le s1) (h2 : s1.pools_le s2) :
    s.pools_le s2 := by
  unfold State.pools_le at *
  omega

theorem shrinks_bind {α β : Type} {x : M α} {f : α → M β}
    (hx : M.shrinks x) (hf : ∀ a, M.shrinks (f a)) : M.shrinks (x >>= f) := by
  intro s
  have h1 := hx s
  simp only [bind_apply]
  cases hxs : x s with
  | out_of_fuel => trivial
  | fatal e s1 => rw [hxs] at h1; exact h1
  | ok a s1 =>
    rw [hxs] at h1
    have h2 := hf a s1
    simp only at h1 ⊢
    cases hfs : f a s1 with
    | out_of_fuel => trivial
    | fatal e s2 => rw [hfs] at h2; exact pools_le_trans h1 h2
    | ok b s2 => rw [hfs] at h2; exact pools_le_trans h1 h2

theorem shrinks_pure {α : Type} (a : α) : M.shrinks (pure a : M α) :=
  fun s => pools_le_refl s

theorem shrinks_exit {α : Type} (e : Err) : M.shrinks (M.exit e : M α) :=
  fun s => pools_le_refl s

theorem shrinks_alloc_val : M.shrinks alloc_val := by
  intro s
  by_cases hb : s.mem_val.buff_size ≤ 0
  · simp only [alloc_val, hb, if_true]
    exact pools_le_refl s
  · simp only [alloc_val, hb, if_false, State.pools_le, le_refl, and_self, true_and, and_true]
    omega

theorem shrinks_alloc_val_list : M.shrinks alloc_val_list := by
  intro s
  by_cases hb : s.mem_val_list.buff_size ≤ 0
  · simp only [alloc_val_list, hb, if_true]
    exact pools_le_refl s
  · simp only [alloc_val_list, hb, if_false, State.pools_le, le_refl, and_self, true_and, and_true]
    omega

theorem get_value_loop_state : ∀ (env : val_list) (pos : Int) (out : value) (s : State),
    (∃ v, get_value_loop out env pos s = Res.ok v s) ∨
      get_value_loop out env pos s = Res.fatal Err.get_value_list_too_small s
  | .NULL, pos, out, s => by
    rw [get_value_loop]
    split
    · exact Or.inr rfl
    · exact Or.inl ⟨out, rfl⟩
  | .cons hd tl, pos, out, s => by
    rw [get_value_loop]
    split
    · exact get_value_loop_state tl (pos - 1) hd s
    · exact Or.inl ⟨out, rfl⟩

theorem shrinks_get_value (env : val_list) (pos : Int) : M.shrinks (get_value env pos) := by
  intro s
  rcases get_value_loop_state env pos value.NULL s with ⟨v, h⟩ | h <;>
    simp only [get_value, h] <;> exact pools_le_refl s

theorem shrinks_mk_vnum (i : Int) : M.shrinks (mk_vnum i) :=
  shrinks_bind shrinks_alloc_val (fun _ => shrinks_pure _)

theorem shrinks_mk_vclos (b : term) (env : val_list) : M.shrinks (mk_vclos b env) :=
  shrinks_bind shrinks_alloc_val (fun _ => shrinks_pure _)

theorem shrinks_cons_val_list (hd : value) (tl : val_list) : M.shrinks (cons_val_list hd tl) :=
  shrinks_bind shrinks_alloc_val_list (fun _ => shrinks_pure _)

theorem shrinks_eval : ∀ (fuel : Nat) (t : term) (env : val_list), M.shrinks (eval fuel t env) := by
  intro fuel
  induction fuel with
  | zero => intro t env s; rw [eval_zero]; trivial
  | succ n ih =>
    intro t env
    cases t with
    | VAR i => simp only [eval]; exact shrinks_get_value _ _
    | NUM i => simp only [eval]; exact shrinks_mk_vnum _
    | LAM b => simp only [eval]; exact shrinks_mk_vclos _ _
    | PLUS a b =>
      simp only [eval]
      refine shrinks_bind (ih a env) (fun v1 => shrinks_bind (ih b env) (fun v2 => ?_))
      cases v1 with
      | NULL => exact shrinks_exit _
      | VCLOS _ _ => exact shrinks_exit _
      | VNUM _ =>
        cases v2 with
        | NULL => exact shrinks_exit _
        | VCLOS _ _ => exact shrinks_exit _
        | VNUM _ => exact shrinks_mk_vnum _
    | ITE c a b =>
      simp only [eval]
      refine shrinks_bind (ih c env) (fun v => ?_)
      cases v with
      | NULL => exact shrinks_exit _
      | VCLOS _ _ => exact shrinks_exit _
      | VNUM k =>
        simp only
        split
        · exact ih a env
        · exact ih b env
    | APP a b =>
      simp only [eval]
      refine shrinks_bind (ih a env) (fun v => ?_)
      cases v with
      | NULL => exact shrinks_exit _
      | VNUM _ => exact shrinks_exit _
      | VCLOS body cenv =>
        exact shrinks_bind (ih b env) (fun _ =>
          shrinks_bind (shrinks_cons_val_list _ _) (fun _ => ih _ _))

theorem Evals.pools_le {t : term} {env : val_list} {s s1 : State} {v : value}
    (h : Evals t env s (Res.ok v s1)) : s.pools_le s1 := by
  obtain ⟨k, hk, -⟩ := h
  have := shrinks_eval k t env s
  rw [hk] at this
  exact this

/-! ## C9: type mismatches -/

/-- C9: under every environment and state, (1) if `f` evaluates to a number,
`Application(f, a)` exits with `eval, case APP: expected lambda` in the state
`f` left, so `a` is not evaluated; (2) if `l` and `r` evaluate to values of
which at least one is a closure (the left one a closure, or the left one a
number and the right one a closure), `Addition(l, r)` exits with `eval, case
PLUS: Expected int * int`; (3) if `c` evaluates to a closure, `Conditional(c, t,
e)` exits with `eval, case ITE: Expected int` in the state `c` left, so neither
branch is evaluated; in none of these cases is a value returned; and these three
diagnostics are exactly the type mismatches. -/
theorem type_mismatch_fatal (env : val_list) (s : State) :
    (∀ (f a : term) (n : Int) (s1 : State), Evals f env s (Res.ok (value.VNUM n) s1) →
      Evals (term.APP f a) env s (Res.fatal Err.eval_app_expected_lambda s1) ∧
        ∀ v s2, ¬ Evals (term.APP f a) env s (Res.ok v s2)) ∧
    (∀ (l r : term) (v1 v2 : value) (s1 s2 : State),
      Evals l env s (Res.ok v1 s1) → Evals r env s1 (Res.ok v2 s2) →
      v1.is_clos ∨ (v1 ≠ value.NULL ∧ v2.is_clos) →
      Evals (term.PLUS l r) env s (Res.fatal Err.eval_plus_expected_int s2) ∧
        ∀ v s3, ¬ Evals (term.PLUS l r) env s (Res.ok v s3)) ∧
    (∀ (c t e b : term) (ce : val_list) (s1 : State),
      Evals c env s (Res.ok (value.VCLOS b ce) s1) →
      Evals (term.ITE c t e) env s (Res.fatal Err.eval_ite_expected_int s1) ∧
        ∀ v s2, ¬ Evals (term.ITE c t e) env s (Res.ok v s2)) ∧
    (∀ e : Err, e.kind = Fatal.TypeMismatch ↔
      e = Err.eval_plus_expected_int ∨ e = Err.eval_ite_expected_int ∨
        e = Err.eval_app_expected_lambda) := by
  have no_value : ∀ (t : term) (e : Err) (s1 : State), Evals t env s (Res.fatal e s1) →
      ∀ v s2, ¬ Evals t env s (Res.ok v s2) := by
    intro t e s1 h v s2 h2
    have := Evals.det h h2
    cases this
  refine ⟨fun f a n s1 hf => ?_, fun l r v1 v2 s1 s2 hl hr hv => ?_,
    fun c t e b ce s1 hc => ?_, fun e => ?_⟩
  · have h : Evals (term.APP f a) env s (Res.fatal Err.eval_app_expected_lambda s1) := by
      obtain ⟨k, hk, -⟩ := hf
      exact ⟨k + 1, by simp only [eval, bind_apply, hk, exit_apply], by simp⟩
    exact ⟨h, no_value _ _ _ h⟩
  · have h : Evals (term.PLUS l r) env s (Res.fatal Err.eval_plus_expected_int s2) := by
      have := evals_plus hl hr
      cases v1 with
      | NULL => simp [value.is_clos] at hv
      | VCLOS _ _ => exact this
      | VNUM _ =>
        cases v2 with
        | NULL => simp [value.is_clos] at hv
        | VNUM _ => simp [value.is_clos] at hv
        | VCLOS _ _ => exact this
    exact ⟨h, no_value _ _ _ h⟩
  · have h : Evals (term.ITE c t e) env s (Res.fatal Err.eval_ite_expected_int s1) := by
      obtain ⟨k, hk, -⟩ := hc
      exact ⟨k + 1, by simp only [eval, bind_apply, hk, exit_apply], by simp⟩
    exact ⟨h, no_value _ _ _ h⟩
  · cases e <;> simp [Err.kind]

/-- C9, witness: `Application(Number(1), Variable(7))` under the empty
environment exits with the type mismatch after the one value slot of
`Number(1)`; the unbound `Variable(7)` is not looked up. -/
theorem type_mismatch_fatal_witness :
    Evals (term.APP (term.NUM 1) (term.VAR 7)) val_list.NULL (init_state [])
      (Res.fatal Err.eval_app_expected_lambda { init_state [] with mem_val := ⟨999999, 1⟩ }) ∧
    ∀ v s2, ¬ Evals (term.APP (term.NUM 1) (term.VAR 7)) val_list.NULL (init_state [])
      (Res.ok v s2) :=
  (type_mismatch_fatal val_list.NULL (init_state [])).1 (term.NUM 1) (term.VAR 7) 1
    { init_state [] with mem_val := ⟨999999, 1⟩ } ⟨1, rfl, by simp⟩

/-! ## C10: evaluation order -/

/-- C10: in `Addition(x, y)`, `Application(x, y)` and `Conditional(x, y, z)` the
first operand `x` is evaluated first: (1) if `x` exits with a fatal condition,
the whole form exits with that same condition in the same state, whatever `y`
and `z` are; (2) if `x` returns a value leaving state `s1` and `y`, evaluated
from `s1`, exits with a fatal condition, then the addition (and the application,
when the value of `x` is a closure) exits with that condition; (3) after a
numeric condition the selected branch is evaluated from `s1`; (4) when both
operands return values, every value slot taken for `x` (from `s.mem_val.addr`
up to `s1.mem_val.addr`) comes before every slot taken for `y` (from
`s1.mem_val.addr` up to `s2.mem_val.addr`). -/
theorem eval_left_to_right (x y z : term) (env : val_list) (s : State) :
    (∀ e s1, Evals x env s (Res.fatal e s1) →
      Evals (term.PLUS x y) env s (Res.fatal e s1) ∧
      Evals (term.APP x y) env s (Res.fatal e s1) ∧
      Evals (term.ITE x y z) env s (Res.fatal e s1)) ∧
    (∀ v s1 e s2, Evals x env s (Res.ok v s1) → Evals y env s1 (Res.fatal e s2) →
      Evals (term.PLUS x y) env s (Res.fatal e s2) ∧
      (v.is_clos → Evals (term.APP x y) env s (Res.fatal e s2))) ∧
    (∀ n s1 r, Evals x env s (Res.ok (value.VNUM n) s1) →
      (Evals (term.ITE x y z) env s r ↔ Evals (if n ≠ 0 then y else z) env s1 r)) ∧
    (∀ v1 s1 v2 s2, Evals x env s (Res.ok v1 s1) → Evals y env s1 (Res.ok v2 s2) →
      s.mem_val.addr ≤ s1.mem_val.addr ∧ s1.mem_val.addr ≤ s2.mem_val.addr ∧
      ∀ i j, s.mem_val.addr ≤ i → i < s1.mem_val.addr → s1.mem_val.addr ≤ j →
        j < s2.mem_val.addr → i < j) := by
  refine ⟨fun e s1 hx => evals_first_fatal hx y z, fun v s1 e s2 hx hy => evals_second_fatal hx hy,
    fun n s1 r hx => evals_ite hx r, fun v1 s1 v2 s2 hx hy => ?_⟩
  have h1 := hx.pools_le
  have h2 := hy.pools_le
  unfold State.pools_le at h1 h2
  refine ⟨by omega, by omega, fun i j _ _ _ _ => by omega⟩

/-- C10, witness: in the empty environment `Variable(0)` is unbound and
`Application(Number(1), Number(2))` alone is a type mismatch; their addition
exits with the unbound variable of the first operand, before any slot is
taken. -/
theorem eval_left_to_right_witness :
    Evals (term.APP (term.NUM 1) (term.NUM 2)) val_list.NULL (init_state [])
      (Res.fatal Err.eval_app_expected_lambda { init_state [] with mem_val := ⟨999999, 1⟩ }) ∧
    Evals (term.PLUS (term.VAR 0) (term.APP (term.NUM 1) (term.NUM 2))) val_list.NULL
      (init_state []) (Res.fatal Err.get_value_list_too_small (init_state [])) :=
  ⟨⟨2, rfl, by simp⟩,
    ((eval_left_to_right (term.VAR 0) (term.APP (term.NUM 1) (term.NUM 2)) (term.NUM 0)
      val_list.NULL (init_state [])).1 Err.get_value_list_too_small (init_state [])
      ⟨1, rfl, by simp⟩).1⟩

/-! ## The recursive equation of `parse_term` -/

theorem agree_of_safe {α : Type} {n : Nat} {x : M α} (h : M.safe n x) : M.agree n x x :=
  fun s hs => ⟨rfl, (h s hs).2⟩

theorem agree_bind {α β : Type} {n : Nat} {x y : M α} {f g : α → M β}
    (hx : M.agree n x y) (hf : ∀ a, M.agree n (f a) (g a)) : M.agree n (x >>= f) (y >>= g) := by
  intro s hs
  obtain ⟨h1, h2⟩ := hx s hs
  simp only [bind_apply, ← h1]
  cases hxs : x s with
  | out_of_fuel => simp
  | fatal e s1 => simp
  | ok a s1 =>
    have hl := h2 a s1 hxs
    obtain ⟨h3, h4⟩ := hf a s1 (by omega)
    exact ⟨h3, fun b s2 hb => Nat.le_trans (h4 b s2 hb) hl⟩

theorem agree_pop_bind {β : Type} {n : Nat} {f g : Char → M β}
    (hf : ∀ a, M.agree n (f a) (g a)) : M.agree (n + 1) (pop >>= f) (pop >>= g) := by
  intro s hs
  simp only [bind_apply, pop]
  by_cases he : eof s = true
  · simp [he]
  · simp only [he]
    cases hg : s.glob with
    | nil => simp [eof, peek, hg] at he
    | cons c l =>
      simp only [List.tail_cons]
      rw [hg] at hs
      simp only [List.length_cons] at hs
      obtain ⟨h3, h4⟩ := hf (peek s) { s with glob := l } (by simp only; omega)
      refine ⟨h3, fun b s2 hb => ?_⟩
      have := h4 b s2 hb
      simp only [List.length_cons] at this ⊢
      omega

theorem agree_mk {n : Nat} (t : term) :
    M.agree n (alloc_term >>= fun _ => (pure t : M term)) (alloc_term >>= fun _ => pure t) :=
  agree_of_safe (safe_bind (safe_alloc_term n) (fun _ => safe_pure n _))

theorem parse_lam_agree {n : Nat} {f g : M term} (h : M.agree n f g) :
    M.agree (n + 1) (parse_lam f) (parse_lam g) :=
  agree_pop_bind (fun _ => agree_bind (agree_of_safe (safe_space n)) (fun _ => agree_bind h
    (fun _ => agree_mk _)))

theorem parse_app_agree {n : Nat} {f g : M term} (h : M.agree n f g) :
    M.agree (n + 1) (parse_app f) (parse_app g) :=
  agree_pop_bind (fun _ => agree_bind (agree_of_safe (safe_space n)) (fun _ => agree_bind h
    (fun _ => agree_bind (agree_of_safe (safe_space n)) (fun _ => agree_bind h
      (fun _ => agree_mk _)))))

theorem parse_plus_agree {n : Nat} {f g : M term} (h : M.agree n f g) :
    M.agree (n + 1) (parse_plus f) (parse_plus g) :=
  agree_pop_bind (fun _ => agree_bind (agree_of_safe (safe_space n)) (fun _ => agree_bind h
    (fun _ => agree_bind (agree_of_safe (safe_space n)) (fun _ => agree_bind h
      (fun _ => agree_mk _)))))

theorem parse_ite_agree {n : Nat} {f g : M term} (h : M.agree n f g) :
    M.agree (n + 1) (parse_ite f) (parse_ite g) :=
  agree_pop_bind (fun _ => agree_bind (agree_of_safe (safe_space n)) (fun _ => agree_bind h
    (fun _ => agree_bind (agree_of_safe (safe_space n)) (fun _ => agree_bind h
      (fun _ => agree_bind (agree_of_safe (safe_space n)) (fun _ => agree_bind h
        (fun _ => agree_mk _)))))))

theorem parse_term_aux_agree (n : Nat) : M.agree n (parse_term_aux n) parse_term :=
  fun s hs => ⟨parse_term_aux_fuel hs, (safe_parse_term_aux n s hs).2⟩

/-- The function `parse_term` satisfies the recursive equation of the source:
the recursive calls are calls of `parse_term` itself. -/
theorem parse_term_unfold (s : State) :
    parse_term s =
      if peek s = '$' then parse_var s
      else if peek s = '@' then parse_app parse_term s
      else if peek s = '\\' then parse_lam parse_term s
      else if peek s = '?' then parse_ite parse_term s
      else if peek s = '+' then parse_plus parse_term s
      else if peek s = '-' then parse_neg s
      else if is_digit (peek s) then parse_num s
      else Res.fatal (Err.parse_term_unexpected_char (peek s)) s := by
  have h := parse_term_aux_agree s.glob.length
  have hs := Nat.lt_succ_self s.glob.length
  show parse_term_aux (s.glob.length + 1) s = _
  rw [parse_term_aux_succ, (parse_app_agree h s hs).1, (parse_lam_agree h s hs).1,
    (parse_ite_agree h s hs).1, (parse_plus_agree h s hs).1]

/-! ## C7: syntax errors -/

theorem space_cons {s : State} {rest : List Char} (h : s.glob = ' ' :: rest) :
    space s = Res.ok () { s with glob := rest } := by
  simp [space, pop, eof, peek, h]

theorem space_fatal {s : State} (h : s.glob.head? ≠ some ' ') :
    ∃ e s1, space s = Res.fatal e s1 ∧ e.kind = Fatal.SyntaxError := by
  by_cases he : eof s = true
  · exact ⟨Err.unexpected_end_of_input, s, by simp [space, pop, he], rfl⟩
  · cases hg : s.glob with
    | nil => simp [eof, peek, hg] at he
    | cons c l =>
      have hc : c ≠ ' ' := by
        rintro rfl
        simp [hg] at h
      refine ⟨Err.space_unexpected_char c, { s with glob := l }, ?_, rfl⟩
      simp only [eof, peek, hg, List.headD_cons] at he
      simp [space, pop, eof, peek, hg, he, hc]

theorem parse_term_at_app {s : State} {rest : List Char} (h : s.glob = '@' :: rest) :
    parse_term s =
      (space >>= fun _ => parse_term >>= fun a1 => space >>= fun _ =>
        parse_term >>= fun a2 => mk_app a1 a2) { s with glob := rest } := by
  rw [parse_term_unfold]
  simp [peek, h, parse_app, pop, eof]

theorem parse_term_at_plus {s : State} {rest : List Char} (h : s.glob = '+' :: rest) :
    parse_term s =
      (space >>= fun _ => parse_term >>= fun a1 => space >>= fun _ =>
        parse_term >>= fun a2 => mk_plus a1 a2) { s with glob := rest } := by
  rw [parse_term_unfold]
  simp [peek, h, parse_plus, pop, eof]

theorem parse_term_at_lam {s : State} {rest : List Char} (h : s.glob = '\\' :: rest) :
    parse_term s =
      (space >>= fun _ => parse_term >>= fun b => mk_lam b) { s with glob := rest } := by
  rw [parse_term_unfold]
  simp [peek, h, parse_lam, pop, eof]

theorem parse_term_at_ite {s : State} {rest : List Char} (h : s.glob = '?' :: rest) :
    parse_term s =
      (space >>= fun _ => parse_term >>= fun a1 => space >>= fun _ =>
        parse_term >>= fun a2 => space >>= fun _ => parse_term >>= fun a3 =>
          mk_ite a1 a2 a3) { s with glob := rest } := by
  rw [parse_term_unfold]
  simp [peek, h, parse_ite, pop, eof]

theorem parse_term_bad_head {s : State} {c : Char} {rest : List Char} (h : s.glob = c :: rest)
    (h1 : c ≠ '$') (h2 : c ≠ '@') (h3 : c ≠ '\\') (h4 : c ≠ '?') (h5 : c ≠ '+') (h6 : c ≠ '-')
    (hd : is_digit c = false) :
    parse_term s = Res.fatal (Err.parse_term_unexpected_char c) s := by
  rw [parse_term_unfold]
  simp [peek, h, h1, h2, h3, h4, h5, h6, hd]

theorem parse_term_space_missing {s : State} {op : Char} {rest : List Char}
    (h : s.glob = op :: rest) (hop : op = '@' ∨ op = '\\' ∨ op = '+' ∨ op = '?')
    (hr : rest.head? ≠ some ' ') : (parse_term s).syntax_error := by
  obtain ⟨e, s2, he, hk⟩ := space_fatal (s := { s with glob := rest }) hr
  rcases hop with rfl | rfl | rfl | rfl
  · rw [parse_term_at_app h]; simp only [bind_apply, he]; exact ⟨e, _, rfl, hk⟩
  · rw [parse_term_at_lam h]; simp only [bind_apply, he]; exact ⟨e, _, rfl, hk⟩
  · rw [parse_term_at_plus h]; simp only [bind_apply, he]; exact ⟨e, _, rfl, hk⟩
  · rw [parse_term_at_ite h]; simp only [bind_apply, he]; exact ⟨e, _, rfl, hk⟩

theorem parse_term_first_fatal {s : State} {op : Char} {rest : List Char} {e : Err} {s1 : State}
    (h : s.glob = op :: ' ' :: rest) (hop : op = '@' ∨ op = '\\' ∨ op = '+' ∨ op = '?')
    (h1 : parse_term { s with glob := rest } = Res.fatal e s1) :
    parse_term s = Res.fatal e s1 := by
  have hsp := space_cons (s := { s with glob := ' ' :: rest }) rfl
  rcases hop with rfl | rfl | rfl | rfl
  · rw [parse_term_at_app h]; simp only [bind_apply, hsp, h1]
  · rw [parse_term_at_lam h]; simp only [bind_apply, hsp, h1]
  · rw [parse_term_at_plus h]; simp only [bind_apply, hsp, h1]
  · rw [parse_term_at_ite h]; simp only [bind_apply, hsp, h1]

theorem parse_term_second {s : State} {op : Char} {rest : List Char} {t1 : term} {s1 : State}
    (h : s.glob = op :: ' ' :: rest) (hop : op = '@' ∨ op = '+' ∨ op = '?')
    (h1 : parse_term { s with glob := rest } = Res.ok t1 s1) :
    (s1.glob.head? ≠ some ' ' → (parse_term s).syntax_error) ∧
    (∀ r1 e s2, s1.glob = ' ' :: r1 → parse_term { s1 with glob := r1 } = Res.fatal e s2 →
      parse_term s = Res.fatal e s2) := by
  have hsp := space_cons (s := { s with glob := ' ' :: rest }) rfl
  refine ⟨fun hr => ?_, fun r1 e s2 hg h2 => ?_⟩
  · obtain ⟨e, s2, he, hk⟩ := space_fatal hr
    rcases hop with rfl | rfl | rfl
    · rw [parse_term_at_app h]; simp only [bind_apply, hsp, h1, he]; exact ⟨e, _, rfl, hk⟩
    · rw [parse_term_at_plus h]; simp only [bind_apply, hsp, h1, he]; exact ⟨e, _, rfl, hk⟩
    · rw [parse_term_at_ite h]; simp only [bind_apply, hsp, h1, he]; exact ⟨e, _, rfl, hk⟩
  · have hsp2 := space_cons hg
    rcases hop with rfl | rfl | rfl
    · rw [parse_term_at_app h]; simp only [bind_apply, hsp, h1, hsp2, h2]
    · rw [parse_term_at_plus h]; simp only [bind_apply, hsp, h1, hsp2, h2]
    · rw [parse_term_at_ite h]; simp only [bind_apply, hsp, h1, hsp2, h2]

theorem parse_term_third {s : State} {rest r1 : List Char} {t1 t2 : term} {s1 s2 : State}
    (h : s.glob = '?' :: ' ' :: rest)
    (h1 : parse_term { s with glob := rest } = Res.ok t1 s1) (hg : s1.glob = ' ' :: r1)
    (h2 : parse_term { s1 with glob := r1 } = Res.ok t2 s2) :
    (s2.glob.head? ≠ some ' ' → (parse_term s).syntax_error) ∧
    (∀ r2 e s3, s2.glob = ' ' :: r2 → parse_term { s2 with glob := r2 } = Res.fatal e s3 →
      parse_term s = Res.fatal e s3) := by
  have hsp := space_cons (s := { s with glob := ' ' :: rest }) rfl
  have hsp2 := space_cons hg
  refine ⟨fun hr => ?_, fun r2 e s3 hg2 h3 => ?_⟩
  · obtain ⟨e, s3, he, hk⟩ := space_fatal hr
    rw [parse_term_at_ite h]
    simp only [bind_apply, hsp, h1, hsp2, h2, he]
    exact ⟨e, _, rfl, hk⟩
  · rw [parse_term_at_ite h]
    simp only [bind_apply, hsp, h1, hsp2, h2, space_cons hg2, h3]

/-- C7: each enumerated syntax error is a fatal exit of `parse_term` with a
diagnostic of class `SyntaxError`, whatever the pools hold. (a) On the empty
input, and wherever the input ends where `pop` or the lookahead of `parse_term`
needs a character: after an operator character, after an operand that must be
followed by another one, and where an operand must start. (b) When the
lookahead at the start of a term is none of `$ @ \ ? + -` and not a digit.
(c) When an operator character `@ \ + ?`, or an operand that must be followed
by another operand, is followed by something else than one space; two spaces in
a row after an operator are rejected. A fatal exit inside an operand is the exit
of the whole parse. -/
theorem syntax_errors_fatal (s : State) :
    (s.glob = [] →
      parse_term s = Res.fatal (Err.parse_term_unexpected_char (Char.ofNat 0)) s) ∧
    (∀ c rest, s.glob = c :: rest →
      c ≠ '$' → c ≠ '@' → c ≠ '\\' → c ≠ '?' → c ≠ '+' → c ≠ '-' → is_digit c = false →
      parse_term s = Res.fatal (Err.parse_term_unexpected_char c) s) ∧
    (∀ op rest, s.glob = op :: rest → (op = '@' ∨ op = '\\' ∨ op = '+' ∨ op = '?') →
      rest.head? ≠ some ' ' → (parse_term s).syntax_error) ∧
    (∀ op rest, s.glob = op :: ' ' :: ' ' :: rest →
      (op = '@' ∨ op = '\\' ∨ op = '+' ∨ op = '?') → (parse_term s).syntax_error) ∧
    (∀ op rest e s1, s.glob = op :: ' ' :: rest →
      (op = '@' ∨ op = '\\' ∨ op = '+' ∨ op = '?') →
      parse_term { s with glob := rest } = Res.fatal e s1 → parse_term s = Res.fatal e s1) ∧
    (∀ op rest t1 s1, s.glob = op :: ' ' :: rest → (op = '@' ∨ op = '+' ∨ op = '?') →
      parse_term { s with glob := rest } = Res.ok t1 s1 →
      (s1.glob.head? ≠ some ' ' → (parse_term s).syntax_error) ∧
      (∀ r1 e s2, s1.glob = ' ' :: r1 → parse_term { s1 with glob := r1 } = Res.fatal e s2 →
        parse_term s = Res.fatal e s2)) ∧
    (∀ rest t1 s1 r1 t2 s2, s.glob = '?' :: ' ' :: rest →
      parse_term { s with glob := rest } = Res.ok t1 s1 → s1.glob = ' ' :: r1 →
      parse_term { s1 with glob := r1 } = Res.ok t2 s2 →
      (s2.glob.head? ≠ some ' ' → (parse_term s).syntax_error) ∧
      (∀ r2 e s3, s2.glob = ' ' :: r2 → parse_term { s2 with glob := r2 } = Res.fatal e s3 →
        parse_term s = Res.fatal e s3)) := by
  refine ⟨fun h => ?_, fun c rest h h1 h2 h3 h4 h5 h6 hd => parse_term_bad_head h h1 h2 h3 h4 h5 h6 hd,
    fun op rest h hop hr => parse_term_space_missing h hop hr, fun op rest h hop => ?_,
    fun op rest e s1 h hop h1 => parse_term_first_fatal h hop h1,
    fun op rest t1 s1 h hop h1 => parse_term_second h hop h1,
    fun rest t1 s1 r1 t2 s2 h h1 hg h2 => parse_term_third h h1 hg h2⟩
  · rw [parse_term_unfold]
    simp [peek, h, is_digit]
  · have hb : parse_term { s with glob := ' ' :: rest }
        = Res.fatal (Err.parse_term_unexpected_char ' ') { s with glob := ' ' :: rest } :=
      parse_term_bad_head (c := ' ') rfl (by decide) (by decide) (by decide) (by decide)
        (by decide) (by decide) (by decide)
    exact ⟨_, _, parse_term_first_fatal h hop hb, rfl⟩

/-- C7, witness: the inputs `+`, `+ 2`, `+ 2 `, a lone backslash, `? 0 1`, the
empty input, an input starting with `x`, and `+  2 3` (two spaces) all end in a
syntax error. -/
theorem syntax_errors_fatal_witness :
    (parse_term (init_state "+".toList)).syntax_error ∧
    parse_term (init_state "+".toList)
      = Res.fatal Err.unexpected_end_of_input (init_state []) ∧
    parse_term (init_state "+ 2".toList)
      = Res.fatal Err.unexpected_end_of_input { init_state [] with mem_term := ⟨9999, 1⟩ } ∧
    parse_term (init_state "+ 2 ".toList)
      = Res.fatal (Err.parse_term_unexpected_char (Char.ofNat 0))
          { init_state [] with mem_term := ⟨9999, 1⟩ } ∧
    parse_term (init_state "\\".toList)
      = Res.fatal Err.unexpected_end_of_input (init_state []) ∧
    parse_term (init_state "? 0 1".toList)
      = Res.fatal Err.unexpected_end_of_input { init_state [] with mem_term := ⟨9998, 2⟩ } ∧
    parse_term (init_state [])
      = Res.fatal (Err.parse_term_unexpected_char (Char.ofNat 0)) (init_state []) ∧
    parse_term (init_state "x".toList)
      = Res.fatal (Err.parse_term_unexpected_char 'x') (init_state "x".toList) ∧
    parse_term (init_state "+  2 3".toList)
      = Res.fatal (Err.parse_term_unexpected_char ' ') (init_state " 2 3".toList) :=
  ⟨(syntax_errors_fatal (init_state "+".toList)).2.2.1 '+' [] rfl (Or.inr (Or.inr (Or.inl rfl)))
      (by simp),
    by decide!, by decide!, by decide!, by decide!, by decide!,
    (syntax_errors_fatal (init_state [])).1 rfl, by decide!, by decide!⟩

/-! ## C8: what a successful parse has consumed -/

/-- C8, amended: whenever `parse_term` succeeds, the characters it consumed form
a string derivable from `term` in the grammar of section 4.2 relaxed so that
the integer after `$` or `-` may be the empty digit sequence (`Derives true`; a
bare numeric literal still needs a digit), and the returned term is the one the
derivation denotes, literals reduced to `int`; and `parse_term` always ends, so
an input none of whose initial segments is derivable in that relaxed grammar
ends in a fatal exit. -/
theorem parse_term_consumes_derivable (s : State) :
    (∀ t s1, parse_term s = Res.ok t s1 →
      ∃ consumed t0, s.glob = consumed ++ s1.glob ∧ Derives true consumed t0 ∧
        t = wrap_term t0) ∧
    parse_term s ≠ Res.out_of_fuel ∧
    ((¬ ∃ consumed rest t0, s.glob = consumed ++ rest ∧ Derives true consumed t0) →
      ∃ e s1, parse_term s = Res.fatal e s1) := by
  have h1 : ∀ t s1, parse_term s = Res.ok t s1 →
      ∃ consumed t0, s.glob = consumed ++ s1.glob ∧ Derives true consumed t0 ∧
        t = wrap_term t0 := by
    intro t s1 h
    obtain ⟨mt, mv, ml, g⟩ := s
    obtain ⟨consumed, t0, rest, hg, hd, ht, -, -, rfl⟩ := parse_term_aux_sound _ mt mv ml g t s1 h
    exact ⟨consumed, t0, hg, hd, ht⟩
  have h2 : parse_term s ≠ Res.out_of_fuel :=
    (safe_parse_term_aux (s.glob.length + 1) s (Nat.lt_succ_self _)).1
  refine ⟨h1, h2, fun hno => ?_⟩
  cases hp : parse_term s with
  | out_of_fuel => exact absurd hp h2
  | fatal e s1 => exact ⟨e, s1, rfl⟩
  | ok t s1 =>
    obtain ⟨consumed, t0, hg, hd, -⟩ := h1 t s1 hp
    exact absurd ⟨consumed, s1.glob, t0, hg, hd⟩ hno

/-- C8, witness: on a backslash, a space and a lone `$`, `parse_term` succeeds;
what it consumed is derivable only in the relaxed grammar. -/
theorem parse_term_consumes_derivable_witness :
    ∃ consumed t0, "\\ $".toList = consumed ++ [] ∧ Derives true consumed t0 ∧
      term.LAM (term.VAR 0) = wrap_term t0 :=
  (parse_term_consumes_derivable (init_state "\\ $".toList)).1 (term.LAM (term.VAR 0))
    { init_state [] with mem_term := ⟨9998, 2⟩ } (by decide!)

/-- C8 as stated fails: on the input `$`, and on the input `-`, `parse_term`
succeeds (with `Variable(0)` and `Number(0)`), although no initial segment of
these inputs is derivable from `term` with non-empty integers. -/
theorem parse_term_accepts_bare_sigil :
    parse_term (init_state "$".toList)
      = Res.ok (term.VAR 0) { init_state [] with mem_term := ⟨9999, 1⟩ } ∧
    parse_term (init_state "-".toList)
      = Res.ok (term.NUM 0) { init_state [] with mem_term := ⟨9999, 1⟩ } ∧
    (∀ consumed rest t, "$".toList = consumed ++ rest → ¬ Derives false consumed t) ∧
    (∀ consumed rest t, "-".toList = consumed ++ rest → ¬ Derives false consumed t) := by
  refine ⟨by decide!, by decide!, ?_, ?_⟩
  · intro consumed rest t h hd
    cases hd with
    | var ds hd hne =>
      cases ds with
      | nil => simp at hne
      | cons d ds => simp at h
    | num _ hd hne =>
      cases consumed with
      | nil => exact hne rfl
      | cons d ds =>
        simp only [String.toList, List.cons_append, List.cons.injEq] at h
        have := hd d (List.mem_cons_self _ _)
        rw [← h.1] at this
        revert this
        decide
    | neg ds hd hne => simp at h
    | app _ _ => simp at h
    | lam _ => simp at h
    | plus _ _ => simp at h
    | ite _ _ _ => simp at h
  · intro consumed rest t h hd
    cases hd with
    | var ds hd hne => simp at h
    | num _ hd hne =>
      cases consumed with
      | nil => exact hne rfl
      | cons d ds =>
        simp only [String.toList, List.cons_append, List.cons.injEq] at h
        have := hd d (List.mem_cons_self _ _)
        rw [← h.1] at this
        revert this
        decide
    | neg ds hd hne =>
      cases ds with
      | nil => simp at hne
      | cons d ds => simp at h
    | app _ _ => simp at h
    | lam _ => simp at h
    | plus _ _ => simp at h
    | ite _ _ _ => simp at h

theorem alloc_term_zero {mt : term_array} (mv : val_array) (ml : val_list_array) (g : List Char)
    (h : mt.buff_size = 0) :
    alloc_term ⟨mt, mv, ml, g⟩
      = Res.fatal Err.alloc_term_out_of_space ⟨⟨0, mt.addr + mt.buff_size⟩, mv, ml, g⟩ := by
  obtain ⟨b, a⟩ := mt
  simp only at h
  subst h
  simp [alloc_term]

/-- On a derivable string whose term has more nodes than the pool has free
slots, the parser exits in `alloc_term` with the term pool used up and the other
pools as they were. -/
theorem parse_term_aux_exhausted {empty_ok : Bool} {str : List Char} {t : term}
    (h : Derives empty_ok str t) :
    ∀ (fuel : Nat) (mt : term_array) (mv : val_array) (ml : val_list_array) (rest : List Char),
      str.length < fuel → no_digit_head rest → mt.buff_size < term_size t →
      ∃ g, parse_term_aux fuel ⟨mt, mv, ml, str ++ rest⟩
        = Res.fatal Err.alloc_term_out_of_space ⟨⟨0, mt.addr + mt.buff_size⟩, mv, ml, g⟩ := by
  induction h with
  | var ds hd hne =>
    intro fuel mt mv ml rest hf hr hcap
    obtain ⟨fuel, rfl⟩ : ∃ k, fuel = k + 1 := ⟨fuel - 1, by omega⟩
    simp only [term_size] at hcap
    have hb : mt.buff_size = 0 := by omega
    refine ⟨rest, ?_⟩
    simp [parse_term_aux, peek, parse_var, pop, eof, parse_int_eq, digits_append_take hd hr,
      digits_append_drop hd hr, mk_var, alloc_term_zero _ _ _ hb]
  | neg ds hd hne =>
    intro fuel mt mv ml rest hf hr hcap
    obtain ⟨fuel, rfl⟩ : ∃ k, fuel = k + 1 := ⟨fuel - 1, by omega⟩
    simp only [term_size] at hcap
    have hb : mt.buff_size = 0 := by omega
    refine ⟨rest, ?_⟩
    simp [parse_term_aux, peek, parse_neg, pop, eof, parse_int_eq, digits_append_take hd hr,
      digits_append_drop hd hr, mk_num, alloc_term_zero _ _ _ hb]
  | num ds hd hne =>
    intro fuel mt mv ml rest hf hr hcap
    obtain ⟨fuel, rfl⟩ : ∃ k, fuel = k + 1 := ⟨fuel - 1, by omega⟩
    simp only [term_size] at hcap
    have hb : mt.buff_size = 0 := by omega
    obtain ⟨c, cs, rfl⟩ : ∃ c cs, ds = c :: cs := by
      cases ds with
      | nil => exact absurd rfl hne
      | cons c cs => exact ⟨c, cs, rfl⟩
    have hc : is_digit c = true := hd c (List.mem_cons_self _ _)
    obtain ⟨h1, h2, h3, h4, h5, h6, -⟩ := is_digit_not_op hc
    have ht := digits_append_take hd hr
    have hdr := digits_append_drop hd hr
    simp only [List.cons_append] at ht hdr
    refine ⟨rest, ?_⟩
    simp [parse_term_aux, peek, h1, h2, h3, h4, h5, h6, hc, parse_num, parse_int_eq, ht, hdr,
      mk_num, alloc_term_zero _ _ _ hb]
  | @lam b tb hdb ihb =>
    intro fuel mt mv ml rest hf hr hcap
    obtain ⟨fuel, rfl⟩ : ∃ k, fuel = k + 1 := ⟨fuel - 1, by omega⟩
    simp only [term_size] at hcap
    simp only [List.length_cons] at hf
    by_cases h1 : term_size tb ≤ mt.buff_size
    · have e1 := parse_term_aux_derives hdb fuel mt mv ml rest (by omega) hr h1
      have hb : (⟨mt.buff_size - term_size tb, mt.addr + term_size tb⟩ : term_array).buff_size
          = 0 := by simp only; omega
      refine ⟨rest, ?_⟩
      simp [parse_term_aux, peek, parse_lam, pop, eof, space, e1, mk_lam,
        alloc_term_zero _ _ _ hb]
      omega
    · obtain ⟨g, e1⟩ := ihb fuel mt mv ml rest (by omega) hr (by omega)
      refine ⟨g, ?_⟩
      simp [parse_term_aux, peek, parse_lam, pop, eof, space, e1]
  | @app f a tf ta hdf hda ihf iha =>
    intro fuel mt mv ml rest hf hr hcap
    obtain ⟨fuel, rfl⟩ : ∃ k, fuel = k + 1 := ⟨fuel - 1, by omega⟩
    simp only [term_size] at hcap
    simp only [List.length_cons, List.length_append] at hf
    by_cases h1 : term_size tf ≤ mt.buff_size
    · have e1 := parse_term_aux_derives hdf fuel mt mv ml (' ' :: (a ++ rest)) (by omega)
        (no_digit_head_space _) h1
      by_cases h2 : term_size ta ≤ mt.buff_size - term_size tf
      · have e2 := parse_term_aux_derives hda fuel
          ⟨mt.buff_size - term_size tf, mt.addr + term_size tf⟩ mv ml rest (by omega) hr h2
        have hb : (⟨mt.buff_size - term_size tf - term_size ta,
            mt.addr + term_size tf + term_size ta⟩ : term_array).buff_size = 0 := by
          simp only; omega
        refine ⟨rest, ?_⟩
        simp [parse_term_aux, peek, parse_app, pop, eof, space, e1, e2, mk_app,
          alloc_term_zero _ _ _ hb]
        omega
      · obtain ⟨g, e2⟩ := iha fuel ⟨mt.buff_size - term_size tf, mt.addr + term_size tf⟩ mv ml
          rest (by omega) hr (by simp only; omega)
        refine ⟨g, ?_⟩
        simp [parse_term_aux, peek, parse_app, pop, eof, space, e1, e2]
        omega
    · obtain ⟨g, e1⟩ := ihf fuel mt mv ml (' ' :: (a ++ rest)) (by omega)
        (no_digit_head_space _) (by omega)
      refine ⟨g, ?_⟩
      simp [parse_term_aux, peek, parse_app, pop, eof, space, e1]
  | @plus f a tf ta hdf hda ihf iha =>
    intro fuel mt mv ml rest hf hr hcap
    obtain ⟨fuel, rfl⟩ : ∃ k, fuel = k + 1 := ⟨fuel - 1, by omega⟩
    simp only [term_size] at hcap
    simp only [List.length_cons, List.length_append] at hf
    by_cases h1 : term_size tf ≤ mt.buff_size
    · have e1 := parse_term_aux_derives hdf fuel mt mv ml (' ' :: (a ++ rest)) (by omega)
        (no_digit_head_space _) h1
      by_cases h2 : term_size ta ≤ mt.buff_size - term_size tf
      · have e2 := parse_term_aux_derives hda fuel
          ⟨mt.buff_size - term_size tf, mt.addr + term_size tf⟩ mv ml rest (by omega) hr h2
        have hb : (⟨mt.buff_size - term_size tf - term_size ta,
            mt.addr + term_size tf + term_size ta⟩ : term_array).buff_size = 0 := by
          simp only; omega
        refine ⟨rest, ?_⟩
        simp [parse_term_aux, peek, parse_plus, pop, eof, space, e1, e2, mk_plus,
          alloc_term_zero _ _ _ hb]
        omega
      · obtain ⟨g, e2⟩ := iha fuel ⟨mt.buff_size - term_size tf, mt.addr + term_size tf⟩ mv ml
          rest (by omega) hr (by simp only; omega)
        refine ⟨g, ?_⟩
        simp [parse_term_aux, peek, parse_plus, pop, eof, space, e1, e2]
        omega
    · obtain ⟨g, e1⟩ := ihf fuel mt mv ml (' ' :: (a ++ rest)) (by omega)
        (no_digit_head_space _) (by omega)
      refine ⟨g, ?_⟩
      simp [parse_term_aux, peek, parse_plus, pop, eof, space, e1]
  | @ite c t e tc tt te hdc hdt hde ihc iht ihe =>
    intro fuel mt mv ml rest hf hr hcap
    obtain ⟨fuel, rfl⟩ : ∃ k, fuel = k + 1 := ⟨fuel - 1, by omega⟩
    simp only [term_size] at hcap
    simp only [List.length_cons, List.length_append] at hf
    by_cases h1 : term_size tc ≤ mt.buff_size
    · have e1 := parse_term_aux_derives hdc fuel mt mv ml (' ' :: (t ++ ' ' :: (e ++ rest)))
        (by omega) (no_digit_head_space _) h1
      by_cases h2 : term_size tt ≤ mt.buff_size - term_size tc
      · have e2 := parse_term_aux_derives hdt fuel
          ⟨mt.buff_size - term_size tc, mt.addr + term_size tc⟩ mv ml (' ' :: (e ++ rest))
          (by omega) (no_digit_head_space _) h2
        by_cases h3 : term_size te ≤ mt.buff_size - term_size tc - term_size tt
        · have e3 := parse_term_aux_derives hde fuel
            ⟨mt.buff_size - term_size tc - term_size tt, mt.addr + term_size tc + term_size tt⟩
            mv ml rest (by omega) hr h3
          have hb : (⟨mt.buff_size - term_size tc - term_size tt - term_size te,
              mt.addr + term_size tc + term_size tt + term_size te⟩ : term_array).buff_size
                = 0 := by
            simp only; omega
          refine ⟨rest, ?_⟩
          simp [parse_term_aux, peek, parse_ite, pop, eof, space, e1, e2, e3, mk_ite,
            alloc_term_zero _ _ _ hb]
          omega
        · obtain ⟨g, e3⟩ := ihe fuel
            ⟨mt.buff_size - term_size tc - term_size tt, mt.addr + term_size tc + term_size tt⟩
            mv ml rest (by omega) hr (by simp only; omega)
          refine ⟨g, ?_⟩
          simp [parse_term_aux, peek, parse_ite, pop, eof, space, e1, e2, e3]
          omega
      · obtain ⟨g, e2⟩ := iht fuel ⟨mt.buff_size - term_size tc, mt.addr + term_size tc⟩ mv ml
          (' ' :: (e ++ rest)) (by omega) (no_digit_head_space _) (by simp only; omega)
        refine ⟨g, ?_⟩
        simp [parse_term_aux, peek, parse_ite, pop, eof, space, e1, e2]
        omega
    · obtain ⟨g, e1⟩ := ihc fuel mt mv ml (' ' :: (t ++ ' ' :: (e ++ rest))) (by omega)
        (no_digit_head_space _) (by omega)
      refine ⟨g, ?_⟩
      simp [parse_term_aux, peek, parse_ite, pop, eof, space, e1]

theorem lam_chain_derives : ∀ n : Nat, Derives false (lam_chain_text n) (lam_chain n)
  | 0 => Derives.num ['0'] (by decide) (by decide)
  | n + 1 => Derives.lam (lam_chain_derives n)

theorem term_size_lam_chain : ∀ n : Nat, term_size (lam_chain n) = n + 1
  | 0 => rfl
  | n + 1 => by simp [lam_chain, term_size, term_size_lam_chain n]

/-- C11: for every input the grammar derives, with a term of `n` nodes, and
every state with `c` free term slots: if `n ≤ c`, `parse_term` succeeds and
leaves exactly `c - n` free term slots; if `n > c`, it exits with `alloc_term:
out of space` (class `AllocationExhausted`) with the term pool used up, returns
no term, and leaves the value and environment pools untouched. With the
configured `TERMS_SIZE = 10000`, an input whose term has 10001 nodes is
rejected. -/
theorem term_pool_exhaustion (str : List Char) (t : term) (s : State)
    (h : Derives false str t) :
    (term_size t ≤ s.mem_term.buff_size →
      parse_term { s with glob := str }
        = Res.ok (wrap_term t)
            { s with
              glob := []
              mem_term :=
                ⟨s.mem_term.buff_size - term_size t, s.mem_term.addr + term_size t⟩ }) ∧
    (s.mem_term.buff_size < term_size t →
      ∃ s1, parse_term { s with glob := str } = Res.fatal Err.alloc_term_out_of_space s1 ∧
        s1.mem_term.buff_size = 0 ∧ s1.mem_val = s.mem_val ∧
        s1.mem_val_list = s.mem_val_list ∧
        ∀ t1 s2, parse_term { s with glob := str } ≠ Res.ok t1 s2) ∧
    Err.kind Err.alloc_term_out_of_space = Fatal.AllocationExhausted ∧
    (term_size t = 10001 →
      ∃ s1, parse_term (init_state str) = Res.fatal Err.alloc_term_out_of_space s1 ∧
        s1.mem_val = (init_state str).mem_val ∧
        s1.mem_val_list = (init_state str).mem_val_list) := by
  have hfail : ∀ s0 : State, s0.mem_term.buff_size < term_size t →
      ∃ s1, parse_term { s0 with glob := str } = Res.fatal Err.alloc_term_out_of_space s1 ∧
        s1.mem_term.buff_size = 0 ∧ s1.mem_val = s0.mem_val ∧
        s1.mem_val_list = s0.mem_val_list := by
    intro s0 hlt
    obtain ⟨g, hg⟩ := parse_term_aux_exhausted h (str.length + 1) s0.mem_term s0.mem_val
      s0.mem_val_list [] (Nat.lt_succ_self _) no_digit_head_nil hlt
    simp only [List.append_nil] at hg
    exact ⟨_, hg, rfl, rfl, rfl⟩
  refine ⟨fun hcap => parse_term_derives s h hcap, fun hlt => ?_, rfl, fun hsz => ?_⟩
  · obtain ⟨s1, h1, h2, h3, h4⟩ := hfail s hlt
    refine ⟨s1, h1, h2, h3, h4, fun t1 s2 h5 => ?_⟩
    rw [h1] at h5
    cases h5
  · obtain ⟨s1, h1, -, h3, h4⟩ := hfail (init_state []) (by rw [hsz]; decide)
    exact ⟨s1, h1, h3, h4⟩

/-- C11, witness: the input of 10000 nested abstractions around `0` is
derivable and has 10001 nodes; with the configured pools it is rejected. With
two free term slots the three-node input `+ 1 2` is rejected and the two-node
input `\ 7` is accepted, leaving no free slot. -/
theorem term_pool_exhaustion_witness :
    (∃ s1, parse_term (init_state (lam_chain_text 10000))
        = Res.fatal Err.alloc_term_out_of_space s1 ∧
      s1.mem_val = (init_state (lam_chain_text 10000)).mem_val ∧
      s1.mem_val_list = (init_state (lam_chain_text 10000)).mem_val_list) ∧
    parse_term { init_state "+ 1 2".toList with mem_term := ⟨2, 9998⟩ }
      = Res.fatal Err.alloc_term_out_of_space { init_state [] with mem_term := ⟨0, 10000⟩ } ∧
    parse_term { init_state "\\ 7".toList with mem_term := ⟨2, 9998⟩ }
      = Res.ok (term.LAM (term.NUM 7)) { init_state [] with mem_term := ⟨0, 10000⟩ } :=
  ⟨(term_pool_exhaustion (lam_chain_text 10000) (lam_chain 10000) (init_state [])
      (lam_chain_derives 10000)).2.2.2 (term_size_lam_chain 10000),
    by decide!, by decide!⟩

theorem shrinks_alloc_term : M.shrinks alloc_term := by
  intro s
  by_cases hb : s.mem_term.buff_size ≤ 0
  · simp only [alloc_term, hb, if_true]
    exact pools_le_refl s
  · simp only [alloc_term, hb, if_false, State.pools_le, le_refl, and_self, true_and, and_true]
    omega

theorem shrinks_pop : M.shrinks pop := by
  intro s
  by_cases he : eof s = true
  · simp only [pop, he, if_true]
    exact pools_le_refl s
  · simp only [pop, he]
    simp [State.pools_le]

theorem shrinks_space : M.shrinks space := by
  unfold space
  refine shrinks_bind shrinks_pop (fun d => ?_)
  split
  · exact shrinks_pure _
  · exact shrinks_exit _

theorem shrinks_parse_int : M.shrinks parse_int := by
  intro s
  obtain ⟨mt, mv, ml, g⟩ := s
  rw [parse_int_eq]
  simp [State.pools_le]

theorem shrinks_mk_var (i : Int) : M.shrinks (mk_var i) :=
  shrinks_bind shrinks_alloc_term (fun _ => shrinks_pure _)

theorem shrinks_mk_num (i : Int) : M.shrinks (mk_num i) :=
  shrinks_bind shrinks_alloc_term (fun _ => shrinks_pure _)

theorem shrinks_mk_app (a b : term) : M.shrinks (mk_app a b) :=
  shrinks_bind shrinks_alloc_term (fun _ => shrinks_pure _)

theorem shrinks_mk_lam (b : term) : M.shrinks (mk_lam b) :=
  shrinks_bind shrinks_alloc_term (fun _ => shrinks_pure _)

theorem shrinks_mk_plus (a b : term) : M.shrinks (mk_plus a b) :=
  shrinks_bind shrinks_alloc_term (fun _ => shrinks_pure _)

theorem shrinks_mk_ite (a b c : term) : M.shrinks (mk_ite a b c) :=
  shrinks_bind shrinks_alloc_term (fun _ => shrinks_pure _)

theorem shrinks_parse_term_aux : ∀ n : Nat, M.shrinks (parse_term_aux n) := by
  intro n
  induction n with
  | zero => intro s; trivial
  | succ n ih =>
    have hvar : M.shrinks parse_var :=
      shrinks_bind shrinks_pop (fun _ => shrinks_bind shrinks_parse_int (fun _ => shrinks_mk_var _))
    have hneg : M.shrinks parse_neg :=
      shrinks_bind shrinks_pop (fun _ => shrinks_bind shrinks_parse_int (fun _ => shrinks_mk_num _))
    have hnum : M.shrinks parse_num :=
      shrinks_bind shrinks_parse_int (fun _ => shrinks_mk_num _)
    have hlam : M.shrinks (parse_lam (parse_term_aux n)) :=
      shrinks_bind shrinks_pop (fun _ => shrinks_bind shrinks_space (fun _ => shrinks_bind ih
        (fun _ => shrinks_mk_lam _)))
    have happ : M.shrinks (parse_app (parse_term_aux n)) :=
      shrinks_bind shrinks_pop (fun _ => shrinks_bind shrinks_space (fun _ => shrinks_bind ih
        (fun _ => shrinks_bind shrinks_space (fun _ => shrinks_bind ih
          (fun _ => shrinks_mk_app _ _)))))
    have hplus : M.shrinks (parse_plus (parse_term_aux n)) :=
      shrinks_bind shrinks_pop (fun _ => shrinks_bind shrinks_space (fun _ => shrinks_bind ih
        (fun _ => shrinks_bind shrinks_space (fun _ => shrinks_bind ih
          (fun _ => shrinks_mk_plus _ _)))))
    have hite : M.shrinks (parse_ite (parse_term_aux n)) :=
      shrinks_bind shrinks_pop (fun _ => shrinks_bind shrinks_space (fun _ => shrinks_bind ih
        (fun _ => shrinks_bind shrinks_space (fun _ => shrinks_bind ih
          (fun _ => shrinks_bind shrinks_space (fun _ => shrinks_bind ih
            (fun _ => shrinks_mk_ite _ _ _)))))))
    intro s
    rw [parse_term_aux_succ]
    by_cases h1 : peek s = '$'
    · rw [if_pos h1]; exact hvar s
    rw [if_neg h1]
    by_cases h2 : peek s = '@'
    · rw [if_pos h2]; exact happ s
    rw [if_neg h2]
    by_cases h3 : peek s = '\\'
    · rw [if_pos h3]; exact hlam s
    rw [if_neg h3]
    by_cases h4 : peek s = '?'
    · rw [if_pos h4]; exact hite s
    rw [if_neg h4]
    by_cases h5 : peek s = '+'
    · rw [if_pos h5]; exact hplus s
    rw [if_neg h5]
    by_cases h6 : peek s = '-'
    · rw [if_pos h6]; exact hneg s
    rw [if_neg h6]
    by_cases h7 : is_digit (peek s) = true
    · rw [if_pos h7]; exact hnum s
    rw [if_neg h7]
    exact pools_le_refl s

theorem shrinks_parse_term : M.shrinks parse_term :=
  fun s => shrinks_parse_term_aux (s.glob.length + 1) s

/-- C12: the three pools are independent counters that only shrink. Each of
`alloc_term`, `alloc_val`, `alloc_val_list` succeeds exactly when its own pool
has a free slot; it then returns the next slot, takes exactly one slot from
that pool and leaves the other two pools and the input as they were; with no
free slot it exits with its `out of space` diagnostic. Consequently `mk_*`,
`cons_val_list`, `parse_term` and `eval` never leave a pool with more free
slots than they found (`M.shrinks`). -/
theorem pools_independent_monotone (s : State) :
    (((∃ a s1, alloc_term s = Res.ok a s1) ↔ 0 < s.mem_term.buff_size) ∧
      (∀ a s1, alloc_term s = Res.ok a s1 →
        a = s.mem_term.addr ∧ s1.mem_term.buff_size + 1 = s.mem_term.buff_size ∧
        s1.mem_term.addr = s.mem_term.addr + 1 ∧
        s1.mem_val = s.mem_val ∧ s1.mem_val_list = s.mem_val_list ∧ s1.glob = s.glob) ∧
      (s.mem_term.buff_size = 0 → alloc_term s = Res.fatal Err.alloc_term_out_of_space s)) ∧
    (((∃ a s1, alloc_val s = Res.ok a s1) ↔ 0 < s.mem_val.buff_size) ∧
      (∀ a s1, alloc_val s = Res.ok a s1 →
        a = s.mem_val.addr ∧ s1.mem_val.buff_size + 1 = s.mem_val.buff_size ∧
        s1.mem_val.addr = s.mem_val.addr + 1 ∧
        s1.mem_term = s.mem_term ∧ s1.mem_val_list = s.mem_val_list ∧ s1.glob = s.glob) ∧
      (s.mem_val.buff_size = 0 → alloc_val s = Res.fatal Err.alloc_val_out_of_space s)) ∧
    (((∃ a s1, alloc_val_list s = Res.ok a s1) ↔ 0 < s.mem_val_list.buff_size) ∧
      (∀ a s1, alloc_val_list s = Res.ok a s1 →
        a = s.mem_val_list.addr ∧ s1.mem_val_list.buff_size + 1 = s.mem_val_list.buff_size ∧
        s1.mem_val_list.addr = s.mem_val_list.addr + 1 ∧
        s1.mem_term = s.mem_term ∧ s1.mem_val = s.mem_val ∧ s1.glob = s.glob) ∧
      (s.mem_val_list.buff_size = 0 →
        alloc_val_list s = Res.fatal Err.alloc_val_list_out_of_space s)) ∧
    (Err.kind Err.alloc_term_out_of_space = Fatal.AllocationExhausted ∧
      Err.kind Err.alloc_val_out_of_space = Fatal.AllocationExhausted ∧
      Err.kind Err.alloc_val_list_out_of_space = Fatal.AllocationExhausted) ∧
    ((∀ i, M.shrinks (mk_var i)) ∧ (∀ i, M.shrinks (mk_num i)) ∧
      (∀ a b, M.shrinks (mk_app a b)) ∧ (∀ b, M.shrinks (mk_lam b)) ∧
      (∀ a b, M.shrinks (mk_plus a b)) ∧ (∀ a b c, M.shrinks (mk_ite a b c)) ∧
      (∀ i, M.shrinks (mk_vnum i)) ∧ (∀ b env, M.shrinks (mk_vclos b env)) ∧
      (∀ hd tl, M.shrinks (cons_val_list hd tl)) ∧
      M.shrinks parse_term ∧ (∀ fuel t env, M.shrinks (eval fuel t env))) ∧
    (∀ t s1, parse_term s = Res.ok t s1 →
      s1.mem_term.buff_size ≤ s.mem_term.buff_size ∧ s1.mem_val.buff_size ≤ s.mem_val.buff_size ∧
      s1.mem_val_list.buff_size ≤ s.mem_val_list.buff_size) ∧
    (∀ t env v s1, Evals t env s (Res.ok v s1) →
      s1.mem_term.buff_size ≤ s.mem_term.buff_size ∧ s1.mem_val.buff_size ≤ s.mem_val.buff_size ∧
      s1.mem_val_list.buff_size ≤ s.mem_val_list.buff_size) := by
  refine ⟨⟨?_, ?_, ?_⟩, ⟨?_, ?_, ?_⟩, ⟨?_, ?_, ?_⟩, ⟨rfl, rfl, rfl⟩,
    ⟨shrinks_mk_var, shrinks_mk_num, shrinks_mk_app, shrinks_mk_lam, shrinks_mk_plus,
      shrinks_mk_ite, shrinks_mk_vnum, shrinks_mk_vclos, shrinks_cons_val_list,
      shrinks_parse_term, shrinks_eval⟩, ?_, ?_⟩
  · by_cases hb : s.mem_term.buff_size ≤ 0
    · simp [alloc_term, hb]
    · simp [alloc_term, hb]; omega
  · intro a s1 h
    by_cases hb : s.mem_term.buff_size ≤ 0
    · simp [alloc_term, hb] at h
    · simp only [alloc_term, hb, if_false, Res.ok.injEq] at h
      obtain ⟨rfl, rfl⟩ := h
      exact ⟨rfl, by simp only; omega, rfl, rfl, rfl, rfl⟩
  · intro hb
    simp [alloc_term, hb]
  · by_cases hb : s.mem_val.buff_size ≤ 0
    · simp [alloc_val, hb]
    · simp [alloc_val, hb]; omega
  · intro a s1 h
    by_cases hb : s.mem_val.buff_size ≤ 0
    · simp [alloc_val, hb] at h
    · simp only [alloc_val, hb, if_false, Res.ok.injEq] at h
      obtain ⟨rfl, rfl⟩ := h
      exact ⟨rfl, by simp only; omega, rfl, rfl, rfl, rfl⟩
  · intro hb
    simp [alloc_val, hb]
  · by_cases hb : s.mem_val_list.buff_size ≤ 0
    · simp [alloc_val_list, hb]
    · simp [alloc_val_list, hb]; omega
  · intro a s1 h
    by_cases hb : s.mem_val_list.buff_size ≤ 0
    · simp [alloc_val_list, hb] at h
    · simp only [alloc_val_list, hb, if_false, Res.ok.injEq] at h
      obtain ⟨rfl, rfl⟩ := h
      exact ⟨rfl, by simp only; omega, rfl, rfl, rfl, rfl⟩
  · intro hb
    simp [alloc_val_list, hb]
  · intro t s1 h
    have := shrinks_parse_term s
    rw [h] at this
    exact ⟨this.1.1, this.2.1.1, this.2.2.1⟩
  · intro t env v s1 h
    have := h.pools_le
    exact ⟨this.1.1, this.2.1.1, this.2.2.1⟩

/-- C12, witness: in the state `main` sets up, `alloc_val` hands out slot 0 and
leaves 999999 value slots and the other pools untouched; with the value pool
used up it exits. -/
theorem pools_independent_monotone_witness :
    (0 = (init_state []).mem_val.addr ∧
      ({ init_state [] with mem_val := ⟨999999, 1⟩ } : State).mem_val.buff_size + 1
        = (init_state []).mem_val.buff_size ∧
      ({ init_state [] with mem_val := ⟨999999, 1⟩ } : State).mem_val.addr
        = (init_state []).mem_val.addr + 1 ∧
      ({ init_state [] with mem_val := ⟨999999, 1⟩ } : State).mem_term
        = (init_state []).mem_term ∧
      ({ init_state [] with mem_val := ⟨999999, 1⟩ } : State).mem_val_list
        = (init_state []).mem_val_list ∧
      ({ init_state [] with mem_val := ⟨999999, 1⟩ } : State).glob = (init_state []).glob) ∧
    alloc_val { init_state [] with mem_val := ⟨0, 1000000⟩ }
      = Res.fatal Err.alloc_val_out_of_space { init_state [] with mem_val := ⟨0, 1000000⟩ } :=
  ⟨(pools_independent_monotone (init_state [])).2.1.2.1 0
      { init_state [] with mem_val := ⟨999999, 1⟩ } (by decide),
    (pools_independent_monotone { init_state [] with mem_val := ⟨0, 1000000⟩ }).2.1.2.2 rfl⟩

/-! ## C13: the scenario `+ 2 3` -/

/-- C13: with the pools at their configured capacities, `parse_term` on the
input `+ 2 3` returns `Addition(Number(2), Number(3))`, `pretty_term` prints
that term as exactly `+ 2 3`, and `eval` of it under the empty environment
returns `Number(5)`. -/
theorem plus_two_three_scenario :
    parse_term (init_state "+ 2 3".toList)
      = Res.ok (term.PLUS (term.NUM 2) (term.NUM 3))
          { init_state [] with mem_term := ⟨9997, 3⟩ } ∧
    pretty_term (term.PLUS (term.NUM 2) (term.NUM 3)) = "+ 2 3".toList ∧
    Evals (term.PLUS (term.NUM 2) (term.NUM 3)) val_list.NULL
      { init_state [] with mem_term := ⟨9997, 3⟩ }
      (Res.ok (value.VNUM 5)
        { init_state [] with mem_term := ⟨9997, 3⟩, mem_val := ⟨999997, 3⟩ }) :=
  ⟨by decide!, by decide!, ⟨3, rfl, by simp⟩⟩

/-! ## C14: rendering of values -/

theorem fmt_d_chars (i : Int) : ∀ c ∈ fmt_d i, c = '-' ∨ is_digit c = true := by
  intro c hc
  unfold fmt_d at hc
  split at hc
  · rcases List.mem_cons.1 hc with h | h
    · exact Or.inl h
    · exact Or.inr ((toDigits_spec _).2.1 c h)
  · exact Or.inr ((toDigits_spec _).2.1 c hc)

theorem fmt_d_no_bracket (i : Int) : ']' ∉ fmt_d i := by
  intro h
  rcases fmt_d_chars i _ h with h1 | h1
  · exact absurd h1 (by decide)
  · exact absurd h1 (by decide)

theorem pretty_term_no_bracket : ∀ t : term, ']' ∉ pretty_term t := by
  intro t
  induction t with
  | VAR i => simp [pretty_term, fmt_d_no_bracket]
  | NUM i => simp [pretty_term, fmt_d_no_bracket]
  | APP a b iha ihb => simp [pretty_term, iha, ihb]
  | LAM b ihb => simp [pretty_term, ihb]
  | PLUS a b iha ihb => simp [pretty_term, iha, ihb]
  | ITE c a b ihc iha ihb => simp [pretty_term, ihc, iha, ihb]

mutual
theorem pretty_val_no_bracket : ∀ (v : value) (out : List Char),
    pretty_val v = some out → ']' ∉ out
  | .NULL, out, h => by simp [pretty_val] at h
  | .VNUM n, out, h => by
    simp only [pretty_val, Option.some.injEq] at h
    subst h
    exact fmt_d_no_bracket n
  | .VCLOS b env, out, h => by
    simp only [pretty_val] at h
    cases hl : pretty_val_list env with
    | none => simp [hl] at h
    | some l =>
      have := pretty_val_list_no_bracket env l hl
      simp only [hl, Option.some.injEq] at h
      subst h
      simp [pretty_term_no_bracket, this]
theorem pretty_val_list_no_bracket : ∀ (l : val_list) (out : List Char),
    pretty_val_list l = some out → ']' ∉ out
  | .NULL, out, h => by
    simp only [pretty_val_list, Option.some.injEq] at h
    subst h
    simp
  | .cons hd tl, out, h => by
    simp only [pretty_val_list] at h
    cases ha : pretty_val hd with
    | none => simp [ha] at h
    | some a =>
      cases hb : pretty_val_list tl with
      | none => simp [ha, hb] at h
      | some b =>
        have h1 := pretty_val_no_bracket hd a ha
        have h2 := pretty_val_list_no_bracket tl b hb
        simp only [ha, hb, Option.some.injEq] at h
        subst h
        simp [h1, h2]
end

mutual
theorem pretty_val_some : ∀ v : value, v.no_null → ∃ out, pretty_val v = some out
  | .NULL, h => by simp [value.no_null] at h
  | .VNUM n, _ => ⟨_, rfl⟩
  | .VCLOS b env, h => by
    simp only [value.no_null] at h
    obtain ⟨l, hl⟩ := pretty_val_list_some env h
    exact ⟨'\\' :: ' ' :: (pretty_term b ++ '[' :: l), by simp only [pretty_val, hl]⟩
theorem pretty_val_list_some : ∀ l : val_list, l.no_null → ∃ out, pretty_val_list l = some out
  | .NULL, _ => ⟨[], rfl⟩
  | .cons hd tl, h => by
    simp only [val_list.no_null] at h
    obtain ⟨a, ha⟩ := pretty_val_some hd h.1
    obtain ⟨b, hb⟩ := pretty_val_list_some tl h.2
    exact ⟨a ++ ',' :: ' ' :: b, by simp only [pretty_val_list, ha, hb]⟩
end

/-- C14: `pretty_val` prints `Number(n)` as the decimal integer `n`; it prints
`Closure(body, env)` as a backslash and a space, the text of `pretty_term(body)`,
an opening bracket, and then what `pretty_val_list(env)` prints: nothing for the
empty environment, and for a non-empty one the rendering of the head (the most
recent binding) followed by a comma and a space, then the rest of the list in
the same way, so every value, the last one included, is followed by a comma.
No closing bracket occurs anywhere in what `pretty_val` prints, and every value
free of null pointers is printed. -/
theorem pretty_val_format :
    (∀ n, pretty_val (value.VNUM n) = some (fmt_d n)) ∧
    (∀ body env l, pretty_val_list env = some l →
      pretty_val (value.VCLOS body env)
        = some ('\\' :: ' ' :: (pretty_term body ++ '[' :: l))) ∧
    pretty_val_list val_list.NULL = some [] ∧
    (∀ hd tl a b, pretty_val hd = some a → pretty_val_list tl = some b →
      pretty_val_list (val_list.cons hd tl) = some (a ++ ',' :: ' ' :: b)) ∧
    (∀ v out, pretty_val v = some out → ']' ∉ out) ∧
    (∀ v, v.no_null → ∃ out, pretty_val v = some out) := by
  refine ⟨fun n => rfl, fun body env l h => ?_, rfl, fun hd tl a b ha hb => ?_,
    pretty_val_no_bracket, pretty_val_some⟩
  · simp only [pretty_val, h]
  · simp only [pretty_val_list, ha, hb]

/-- C14, witness: a closure whose environment holds `1`, then a closure over
`-2`, is printed with a comma after every value and no closing bracket. -/
theorem pretty_val_format_witness :
    pretty_val (value.VCLOS (term.APP (term.VAR 0) (term.VAR 1))
        (val_list.cons (value.VNUM 1)
          (val_list.cons
            (value.VCLOS (term.VAR 0) (val_list.cons (value.VNUM (-2)) val_list.NULL))
            val_list.NULL)))
      = some "\\ @ $0 $1[1, \\ $0[-2, , ".toList ∧
    ']' ∉ "\\ @ $0 $1[1, \\ $0[-2, , ".toList :=
  ⟨by decide!,
    pretty_val_format.2.2.2.2.1
      (value.VCLOS (term.APP (term.VAR 0) (term.VAR 1))
        (val_list.cons (value.VNUM 1)
          (val_list.cons
            (value.VCLOS (term.VAR 0) (val_list.cons (value.VNUM (-2)) val_list.NULL))
            val_list.NULL))) _ (by decide!)⟩

/-! ## C15: variable indices -/

theorem decimal_value_nonneg_aux (ds : List Char) (hd : ∀ c ∈ ds, is_digit c = true) :
    ∀ v : Int, 0 ≤ v → 0 ≤ ds.foldl (fun v c => v * 10 + ((c.toNat : Int) - 48)) v := by
  induction ds with
  | nil => intro v hv; exact hv
  | cons c ds ih =>
    intro v hv
    have hc := hd c (List.mem_cons_self _ _)
    simp only [is_digit, Bool.and_eq_true, decide_eq_true_eq] at hc
    have h48 : '0'.toNat = 48 := by decide
    rw [h48] at hc
    simp only [List.foldl_cons]
    exact ih (fun x hx => hd x (List.mem_cons_of_mem _ hx)) _ (by omega)

theorem decimal_value_nonneg (ds : List Char) (hd : ∀ c ∈ ds, is_digit c = true) :
    0 ≤ decimal_value ds :=
  decimal_value_nonneg_aux ds hd 0 (le_refl 0)

theorem derives_vars_nonneg {empty_ok : Bool} {str : List Char} {t : term}
    (h : Derives empty_ok str t) : vars_nonneg t := by
  induction h with
  | var ds hd _ => exact decimal_value_nonneg ds hd
  | num _ _ _ => trivial
  | neg _ _ _ => trivial
  | app _ _ iha ihb => exact ⟨iha, ihb⟩
  | lam _ ih => exact ih
  | plus _ _ iha ihb => exact ⟨iha, ihb⟩
  | ite _ _ _ ihc iha ihb => exact ⟨ihc, iha, ihb⟩

theorem wrap_term_vars_nonneg : ∀ t : term, vars_nonneg t → vars_fit t →
    vars_nonneg (wrap_term t) := by
  intro t
  induction t with
  | VAR i =>
    intro h1 h2
    simp only [vars_nonneg, vars_fit, wrap_term] at *
    unfold wrap_int
    omega
  | NUM i => intro _ _; trivial
  | APP a b iha ihb => intro h1 h2; exact ⟨iha h1.1 h2.1, ihb h1.2 h2.2⟩
  | LAM b ihb => intro h1 h2; exact ihb h1 h2
  | PLUS a b iha ihb => intro h1 h2; exact ⟨iha h1.1 h2.1, ihb h1.2 h2.2⟩
  | ITE c a b ihc iha ihb =>
    intro h1 h2
    exact ⟨ihc h1.1 h2.1, iha h1.2.1 h2.2.1, ihb h1.2.2 h2.2.2⟩

theorem var_indices_wrap : ∀ t : term,
    var_indices (wrap_term t) = (var_indices t).map wrap_int := by
  intro t
  induction t with
  | VAR i => rfl
  | NUM i => rfl
  | APP a b iha ihb => simp [var_indices, wrap_term, iha, ihb]
  | LAM b ihb => simpa [var_indices, wrap_term] using ihb
  | PLUS a b iha ihb => simp [var_indices, wrap_term, iha, ihb]
  | ITE c a b ihc iha ihb => simp [var_indices, wrap_term, ihc, iha, ihb]

theorem vars_nonneg_iff : ∀ t : term, vars_nonneg t ↔ ∀ i ∈ var_indices t, 0 ≤ i := by
  intro t
  induction t with
  | VAR i => simp [vars_nonneg, var_indices]
  | NUM i => simp [vars_nonneg, var_indices]
  | APP a b iha ihb =>
    simp only [vars_nonneg, var_indices, iha, ihb, List.mem_append]
    exact ⟨fun h i hi => hi.elim (h.1 i) (h.2 i),
      fun h => ⟨fun i hi => h i (Or.inl hi), fun i hi => h i (Or.inr hi)⟩⟩
  | LAM b ihb => simpa [vars_nonneg, var_indices] using ihb
  | PLUS a b iha ihb =>
    simp only [vars_nonneg, var_indices, iha, ihb, List.mem_append]
    exact ⟨fun h i hi => hi.elim (h.1 i) (h.2 i),
      fun h => ⟨fun i hi => h i (Or.inl hi), fun i hi => h i (Or.inr hi)⟩⟩
  | ITE c a b ihc iha ihb =>
    simp only [vars_nonneg, var_indices, ihc, iha, ihb, List.mem_append]
    exact ⟨fun h i hi => hi.elim (h.1 i) (fun hi => hi.elim (h.2.1 i) (h.2.2 i)),
      fun h => ⟨fun i hi => h i (Or.inl hi), fun i hi => h i (Or.inr (Or.inl hi)),
        fun i hi => h i (Or.inr (Or.inr hi))⟩⟩

theorem var_literals_digits (ds rest : List Char) (hd : ∀ c ∈ ds, is_digit c = true) :
    var_literals (ds ++ rest) = var_literals rest := by
  induction ds with
  | nil => rfl
  | cons c ds ih =>
    have hc := (is_digit_not_op (hd c (List.mem_cons_self _ _))).1
    simp only [List.cons_append, var_literals, if_neg hc]
    exact ih (fun x hx => hd x (List.mem_cons_of_mem _ hx))

theorem var_literals_are_digits : ∀ (l : List Char), ∀ ds ∈ var_literals l,
    ∀ c ∈ ds, is_digit c = true := by
  intro l
  induction l with
  | nil => intro ds h; simp [var_literals] at h
  | cons c l ih =>
    intro ds h
    by_cases hc : c = '$'
    · simp only [var_literals, if_pos hc, List.mem_cons] at h
      rcases h with rfl | h
      · intro x hx
        exact (List.mem_takeWhile_imp hx)
      · exact ih ds h
    · simp only [var_literals, if_neg hc] at h
      exact ih ds h

/-- The numbers written after the `$` signs of a derivable text are the
variable indices of the term it denotes, in the same order. -/
theorem derives_var_literals {empty_ok : Bool} {str : List Char} {t : term}
    (h : Derives empty_ok str t) :
    ∀ rest, no_digit_head rest →
      (var_literals (str ++ rest)).map decimal_value
        = var_indices t ++ (var_literals rest).map decimal_value := by
  induction h with
  | var ds hd hne =>
    intro rest hr
    simp [var_literals, digits_append_take hd hr, var_literals_digits ds rest hd, var_indices]
  | num ds hd hne =>
    intro rest hr
    simp [var_literals_digits ds rest hd, var_indices]
  | neg ds hd hne =>
    intro rest hr
    simp [var_literals, var_literals_digits ds rest hd, var_indices]
  | @app f a tf ta hf ha ihf iha =>
    intro rest hr
    have h1 := ihf (' ' :: (a ++ rest)) (no_digit_head_space _)
    have h2 := iha rest hr
    simp only [var_literals, List.cons_append, List.append_assoc] at h1 h2 ⊢
    simp [var_indices, h1, h2, var_literals]
  | @lam b tb hb ihb =>
    intro rest hr
    have h1 := ihb rest hr
    simp [var_indices, var_literals, h1]
  | @plus l r tl tr hl hr2 ihl ihr =>
    intro rest hr
    have h1 := ihl (' ' :: (r ++ rest)) (no_digit_head_space _)
    have h2 := ihr rest hr
    simp only [var_literals, List.cons_append, List.append_assoc] at h1 h2 ⊢
    simp [var_indices, h1, h2, var_literals]
  | @ite c t e tc tt te hc ht he ihc iht ihe =>
    intro rest hr
    have h1 := ihc (' ' :: (t ++ (' ' :: (e ++ rest)))) (no_digit_head_space _)
    have h2 := iht (' ' :: (e ++ rest)) (no_digit_head_space _)
    have h3 := ihe rest hr
    simp only [var_literals, List.cons_append, List.append_assoc] at h1 h2 h3 ⊢
    simp [var_indices, h1, h2, h3, var_literals]

theorem wrap_int_mod (x : Int) : (wrap_int x - x) % 4294967296 = 0 := by
  unfold wrap_int; omega

theorem parse_term_var_indices (s : State) (t : term) (s1 : State)
    (h : parse_term s = Res.ok t s1) :
    ∃ consumed t0, s.glob = consumed ++ s1.glob ∧ Derives true consumed t0 ∧
      t = wrap_term t0 ∧ var_indices t0 = (var_literals consumed).map decimal_value := by
  obtain ⟨mt, mv, ml, g⟩ := s
  obtain ⟨consumed, t0, rest, hg, hd, ht, -, -, hs1⟩ := parse_term_aux_sound _ mt mv ml g t s1 h
  refine ⟨consumed, t0, ?_, hd, ht, ?_⟩
  · rw [hs1]; exact hg
  · have := derives_var_literals hd [] no_digit_head_nil
    simpa [var_literals] using this.symm

theorem wrap_decimal_fit {ds : List Char} (hd : ∀ c ∈ ds, is_digit c = true)
    (hfit : decimal_value ds ≤ 2147483647) : wrap_int (decimal_value ds) = decimal_value ds :=
  wrap_int_of_range ⟨by have := decimal_value_nonneg ds hd; omega, by omega⟩

/-- C15, amended: for every input on which `parse_term` succeeds, the indices of
the Variable nodes of the returned term are, node by node from left to right,
the numbers written after the `$` signs of the consumed text, each reduced
modulo `2^32` into the range of an `int`, `-2^31` to `2^31 - 1`. A node whose
written number is at most `2147483647` has exactly that number as its index,
which is `≥ 0`, whatever the other nodes are; when all written numbers are at
most `2147483647`, no Variable node has a negative index. -/
theorem var_index_range (s : State) :
    (∀ t s1, parse_term s = Res.ok t s1 →
      term_in_range t ∧ (∀ i ∈ var_indices t, int_range i) ∧
      ∃ consumed t0, s.glob = consumed ++ s1.glob ∧ Derives true consumed t0 ∧
        t = wrap_term t0 ∧
        var_indices t0 = (var_literals consumed).map decimal_value ∧
        var_indices t
          = (var_literals consumed).map (fun ds => wrap_int (decimal_value ds))) ∧
    (∀ (t : term) (s1 : State) (consumed : List Char) (k : Nat) (ds : List Char),
      parse_term s = Res.ok t s1 → s.glob = consumed ++ s1.glob →
      (var_literals consumed)[k]? = some ds →
      (var_indices t)[k]? = some (wrap_int (decimal_value ds)) ∧
      (decimal_value ds ≤ 2147483647 →
        (var_indices t)[k]? = some (decimal_value ds) ∧ 0 ≤ decimal_value ds)) ∧
    (∀ t s1 consumed, parse_term s = Res.ok t s1 → s.glob = consumed ++ s1.glob →
      (∀ ds ∈ var_literals consumed, decimal_value ds ≤ 2147483647) → vars_nonneg t) ∧
    (∀ ds : List Char, (∀ c ∈ ds, is_digit c = true) →
      0 ≤ decimal_value ds ∧ int_range (wrap_int (decimal_value ds)) ∧
      (wrap_int (decimal_value ds) - decimal_value ds) % 4294967296 = 0 ∧
      (decimal_value ds ≤ 2147483647 → wrap_int (decimal_value ds) = decimal_value ds)) ∧
    (∀ ds rest, (∀ c ∈ ds, is_digit c = true) → no_digit_head rest →
      0 < s.mem_term.buff_size →
      parse_term { s with glob := '$' :: (ds ++ rest) }
        = Res.ok (term.VAR (wrap_int (decimal_value ds)))
            { s with
              glob := rest
              mem_term := ⟨s.mem_term.buff_size - 1, s.mem_term.addr + 1⟩ }) ∧
    (∀ str t, Derives false str t → vars_fit t → term_size t ≤ s.mem_term.buff_size →
      ∃ t1 s1, parse_term { s with glob := str } = Res.ok t1 s1 ∧ vars_nonneg t1) := by
  have hmap : ∀ t s1 consumed, parse_term s = Res.ok t s1 → s.glob = consumed ++ s1.glob →
      var_indices t
        = (var_literals consumed).map (fun ds => wrap_int (decimal_value ds)) := by
    intro t s1 consumed h hg
    obtain ⟨c2, t0, hg2, -, ht, hv⟩ := parse_term_var_indices s t s1 h
    have hc : consumed = c2 := List.append_cancel_right (hg.symm.trans hg2)
    subst hc
    rw [ht, var_indices_wrap, hv, List.map_map]
    rfl
  refine ⟨fun t s1 h => ?_, fun t s1 consumed k ds h hg hk => ?_,
    fun t s1 consumed h hg hfit => ?_, fun ds hd => ?_, fun ds rest hd hr hcap => ?_,
    fun str t hd hfit hcap => ?_⟩
  · obtain ⟨consumed, t0, hg, hd, ht, hv⟩ := parse_term_var_indices s t s1 h
    refine ⟨ht ▸ term_in_range_wrap t0, ?_, consumed, t0, hg, hd, ht, hv, hmap t s1 consumed h hg⟩
    intro i hi
    rw [ht, var_indices_wrap] at hi
    obtain ⟨j, -, rfl⟩ := List.mem_map.1 hi
    exact wrap_int_range j
  · have hm := hmap t s1 consumed h hg
    have hk2 : (var_indices t)[k]? = some (wrap_int (decimal_value ds)) := by
      rw [hm, List.getElem?_map, hk]
      rfl
    refine ⟨hk2, fun hfit => ?_⟩
    have hd := var_literals_are_digits consumed ds (List.getElem?_mem hk)
    rw [hk2, wrap_decimal_fit hd hfit]
    exact ⟨rfl, decimal_value_nonneg ds hd⟩
  · rw [vars_nonneg_iff, hmap t s1 consumed h hg]
    intro i hi
    obtain ⟨ds, hds, rfl⟩ := List.mem_map.1 hi
    have hd := var_literals_are_digits consumed ds hds
    rw [wrap_decimal_fit hd (hfit ds hds)]
    exact decimal_value_nonneg ds hd
  · exact ⟨decimal_value_nonneg ds hd, wrap_int_range _, wrap_int_mod _,
      fun hfit => wrap_decimal_fit hd hfit⟩
  · have hder : Derives true ('$' :: ds) (term.VAR (decimal_value ds)) :=
      Derives.var ds hd (Or.inl rfl)
    have := parse_term_aux_derives hder (('$' :: (ds ++ rest)).length + 1) s.mem_term
      s.mem_val s.mem_val_list rest (by simp; omega) hr (by simpa [term_size] using hcap)
    simpa [wrap_term, term_size, parse_term] using this
  · exact ⟨_, _, parse_term_derives s hd hcap,
      wrap_term_vars_nonneg t (derives_vars_nonneg hd) hfit⟩

/-- C15, witness: on the input `@ $1 $4294967295` `parse_term` succeeds; the
first Variable node, written `1`, has the index `1`, although the second one,
written `4294967295`, gets the index `-1`. On `$5x` the variable `$5` is
accepted with the index `5` and `x` is left. The input `$2147483647` is accepted
with a non-negative index. -/
theorem var_index_range_witness :
    parse_term (init_state "@ $1 $4294967295".toList)
      = Res.ok (term.APP (term.VAR 1) (term.VAR (-1)))
          { init_state [] with mem_term := ⟨9997, 3⟩ } ∧
    ((var_indices (term.APP (term.VAR 1) (term.VAR (-1))))[0]?
        = some (decimal_value "1".toList) ∧
      0 ≤ decimal_value "1".toList) ∧
    vars_nonneg (term.APP (term.VAR 1) (term.VAR 2)) ∧
    parse_term { init_state [] with glob := '$' :: ("5".toList ++ "x".toList) }
      = Res.ok (term.VAR 5) { init_state [] with glob := "x".toList, mem_term := ⟨9999, 1⟩ } ∧
    ∃ t1 s1, parse_term { init_state [] with glob := '$' :: "2147483647".toList }
      = Res.ok t1 s1 ∧ vars_nonneg t1 :=
  ⟨by decide!,
    ((var_index_range (init_state "@ $1 $4294967295".toList)).2.1
      (term.APP (term.VAR 1) (term.VAR (-1)))
      { init_state [] with mem_term := ⟨9997, 3⟩ } "@ $1 $4294967295".toList 0 "1".toList
      (by decide!) (by decide) (by decide)).2 (by decide),
    (var_index_range (init_state "@ $1 $2".toList)).2.2.1
      (term.APP (term.VAR 1) (term.VAR 2))
      { init_state [] with mem_term := ⟨9997, 3⟩ } "@ $1 $2".toList
      (by decide!) (by decide) (by decide),
    (var_index_range (init_state [])).2.2.2.2.1 "5".toList "x".toList (by decide)
      (by intro c hc; simp at hc; subst hc; decide) (by decide),
    (var_index_range (init_state [])).2.2.2.2.2 _ _
      (Derives.var "2147483647".toList (by decide) (Or.inr (by decide)))
      (by unfold vars_fit; decide) (by decide)⟩

/-- C15 as stated fails: on the input `$4294967295` `parse_term` succeeds and
returns `Variable(-1)`. -/
theorem var_index_negative :
    parse_term (init_state "$4294967295".toList)
      = Res.ok (term.VAR (-1)) { init_state [] with mem_term := ⟨9999, 1⟩ } ∧
    ¬ vars_nonneg (term.VAR (-1)) :=
  ⟨by decide!, by simp [vars_nonneg]⟩

/-! ## C16: re-parsing printed numbers -/

/-- The text `printf("%d")` writes for an `int` is parsed back by `parse_term`
to the literal of that `int`, negative values included. -/
theorem parse_fmt_d (n : Int) (hn : int_range n) (s : State) (hcap : 0 < s.mem_term.buff_size) :
    parse_term { s with glob := fmt_d n }
      = Res.ok (term.NUM n)
          { s with glob := [], mem_term := ⟨s.mem_term.buff_size - 1, s.mem_term.addr + 1⟩ } := by
  have hd : Derives false (pretty_term (term.NUM n)) (term.NUM n) :=
    pretty_term_derives _ trivial
  have h := parse_term_derives s hd (by simpa [term_size] using hcap)
  simpa [wrap_term, wrap_int_of_range hn, term_size, pretty_term] using h

/-- C16, amended: the parser accepts what the evaluator can produce for
numbers. Every `Number(n)` value with `n` an `int`, negative or not, is
rendered by `pretty_val` as `fmt_d n` (a minus sign and the decimal digits when
`n` is negative), and `parse_term` on that rendering, with a free term slot,
consumes it all and returns the numeric literal `Number(n)` of the same
value. -/
theorem negative_numbers_reparse (n : Int) (hn : int_range n) (s : State)
    (hcap : 0 < s.mem_term.buff_size) :
    pretty_val (value.VNUM n) = some (fmt_d n) ∧
    parse_term { s with glob := fmt_d n }
      = Res.ok (term.NUM n)
          { s with glob := [], mem_term := ⟨s.mem_term.buff_size - 1, s.mem_term.addr + 1⟩ } :=
  ⟨rfl, parse_fmt_d n hn s hcap⟩

/-- C16, witness: the value `-3`. -/
theorem negative_numbers_reparse_witness :
    pretty_val (value.VNUM (-3)) = some (fmt_d (-3)) ∧
    parse_term { init_state [] with glob := fmt_d (-3) }
      = Res.ok (term.NUM (-3))
          { init_state [] with glob := [], mem_term := ⟨10000 - 1, 0 + 1⟩ } :=
  negative_numbers_reparse (-3) (by decide) (init_state []) (by decide)

/-- C16 as stated fails: there is no negative `int` whose rendering by
`pretty_val` is not parsed back to the literal of the same value; in particular
`+ 2 -5` evaluates to `Number(-3)`, which is printed as `-3` and parsed back to
`Number(-3)`. -/
theorem no_unparsed_negative_number :
    (¬ ∃ n : Int, int_range n ∧ n < 0 ∧
      ∀ out, pretty_val (value.VNUM n) = some out →
        parse_term (init_state out)
          ≠ Res.ok (term.NUM n) { init_state [] with mem_term := ⟨9999, 1⟩ }) ∧
    parse_term (init_state "+ 2 -5".toList)
      = Res.ok (term.PLUS (term.NUM 2) (term.NUM (-5)))
          { init_state [] with mem_term := ⟨9997, 3⟩ } ∧
    Evals (term.PLUS (term.NUM 2) (term.NUM (-5))) val_list.NULL (init_state [])
      (Res.ok (value.VNUM (-3)) { init_state [] with mem_val := ⟨999997, 3⟩ }) ∧
    pretty_val (value.VNUM (-3)) = some "-3".toList ∧
    parse_term (init_state "-3".toList)
      = Res.ok (term.NUM (-3)) { init_state [] with mem_term := ⟨9999, 1⟩ } := by
  refine ⟨?_, by decide!, ⟨3, rfl, by simp⟩, by decide!, by decide!⟩
  rintro ⟨n, hn, -, h⟩
  exact h (fmt_d n) rfl (parse_fmt_d n hn (init_state []) (by decide))

/-! ## C19: `get_value` at a negative position -/

/-- C19, the code at the failing input: `get_value(l, -1)` does not enter its
loop and returns the null pointer `out` was initialised with, without any
diagnostic, although no element of `l` is null. The position `-1` is reached
from the input `$4294967295`, which `parse_term` turns into `Variable(-1)`;
`eval` of it returns the null pointer, and `pretty_val` of the null pointer
dereferences it. -/
theorem get_value_negative_null :
    get_value (val_list.cons (value.VNUM 7) val_list.NULL) (-1) (init_state [])
      = Res.ok value.NULL (init_state []) ∧
    (val_list.cons (value.VNUM 7) val_list.NULL).no_null ∧
    parse_term (init_state "$4294967295".toList)
      = Res.ok (term.VAR (-1)) { init_state [] with mem_term := ⟨9999, 1⟩ } ∧
    Evals (term.VAR (-1)) val_list.NULL { init_state [] with mem_term := ⟨9999, 1⟩ }
      (Res.ok value.NULL { init_state [] with mem_term := ⟨9999, 1⟩ }) ∧
    pretty_val value.NULL = none :=
  ⟨rfl, by simp [val_list.no_null, value.no_null], by decide!, ⟨1, rfl, by simp⟩, rfl⟩

/-! ## C17: the term Omega -/

theorem eval_var_zero (fuel : Nat) (v : value) (tl : val_list) (s : State) :
    eval (fuel + 1) (term.VAR 0) (val_list.cons v tl) s = Res.ok v s := by
  have := get_value_loop_nth (val_list.cons v tl) 0 value.NULL s
  simpa [eval, get_value, val_list.nth] using this

/-- The loop of Omega: with a free environment cell, the body under an
environment whose head is the closure of the body is entered again, under the
environment of that closure extended by that closure. -/
theorem omega_body_step (fuel : Nat) (E tl : val_list) (s : State) :
    eval (fuel + 2) omega_body (val_list.cons (value.VCLOS omega_body E) tl) s
      = if s.mem_val_list.buff_size ≤ 0 then Res.fatal Err.alloc_val_list_out_of_space s
        else eval (fuel + 1) omega_body
          (val_list.cons (value.VCLOS omega_body E) E) s.take_val_list := by
  have h : eval (fuel + 2) omega_body (val_list.cons (value.VCLOS omega_body E) tl) s
      = (do
          let env1 ← cons_val_list (value.VCLOS omega_body E) E
          eval (fuel + 1) omega_body env1) s := by
    conv => lhs; unfold omega_body; rw [eval]
    simp only [bind_apply, eval_var_zero]
    rfl
  rw [h]
  by_cases hb : s.mem_val_list.buff_size ≤ 0
  · simp [cons_val_list, alloc_val_list, hb]
  · simp [cons_val_list, alloc_val_list, hb, State.take_val_list]

theorem omega_body_no_value : ∀ (fuel : Nat) (E tl : val_list) (s : State) (v : value)
    (s1 : State),
    eval fuel omega_body (val_list.cons (value.VCLOS omega_body E) tl) s ≠ Res.ok v s1 := by
  intro fuel
  induction fuel using Nat.strong_induction_on with
  | _ fuel ih =>
    intro E tl s v s1
    match fuel with
    | 0 => rw [eval_zero]; simp
    | 1 =>
      unfold omega_body
      simp [eval, eval_zero]
    | k + 2 =>
      rw [omega_body_step]
      split
      · simp
      · exact ih (k + 1) (by omega) E E _ v s1

theorem omega_no_value (fuel : Nat) (s : State) (v : value) (s1 : State) :
    eval fuel Omega val_list.NULL s ≠ Res.ok v s1 := by
  match fuel with
  | 0 => rw [eval_zero]; simp
  | 1 => unfold Omega; simp [eval, eval_zero]
  | k + 2 =>
    unfold Omega
    rw [eval]
    simp only [bind_apply, eval]
    by_cases hb : s.mem_val.buff_size ≤ 0
    · simp [mk_vclos, alloc_val, hb]
    · by_cases hb2 : s.mem_val.buff_size - 1 ≤ 0
      · simp [mk_vclos, alloc_val, hb, hb2]
      · by_cases hc : s.mem_val_list.buff_size ≤ 0
        · simp [mk_vclos, alloc_val, hb, hb2, cons_val_list, alloc_val_list, hc]
        · simp only [mk_vclos, alloc_val, hb, hb2, cons_val_list, alloc_val_list, hc,
            bind_apply, pure_apply, if_false]
          exact omega_body_no_value (k + 1) _ _ _ v s1

/-- With recursion depth to spare, the loop ends when the environment pool is
used up. -/
theorem omega_body_exhausts : ∀ (k : Nat) (E : val_list) (s : State),
    s.mem_val_list.buff_size = k →
    Evals omega_body (val_list.cons (value.VCLOS omega_body E) E) s
      (Res.fatal Err.alloc_val_list_out_of_space
        { s with mem_val_list := ⟨0, s.mem_val_list.addr + k⟩ }) := by
  intro k
  induction k with
  | zero =>
    intro E s hk
    refine ⟨2, ?_, by simp⟩
    rw [omega_body_step]
    obtain ⟨mt, mv, ⟨b, a⟩, g⟩ := s
    simp only at hk
    subst hk
    simp
  | succ k ih =>
    intro E s hk
    obtain ⟨f, hf, hne⟩ := ih E s.take_val_list (by simp [State.take_val_list, hk])
    refine ⟨f + 2, ?_, by simp⟩
    rw [omega_body_step]
    have hb : ¬ s.mem_val_list.buff_size ≤ 0 := by omega
    rw [if_neg hb, eval_mono (Nat.le_succ f) hf hne]
    simp only [State.take_val_list, Res.fatal.injEq, State.mk.injEq, val_list_array.mk.injEq,
      true_and, and_true]
    omega

theorem eval_lam (n : Nat) (b : term) (env : val_list) :
    eval (n + 1) (term.LAM b) env = mk_vclos b env := by
  rw [eval]

theorem eval_app_succ (n : Nat) (a b : term) (env : val_list) :
    eval (n + 1) (term.APP a b) env = (do
      let varg1 ← eval n a env
      match varg1 with
      | .NULL => M.exit Err.null_dereference
      | .VNUM _ => M.exit Err.eval_app_expected_lambda
      | .VCLOS clos_body clos_env =>
        let varg2 ← eval n b env
        let env1 ← cons_val_list varg2 clos_env
        eval n clos_body env1) := by
  rw [eval]

/-- One step of the evaluation of Omega: two closures are made, an environment
cell is taken, and the body is entered under the one-binding environment. -/
theorem omega_unfold (fuel : Nat) (s : State) :
    eval (fuel + 2) Omega val_list.NULL s =
      if s.mem_val.buff_size ≤ 0 then Res.fatal Err.alloc_val_out_of_space s
      else if s.mem_val.buff_size - 1 ≤ 0 then Res.fatal Err.alloc_val_out_of_space s.take_val
      else if s.mem_val_list.buff_size ≤ 0 then
        Res.fatal Err.alloc_val_list_out_of_space s.take_val.take_val
      else eval (fuel + 1) omega_body
        (val_list.cons (value.VCLOS omega_body val_list.NULL) val_list.NULL)
        s.take_val.take_val.take_val_list := by
  unfold Omega
  rw [eval_app_succ]
  simp only [bind_apply, eval_lam]
  by_cases hb : s.mem_val.buff_size ≤ 0
  · simp [mk_vclos, alloc_val, hb]
  · by_cases hb2 : s.mem_val.buff_size - 1 ≤ 0
    · simp [mk_vclos, alloc_val, hb, hb2, State.take_val]
    · by_cases hc : s.mem_val_list.buff_size ≤ 0
      · simp [mk_vclos, alloc_val, hb, hb2, cons_val_list, alloc_val_list, hc, State.take_val]
      · simp [mk_vclos, alloc_val, hb, hb2, cons_val_list, alloc_val_list, hc, State.take_val,
          State.take_val_list]

theorem eval_entries_var (n : Nat) (i : Int) (env : val_list) (s : State) :
    eval_entries n (term.VAR i) env s = [] := by
  cases n <;> simp [eval_entries]

theorem eval_entries_lam (n : Nat) (b : term) (env : val_list) (s : State) :
    eval_entries n (term.LAM b) env s = [] := by
  cases n <;> simp [eval_entries]

theorem eval_entries_app_succ (n : Nat) (a b : term) (env : val_list) (s : State) :
    eval_entries (n + 1) (term.APP a b) env s =
      eval_entries n a env s ++
        (match eval n a env s with
          | Res.ok (value.VCLOS clos_body clos_env) s1 =>
            eval_entries n b env s1 ++
              (match eval n b env s1 with
                | Res.ok varg2 s2 =>
                  (match cons_val_list varg2 clos_env s2 with
                    | Res.ok env1 s3 => env1 :: eval_entries n clos_body env1 s3
                    | _ => [])
                | _ => [])
          | _ => []) := by
  rw [eval_entries]

/-- The loop of Omega ends only when a resource runs out: the recursion depth
or the environment pool. -/
theorem omega_body_resource : ∀ (fuel : Nat) (E tl : val_list) (s : State),
    eval fuel omega_body (val_list.cons (value.VCLOS omega_body E) tl) s = Res.out_of_fuel ∨
    ∃ s1, eval fuel omega_body (val_list.cons (value.VCLOS omega_body E) tl) s
      = Res.fatal Err.alloc_val_list_out_of_space s1 := by
  intro fuel
  induction fuel using Nat.strong_induction_on with
  | _ fuel ih =>
    intro E tl s
    match fuel with
    | 0 => left; rw [eval_zero]
    | 1 =>
      left
      unfold omega_body
      simp [eval, eval_zero]
    | k + 2 =>
      rw [omega_body_step]
      split
      · exact Or.inr ⟨s, rfl⟩
      · exact ih (k + 1) (by omega) E E _

/-- Every closure body entered in the loop of Omega is entered under the
captured environment of the closure extended by the closure. -/
theorem omega_body_entries : ∀ (fuel : Nat) (E tl : val_list) (s : State),
    ∀ env ∈ eval_entries fuel omega_body (val_list.cons (value.VCLOS omega_body E) tl) s,
      env = val_list.cons (value.VCLOS omega_body E) E := by
  intro fuel
  induction fuel using Nat.strong_induction_on with
  | _ fuel ih =>
    intro E tl s env henv
    match fuel with
    | 0 => simp [eval_entries] at henv
    | 1 =>
      unfold omega_body at henv
      simp [eval_entries_app_succ, eval_entries, eval_zero] at henv
    | k + 2 =>
      have h : eval_entries (k + 2) omega_body (val_list.cons (value.VCLOS omega_body E) tl) s
          = match cons_val_list (value.VCLOS omega_body E) E s with
            | Res.ok env1 s3 => env1 :: eval_entries (k + 1) omega_body env1 s3
            | _ => [] := by
        conv => lhs; unfold omega_body; rw [eval_entries_app_succ]
        simp only [eval_entries_var, eval_var_zero, List.nil_append]
        rfl
      rw [h] at henv
      by_cases hb : s.mem_val_list.buff_size ≤ 0
      · simp [cons_val_list, alloc_val_list, hb] at henv
      · rw [cons_val_list_ok _ _ (by omega)] at henv
        simp only [List.mem_cons] at henv
        rcases henv with rfl | h2
        · rfl
        · exact ih (k + 1) (by omega) E E _ env h2

theorem omega_entries (fuel : Nat) (s : State) :
    ∀ env ∈ eval_entries fuel Omega val_list.NULL s,
      env = val_list.cons (value.VCLOS omega_body val_list.NULL) val_list.NULL := by
  intro env henv
  match fuel with
  | 0 => simp [eval_entries] at henv
  | 1 =>
    unfold Omega at henv
    simp [eval_entries_app_succ, eval_entries, eval_zero] at henv
  | k + 2 =>
    unfold Omega at henv
    rw [eval_entries_app_succ] at henv
    simp only [eval_entries_lam, eval_lam, List.nil_append] at henv
    by_cases hb : s.mem_val.buff_size ≤ 0
    · simp [mk_vclos, alloc_val, hb] at henv
    · by_cases hb2 : s.mem_val.buff_size - 1 ≤ 0
      · simp [mk_vclos, alloc_val, hb, hb2] at henv
      · by_cases hc : s.mem_val_list.buff_size ≤ 0
        · simp [mk_vclos, alloc_val, hb, hb2, cons_val_list, alloc_val_list, hc] at henv
        · simp only [mk_vclos, alloc_val, hb, hb2, cons_val_list, alloc_val_list, hc,
            bind_apply, pure_apply, if_false, List.mem_cons] at henv
          rcases henv with rfl | h2
          · rfl
          · exact omega_body_entries (k + 1) _ _ _ env h2

theorem omega_resource (fuel : Nat) (s : State) :
    eval fuel Omega val_list.NULL s = Res.out_of_fuel ∨
    ∃ e s1, eval fuel Omega val_list.NULL s = Res.fatal e s1 ∧
      (e = Err.alloc_val_out_of_space ∨ e = Err.alloc_val_list_out_of_space) := by
  match fuel with
  | 0 => left; rw [eval_zero]
  | 1 => left; unfold Omega; simp [eval, eval_zero]
  | k + 2 =>
    rw [omega_unfold]
    split
    · exact Or.inr ⟨_, _, rfl, Or.inl rfl⟩
    · split
      · exact Or.inr ⟨_, _, rfl, Or.inl rfl⟩
      · split
        · exact Or.inr ⟨_, _, rfl, Or.inr rfl⟩
        · rcases omega_body_resource (k + 1) val_list.NULL val_list.NULL
            s.take_val.take_val.take_val_list with h | ⟨s1, h⟩
          · exact Or.inl h
          · exact Or.inr ⟨_, _, h, Or.inr rfl⟩

/-- C17, amended: there is no cycle detection, so Omega never yields a value:
for every recursion depth and every state (any pool capacities), `eval` of
Omega under the empty environment does not return a value. The evaluation
loops: with two free value slots and a free environment cell it enters the body
`@ $0 $0` under the one-binding environment that holds the closure of that
body, and with a free environment cell the body under such an environment is
entered again, one level of recursion deeper and with one cell less. Every
entry is under the same environment of exactly one binding (the closure consed
onto its own empty captured environment). The run of any bounded depth ends
only because a resource runs out: the recursion depth, the value pool or the
environment pool. -/
theorem omega_never_returns (s : State) :
    (∀ fuel v s1, eval fuel Omega val_list.NULL s ≠ Res.ok v s1) ∧
    (∀ v s1, ¬ Evals Omega val_list.NULL s (Res.ok v s1)) ∧
    (∀ fuel, 2 ≤ s.mem_val.buff_size → 0 < s.mem_val_list.buff_size →
      eval (fuel + 2) Omega val_list.NULL s
        = eval (fuel + 1) omega_body
            (val_list.cons (value.VCLOS omega_body val_list.NULL) val_list.NULL)
            s.take_val.take_val.take_val_list) ∧
    (∀ fuel E tl, 0 < s.mem_val_list.buff_size →
      eval (fuel + 2) omega_body (val_list.cons (value.VCLOS omega_body E) tl) s
        = eval (fuel + 1) omega_body (val_list.cons (value.VCLOS omega_body E) E)
            s.take_val_list) ∧
    (∀ fuel, ∀ env ∈ eval_entries fuel Omega val_list.NULL s,
      env = val_list.cons (value.VCLOS omega_body val_list.NULL) val_list.NULL ∧
      env.length = 1) ∧
    (∀ fuel, eval fuel Omega val_list.NULL s = Res.out_of_fuel ∨
      ∃ e s1, eval fuel Omega val_list.NULL s = Res.fatal e s1 ∧
        (e = Err.alloc_val_out_of_space ∨ e = Err.alloc_val_list_out_of_space)) := by
  refine ⟨fun fuel v s1 => omega_no_value fuel s v s1, fun v s1 h => ?_,
    fun fuel hv hc => ?_, fun fuel E tl hc => ?_, fun fuel env henv => ?_,
    fun fuel => omega_resource fuel s⟩
  · obtain ⟨fuel, hf, -⟩ := h
    exact omega_no_value fuel s v s1 hf
  · rw [omega_unfold, if_neg (by omega), if_neg (by omega), if_neg (by omega)]
  · rw [omega_body_step, if_neg (by omega)]
  · have h := omega_entries fuel s env henv
    subst h
    exact ⟨rfl, rfl⟩

/-- C17, witness: the input text of Omega parses to `Omega`; with the configured
pools the evaluation enters the body under the one-binding environment, and
enters it again from there. -/
theorem omega_never_returns_witness :
    parse_term (init_state "@ \\ @ $0 $0 \\ @ $0 $0".toList)
      = Res.ok Omega { init_state [] with mem_term := ⟨9991, 9⟩ } ∧
    eval (3 + 2) Omega val_list.NULL (init_state [])
      = eval (3 + 1) omega_body
          (val_list.cons (value.VCLOS omega_body val_list.NULL) val_list.NULL)
          (init_state []).take_val.take_val.take_val_list ∧
    eval (2 + 2) omega_body
        (val_list.cons (value.VCLOS omega_body val_list.NULL) val_list.NULL)
        (init_state []).take_val.take_val.take_val_list
      = eval (2 + 1) omega_body
          (val_list.cons (value.VCLOS omega_body val_list.NULL) val_list.NULL)
          (init_state []).take_val.take_val.take_val_list.take_val_list :=
  ⟨by decide!, (omega_never_returns (init_state [])).2.2.1 3 (by decide) (by decide),
    (omega_never_returns (init_state []).take_val.take_val.take_val_list).2.2.2.1 2
      val_list.NULL val_list.NULL (by decide)⟩

/-- C17 as stated fails in its description of the loop: the environments under
which the closure bodies are entered during the evaluation of Omega all have
exactly one binding; they do not get longer. -/
theorem omega_environment_not_longer :
    (eval_entries 6 Omega val_list.NULL (init_state [])).map val_list.length
      = [1, 1, 1, 1, 1] := by
  decide!

/-! ## C18: evaluation ends -/

theorem post_bind {α β : Type} {x : M α} {f : α → M β} {P : α → Prop} {Q : β → Prop}
    (hx : M.post x P) (hf : ∀ a, P a → M.post (f a) Q) : M.post (x >>= f) Q := by
  intro s
  have h1 := hx s
  simp only [bind_apply]
  cases hxs : x s with
  | out_of_fuel => trivial
  | fatal e s1 => rw [hxs] at h1; exact h1
  | ok a s1 =>
    rw [hxs] at h1
    exact hf a h1 s1

theorem post_exit {α : Type} {e : Err} (h : e.eval_fatal) (P : α → Prop) :
    M.post (M.exit e : M α) P := fun _ => h

theorem post_mk_vnum (i : Int) : M.post (mk_vnum i) value.wf := by
  intro s
  by_cases hb : s.mem_val.buff_size ≤ 0
  · simp [mk_vnum, alloc_val, hb, Err.eval_fatal, Err.kind]
  · simp [mk_vnum, alloc_val, hb, value.wf]

theorem post_mk_vclos {b : term} {env : val_list} (hb : vars_nonneg b) (he : env.wf) :
    M.post (mk_vclos b env) value.wf := by
  intro s
  by_cases hc : s.mem_val.buff_size ≤ 0
  · simp [mk_vclos, alloc_val, hc, Err.eval_fatal, Err.kind]
  · simp [mk_vclos, alloc_val, hc, value.wf, hb, he]

theorem post_cons_val_list {hd : value} {tl : val_list} (hh : hd.wf) (ht : tl.wf) :
    M.post (cons_val_list hd tl) val_list.wf := by
  intro s
  by_cases hc : s.mem_val_list.buff_size ≤ 0
  · simp [cons_val_list, alloc_val_list, hc, Err.eval_fatal, Err.kind]
  · simp [cons_val_list, alloc_val_list, hc, val_list.wf, hh, ht]

theorem nth_wf : ∀ (env : val_list) (n : Nat) (v : value), env.wf → env.nth n = some v → v.wf
  | .NULL, n, v, _, h => by simp [val_list.nth] at h
  | .cons hd tl, 0, v, hw, h => by
    simp only [val_list.nth, Option.some.injEq] at h
    subst h
    exact hw.1
  | .cons hd tl, n + 1, v, hw, h => by
    simp only [val_list.nth] at h
    exact nth_wf tl n v hw.2 h

theorem post_get_value {env : val_list} {i : Int} (he : env.wf) (hi : 0 ≤ i) :
    M.post (get_value env i) value.wf := by
  intro s
  obtain ⟨n, rfl⟩ := Int.eq_ofNat_of_zero_le hi
  have h := get_value_loop_nth env n value.NULL s
  unfold get_value
  rw [h]
  cases hn : env.nth n with
  | none => simp [Err.eval_fatal, Err.kind]
  | some v => exact nth_wf env n v he hn

/-- On a term without negative variable index, under an environment of
well-formed values, `eval` returns a well-formed value or exits with one of the
evaluator's fatal conditions. -/
theorem post_eval : ∀ (fuel : Nat) (t : term) (env : val_list),
    vars_nonneg t → env.wf → M.post (eval fuel t env) value.wf := by
  intro fuel
  induction fuel with
  | zero => intro t env _ _ s; rw [eval_zero]; trivial
  | succ n ih =>
    intro t env ht he
    cases t with
    | VAR i => simp only [eval]; exact post_get_value he ht
    | NUM i => simp only [eval]; exact post_mk_vnum _
    | LAM b => simp only [eval]; exact post_mk_vclos ht he
    | PLUS a b =>
      simp only [eval]
      refine post_bind (ih a env ht.1 he) (fun v1 h1 =>
        post_bind (ih b env ht.2 he) (fun v2 h2 => ?_))
      cases v1 with
      | NULL => exact absurd h1 (by simp [value.wf])
      | VCLOS _ _ => exact post_exit (by simp [Err.eval_fatal, Err.kind]) _
      | VNUM _ =>
        cases v2 with
        | NULL => exact absurd h2 (by simp [value.wf])
        | VCLOS _ _ => exact post_exit (by simp [Err.eval_fatal, Err.kind]) _
        | VNUM _ => exact post_mk_vnum _
    | ITE c a b =>
      simp only [eval]
      refine post_bind (ih c env ht.1 he) (fun v h1 => ?_)
      cases v with
      | NULL => exact absurd h1 (by simp [value.wf])
      | VCLOS _ _ => exact post_exit (by simp [Err.eval_fatal, Err.kind]) _
      | VNUM k =>
        simp only
        split
        · exact ih a env ht.2.1 he
        · exact ih b env ht.2.2 he
    | APP a b =>
      simp only [eval]
      refine post_bind (ih a env ht.1 he) (fun v h1 => ?_)
      cases v with
      | NULL => exact absurd h1 (by simp [value.wf])
      | VNUM _ => exact post_exit (by simp [Err.eval_fatal, Err.kind]) _
      | VCLOS body cenv =>
        simp only [value.wf] at h1
        exact post_bind (ih b env ht.2 he) (fun v2 h2 =>
          post_bind (post_cons_val_list h2 h1.2) (fun env1 h3 => ih body env1 h1.1 h3))

theorem evals_ite_not_num {c : term} {env : val_list} {s s1 : State} {v : value}
    (hc : Evals c env s (Res.ok v s1)) (hv : ∀ n, v ≠ value.VNUM n) (a b : term) :
    ∃ e, Evals (term.ITE c a b) env s (Res.fatal e s1) := by
  obtain ⟨k, hk, -⟩ := hc
  cases v with
  | VNUM n => exact absurd rfl (hv n)
  | NULL =>
    exact ⟨Err.null_dereference, k + 1, by simp only [eval, bind_apply, hk, exit_apply],
      by simp⟩
  | VCLOS _ _ =>
    exact ⟨Err.eval_ite_expected_int, k + 1, by simp only [eval, bind_apply, hk, exit_apply],
      by simp⟩

theorem evals_app_not_clos {f : term} {env : val_list} {s s1 : State} {v : value}
    (hf : Evals f env s (Res.ok v s1)) (hv : ¬ v.is_clos) (a : term) :
    ∃ e, Evals (term.APP f a) env s (Res.fatal e s1) := by
  obtain ⟨k, hk, -⟩ := hf
  cases v with
  | VCLOS _ _ => exact absurd trivial hv
  | NULL =>
    exact ⟨Err.null_dereference, k + 1, by simp only [eval, bind_apply, hk, exit_apply],
      by simp⟩
  | VNUM _ =>
    exact ⟨Err.eval_app_expected_lambda, k + 1,
      by simp only [eval, bind_apply, hk, exit_apply], by simp⟩

theorem evals_app_no_cell {f a body : term} {env cenv : val_list} {s s1 s2 : State} {v : value}
    (hf : Evals f env s (Res.ok (value.VCLOS body cenv) s1))
    (ha : Evals a env s1 (Res.ok v s2)) (hcell : s2.mem_val_list.buff_size ≤ 0) :
    Evals (term.APP f a) env s (Res.fatal Err.alloc_val_list_out_of_space s2) := by
  obtain ⟨k1, hk1, hne1⟩ := hf
  obtain ⟨k2, hk2, hne2⟩ := ha
  have e1 := eval_mono (Nat.le_max_left k1 k2) hk1 hne1
  have e2 := eval_mono (Nat.le_max_right k1 k2) hk2 hne2
  refine ⟨max k1 k2 + 1, ?_, by simp⟩
  simp only [eval, bind_apply, e1, e2, cons_val_list, alloc_val_list, hcell, if_true]

theorem evals_leaf (t : term) (env : val_list) (s : State)
    (ht : (∃ i, t = term.VAR i) ∨ (∃ i, t = term.NUM i) ∨ (∃ b, t = term.LAM b)) :
    ∃ r, Evals t env s r := by
  rcases ht with ⟨i, rfl⟩ | ⟨i, rfl⟩ | ⟨b, rfl⟩
  · rcases get_value_loop_state env i value.NULL s with ⟨v, h⟩ | h
    · exact ⟨_, 1, h, by simp⟩
    · exact ⟨_, 1, h, by simp⟩
  · exact ⟨_, 1, rfl, mk_vnum_ne_oof i s⟩
  · refine ⟨_, 1, rfl, ?_⟩
    by_cases hb : s.mem_val.buff_size ≤ 0 <;> simp [eval, mk_vclos, alloc_val, hb]

/-- With finite pools every evaluation ends: by induction on the number of free
environment cells and, inside, on the term. -/
theorem evals_exists : ∀ (k : Nat) (t : term) (env : val_list) (s : State),
    s.mem_val_list.buff_size ≤ k → ∃ r, Evals t env s r := by
  intro k
  induction k using Nat.strong_induction_on with
  | _ k ihk =>
    intro t
    induction t with
    | VAR i => intro env s _; exact evals_leaf _ env s (Or.inl ⟨i, rfl⟩)
    | NUM i => intro env s _; exact evals_leaf _ env s (Or.inr (Or.inl ⟨i, rfl⟩))
    | LAM b _ => intro env s _; exact evals_leaf _ env s (Or.inr (Or.inr ⟨b, rfl⟩))
    | PLUS a b iha ihb =>
      intro env s hs
      obtain ⟨r1, h1⟩ := iha env s hs
      cases r1 with
      | out_of_fuel => exact absurd rfl h1.choose_spec.2
      | fatal e s1 => exact ⟨_, (evals_first_fatal h1 b b).1⟩
      | ok v1 s1 =>
        obtain ⟨r2, h2⟩ := ihb env s1 (Nat.le_trans h1.pools_le.2.2.1 hs)
        cases r2 with
        | out_of_fuel => exact absurd rfl h2.choose_spec.2
        | fatal e s2 => exact ⟨_, (evals_second_fatal h1 h2).1⟩
        | ok v2 s2 => exact ⟨_, evals_plus h1 h2⟩
    | ITE c a b ihc iha ihb =>
      intro env s hs
      obtain ⟨r1, h1⟩ := ihc env s hs
      cases r1 with
      | out_of_fuel => exact absurd rfl h1.choose_spec.2
      | fatal e s1 => exact ⟨_, (evals_first_fatal h1 a b).2.2⟩
      | ok v1 s1 =>
        have hs1 := Nat.le_trans h1.pools_le.2.2.1 hs
        cases v1 with
        | NULL =>
          obtain ⟨e, he⟩ := evals_ite_not_num h1 (by simp) a b
          exact ⟨_, he⟩
        | VCLOS _ _ =>
          obtain ⟨e, he⟩ := evals_ite_not_num h1 (by simp) a b
          exact ⟨_, he⟩
        | VNUM n =>
          by_cases hn : n = 0
          · obtain ⟨r, hr⟩ := ihb env s1 hs1
            exact ⟨r, (evals_ite h1 r).2 (by simpa [hn] using hr)⟩
          · obtain ⟨r, hr⟩ := iha env s1 hs1
            exact ⟨r, (evals_ite h1 r).2 (by simpa [hn] using hr)⟩
    | APP f a ihf iha =>
      intro env s hs
      obtain ⟨r1, h1⟩ := ihf env s hs
      cases r1 with
      | out_of_fuel => exact absurd rfl h1.choose_spec.2
      | fatal e s1 => exact ⟨_, (evals_first_fatal h1 a a).2.1⟩
      | ok v1 s1 =>
        have hs1 := Nat.le_trans h1.pools_le.2.2.1 hs
        cases v1 with
        | NULL =>
          obtain ⟨e, he⟩ := evals_app_not_clos h1 (by simp [value.is_clos]) a
          exact ⟨_, he⟩
        | VNUM _ =>
          obtain ⟨e, he⟩ := evals_app_not_clos h1 (by simp [value.is_clos]) a
          exact ⟨_, he⟩
        | VCLOS body cenv =>
          obtain ⟨r2, h2⟩ := iha env s1 hs1
          cases r2 with
          | out_of_fuel => exact absurd rfl h2.choose_spec.2
          | fatal e s2 => exact ⟨_, (evals_second_fatal h1 h2).2 trivial⟩
          | ok v2 s2 =>
            have hs2 := Nat.le_trans h2.pools_le.2.2.1 hs1
            by_cases hc : s2.mem_val_list.buff_size ≤ 0
            · exact ⟨_, evals_app_no_cell h1 h2 hc⟩
            · obtain ⟨r, hr⟩ := ihk (s2.mem_val_list.buff_size - 1) (by omega) body
                (val_list.cons v2 cenv) s2.take_val_list
                (by simp only [State.take_val_list]; omega)
              exact ⟨r, (evals_app h1 h2 (by omega) r).2 hr⟩

/-- The number of closure bodies entered during a run that ends equals the
number of environment cells the run has taken. -/
theorem entries_cells : ∀ (fuel : Nat) (t : term) (env : val_list) (s : State),
    (eval fuel t env s).final (fun s1 =>
      (eval_entries fuel t env s).length + s1.mem_val_list.buff_size
        = s.mem_val_list.buff_size) := by
  intro fuel
  induction fuel with
  | zero => intro t env s; rw [eval_zero]; trivial
  | succ n ih =>
    intro t env s
    have hm : ∀ (i : Int) (s2 : State), (mk_vnum i s2).final (fun s3 =>
        s3.mem_val_list.buff_size = s2.mem_val_list.buff_size) := by
      intro i s2
      by_cases hv : s2.mem_val.buff_size ≤ 0 <;>
        simp [mk_vnum, alloc_val, hv, Res.final]
    cases t with
    | VAR i =>
      simp only [eval, eval_entries]
      rcases get_value_loop_state env i value.NULL s with ⟨v, h⟩ | h <;>
        simp [get_value, h, Res.final]
    | NUM i =>
      by_cases hb : s.mem_val.buff_size ≤ 0 <;>
        simp [eval, eval_entries, mk_vnum, alloc_val, hb, Res.final]
    | LAM b =>
      by_cases hb : s.mem_val.buff_size ≤ 0 <;>
        simp [eval, eval_entries, mk_vclos, alloc_val, hb, Res.final]
    | PLUS a b =>
      simp only [eval, eval_entries, bind_apply]
      have ha := ih a env s
      cases h1 : eval n a env s with
      | out_of_fuel => simp [Res.final]
      | fatal e s1 => rw [h1] at ha; simpa [Res.final] using ha
      | ok v1 s1 =>
        rw [h1] at ha
        have hb := ih b env s1
        simp only [Res.final] at ha
        simp only [List.length_append]
        cases h2 : eval n b env s1 with
        | out_of_fuel => simp [Res.final]
        | fatal e s2 =>
          rw [h2] at hb
          simp only [Res.final] at hb ⊢
          omega
        | ok v2 s2 =>
          rw [h2] at hb
          simp only [Res.final] at hb
          cases v1 with
          | NULL => simp only [exit_apply, Res.final]; omega
          | VCLOS _ _ => simp only [exit_apply, Res.final]; omega
          | VNUM x =>
            cases v2 with
            | NULL => simp only [exit_apply, Res.final]; omega
            | VCLOS _ _ => simp only [exit_apply, Res.final]; omega
            | VNUM y =>
              have := hm (wrap_int (x + y)) s2
              simp only
              cases h3 : mk_vnum (wrap_int (x + y)) s2 with
              | out_of_fuel => simp [Res.final]
              | fatal e s3 => rw [h3] at this; simp only [Res.final] at this ⊢; omega
              | ok v3 s3 => rw [h3] at this; simp only [Res.final] at this ⊢; omega
    | ITE c a b =>
      simp only [eval, eval_entries, bind_apply]
      have hc := ih c env s
      cases h1 : eval n c env s with
      | out_of_fuel => simp [Res.final]
      | fatal e s1 => rw [h1] at hc; simpa [Res.final] using hc
      | ok v1 s1 =>
        rw [h1] at hc
        simp only [Res.final] at hc
        simp only [List.length_append]
        cases v1 with
        | NULL => simp only [exit_apply, Res.final, List.length_nil]; omega
        | VCLOS _ _ => simp only [exit_apply, Res.final, List.length_nil]; omega
        | VNUM x =>
          by_cases hx : x = 0
          · have hb := ih b env s1
            simp only [hx, ne_eq, not_true_eq_false, if_false]
            cases h2 : eval n b env s1 with
            | out_of_fuel => simp [Res.final]
            | fatal e s2 => rw [h2] at hb; simp only [Res.final] at hb ⊢; omega
            | ok v2 s2 => rw [h2] at hb; simp only [Res.final] at hb ⊢; omega
          · have ha := ih a env s1
            simp only [hx, ne_eq, not_false_eq_true, if_true]
            cases h2 : eval n a env s1 with
            | out_of_fuel => simp [Res.final]
            | fatal e s2 => rw [h2] at ha; simp only [Res.final] at ha ⊢; omega
            | ok v2 s2 => rw [h2] at ha; simp only [Res.final] at ha ⊢; omega
    | APP f a =>
      simp only [eval, eval_entries, bind_apply]
      have hf := ih f env s
      cases h1 : eval n f env s with
      | out_of_fuel => simp [Res.final]
      | fatal e s1 => rw [h1] at hf; simpa [Res.final] using hf
      | ok v1 s1 =>
        rw [h1] at hf
        simp only [Res.final] at hf
        simp only [List.length_append]
        cases v1 with
        | NULL => simp only [exit_apply, Res.final, List.length_nil]; omega
        | VNUM _ => simp only [exit_apply, Res.final, List.length_nil]; omega
        | VCLOS body cenv =>
          simp only [bind_apply, List.length_append]
          have ha := ih a env s1
          cases h2 : eval n a env s1 with
          | out_of_fuel => simp [Res.final]
          | fatal e s2 => rw [h2] at ha; simp only [Res.final, List.length_nil] at ha ⊢; omega
          | ok v2 s2 =>
            rw [h2] at ha
            simp only [Res.final] at ha
            by_cases hc : s2.mem_val_list.buff_size ≤ 0
            · simp only [cons_val_list, alloc_val_list, hc, if_true, bind_apply, Res.final,
                List.length_nil]
              omega
            · have hcons : cons_val_list v2 cenv s2
                  = Res.ok (val_list.cons v2 cenv) s2.take_val_list :=
                cons_val_list_ok v2 cenv (by omega)
              have hb := ih body (val_list.cons v2 cenv) s2.take_val_list
              simp only [hcons, List.length_cons]
              cases h3 : eval n body (val_list.cons v2 cenv) s2.take_val_list with
              | out_of_fuel => simp [Res.final]
              | fatal e s3 =>
                rw [h3] at hb
                simp only [Res.final, State.take_val_list] at hb ⊢
                omega
              | ok v3 s3 =>
                rw [h3] at hb
                simp only [Res.final, State.take_val_list] at hb ⊢
                omega

/-- C18, amended: with finite pools every evaluation ends, and `eval` is a
function. For every term, environment and state (whose pools hold finitely many
free slots) the call `eval(t, env)` has exactly one outcome, a returned result
or an exit. When no Variable index is negative, in the term and in the closure
bodies the environment holds, and the environment holds no null pointer, the
call ends with either a value or one of the evaluator's fatal conditions (pool
exhaustion, unbound variable, type mismatch). The reason is the lexicographic
measure: an application takes one environment cell before it enters the closure
body, so the body is evaluated with strictly fewer free cells, and the other
recursive calls are on subterms with no more free cells. In particular the
number of applications performed in a run that ends (closure bodies entered)
is at most the number of free cells the run started with,
`VAL_LIST_SIZE = 1000000` in the state `main` sets up. -/
theorem eval_total (t : term) (env : val_list) (s : State) :
    (∃ r, Evals t env s r) ∧
    (∀ r1 r2, Evals t env s r1 → Evals t env s r2 → r1 = r2) ∧
    (vars_nonneg t → env.wf →
      (∃ v s1, Evals t env s (Res.ok v s1) ∧ v.wf) ∨
      (∃ e s1, Evals t env s (Res.fatal e s1) ∧ e.eval_fatal)) ∧
    (∀ f a body cenv s1 v s2, t = term.APP f a →
      Evals f env s (Res.ok (value.VCLOS body cenv) s1) → Evals a env s1 (Res.ok v s2) →
      0 < s2.mem_val_list.buff_size →
      s1.mem_val_list.buff_size ≤ s.mem_val_list.buff_size ∧
      s2.take_val_list.mem_val_list.buff_size < s.mem_val_list.buff_size ∧
      ∀ r, Evals t env s r ↔ Evals body (val_list.cons v cenv) s2.take_val_list r) ∧
    (∀ fuel, eval fuel t env s ≠ Res.out_of_fuel →
      (eval_entries fuel t env s).length ≤ s.mem_val_list.buff_size) ∧
    (s.mem_val_list.buff_size = VAL_LIST_SIZE → ∀ fuel, eval fuel t env s ≠ Res.out_of_fuel →
      (eval_entries fuel t env s).length ≤ 1000000) := by
  have hcount : ∀ fuel, eval fuel t env s ≠ Res.out_of_fuel →
      (eval_entries fuel t env s).length ≤ s.mem_val_list.buff_size := by
    intro fuel hne
    have h := entries_cells fuel t env s
    cases hr : eval fuel t env s with
    | out_of_fuel => exact absurd hr hne
    | fatal e s1 => rw [hr] at h; simp only [Res.final] at h; omega
    | ok v s1 => rw [hr] at h; simp only [Res.final] at h; omega
  refine ⟨evals_exists _ t env s (le_refl _), fun r1 r2 h1 h2 => Evals.det h1 h2,
    fun ht he => ?_, fun f a body cenv s1 v s2 htf hf ha hcell => ?_, hcount,
    fun hs fuel hne => ?_⟩
  · obtain ⟨r, hr⟩ := evals_exists _ t env s (le_refl _)
    obtain ⟨fuel, hf, hne⟩ := hr
    have h := post_eval fuel t env ht he s
    rw [hf] at h
    cases r with
    | out_of_fuel => exact absurd rfl hne
    | fatal e s1 => exact Or.inr ⟨e, s1, ⟨fuel, hf, hne⟩, h⟩
    | ok v s1 => exact Or.inl ⟨v, s1, ⟨fuel, hf, hne⟩, h⟩
  · subst htf
    have h1 := hf.pools_le.2.2.1
    have h2 := ha.pools_le.2.2.1
    refine ⟨h1, ?_, fun r => evals_app hf ha hcell r⟩
    simp only [State.take_val_list]
    omega
  · have := hcount fuel hne
    rw [hs] at this
    exact this

/-- C18, witness: the application `@ \ + $0 1 2` (the successor function applied
to 2) under the empty environment with the configured pools ends with a value;
its body `+ $0 1` is entered with `999999` free environment cells, fewer than
the `1000000` the application started with, and the application ends as that
body does under the environment holding `2`; the number of closure bodies
entered is at most the capacity of the environment pool. -/
theorem eval_total_witness :
    ((∃ v s1, Evals (term.APP (term.LAM (term.PLUS (term.VAR 0) (term.NUM 1))) (term.NUM 2))
        val_list.NULL (init_state []) (Res.ok v s1) ∧ v.wf) ∨
      (∃ e s1, Evals (term.APP (term.LAM (term.PLUS (term.VAR 0) (term.NUM 1))) (term.NUM 2))
        val_list.NULL (init_state []) (Res.fatal e s1) ∧ e.eval_fatal)) ∧
    ((init_state []).take_val.mem_val_list.buff_size ≤ (init_state []).mem_val_list.buff_size ∧
      (init_state []).take_val.take_val.take_val_list.mem_val_list.buff_size
        < (init_state []).mem_val_list.buff_size ∧
      ∀ r, Evals (term.APP (term.LAM (term.PLUS (term.VAR 0) (term.NUM 1))) (term.NUM 2))
          val_list.NULL (init_state []) r ↔
        Evals (term.PLUS (term.VAR 0) (term.NUM 1))
          (val_list.cons (value.VNUM 2) val_list.NULL)
          (init_state []).take_val.take_val.take_val_list r) ∧
    (eval_entries 4
      (term.APP (term.LAM (term.PLUS (term.VAR 0) (term.NUM 1))) (term.NUM 2))
      val_list.NULL (init_state [])).length ≤ 1000000 :=
  ⟨(eval_total (term.APP (term.LAM (term.PLUS (term.VAR 0) (term.NUM 1))) (term.NUM 2))
      val_list.NULL (init_state [])).2.2.1 (by simp [vars_nonneg]) trivial,
    (eval_total (term.APP (term.LAM (term.PLUS (term.VAR 0) (term.NUM 1))) (term.NUM 2))
      val_list.NULL (init_state [])).2.2.2.1 _ _ _ _ _ _ _ rfl
      ⟨1, rfl, by simp⟩ ⟨1, rfl, by simp⟩ (by decide),
    (eval_total (term.APP (term.LAM (term.PLUS (term.VAR 0) (term.NUM 1))) (term.NUM 2))
      val_list.NULL (init_state [])).2.2.2.2.2 rfl 4 (by
        have h : eval 4 (term.APP (term.LAM (term.PLUS (term.VAR 0) (term.NUM 1))) (term.NUM 2))
            val_list.NULL (init_state [])
          = Res.ok (value.VNUM 3)
            { init_state [] with mem_val := ⟨999996, 4⟩, mem_val_list := ⟨999999, 1⟩ } := rfl
        rw [h]; simp)⟩

/-- C18 as stated fails: the input `+ $4294967295 1` is accepted by `parse_term`
as `Plus(Variable(-1), Number(1))`, and its evaluation under the empty
environment with the configured pools ends neither with a value nor with one of
the fatal conditions: the first operand comes back as a null pointer, which
`eval` dereferences. The same happens for the term `+ @ $0 1 1`, without
negative index, under an environment that holds the closure of `$4294967295`,
and for `+ $0 1` under an environment that holds a null pointer. -/
theorem eval_null_dereference :
    parse_term (init_state "+ $4294967295 1".toList)
      = Res.ok (term.PLUS (term.VAR (-1)) (term.NUM 1))
          { init_state [] with mem_term := ⟨9997, 3⟩ } ∧
    Evals (term.PLUS (term.VAR (-1)) (term.NUM 1)) val_list.NULL (init_state [])
      (Res.fatal Err.null_dereference { init_state [] with mem_val := ⟨999999, 1⟩ }) ∧
    ¬ ((∃ v s1, Evals (term.PLUS (term.VAR (-1)) (term.NUM 1)) val_list.NULL (init_state [])
          (Res.ok v s1)) ∨
        (∃ e s1, Evals (term.PLUS (term.VAR (-1)) (term.NUM 1)) val_list.NULL (init_state [])
          (Res.fatal e s1) ∧ e.eval_fatal)) ∧
    vars_nonneg (term.PLUS (term.APP (term.VAR 0) (term.NUM 1)) (term.NUM 1)) ∧
    Evals (term.PLUS (term.APP (term.VAR 0) (term.NUM 1)) (term.NUM 1))
      (val_list.cons (value.VCLOS (term.VAR (-1)) val_list.NULL) val_list.NULL) (init_state [])
      (Res.fatal Err.null_dereference
        { init_state [] with mem_val := ⟨999998, 2⟩, mem_val_list := ⟨999999, 1⟩ }) ∧
    Evals (term.PLUS (term.VAR 0) (term.NUM 1)) (val_list.cons value.NULL val_list.NULL)
      (init_state [])
      (Res.fatal Err.null_dereference { init_state [] with mem_val := ⟨999999, 1⟩ }) := by
  have h : Evals (term.PLUS (term.VAR (-1)) (term.NUM 1)) val_list.NULL (init_state [])
      (Res.fatal Err.null_dereference { init_state [] with mem_val := ⟨999999, 1⟩ }) :=
    ⟨2, rfl, by simp⟩
  refine ⟨by decide!, h, ?_, by simp [vars_nonneg], ⟨4, rfl, by simp⟩, ⟨2, rfl, by simp⟩⟩
  rintro (⟨v, s1, hv⟩ | ⟨e, s1, he, hf⟩)
  · exact absurd (Evals.det h hv) (by simp)
  · have := Evals.det h he
    simp only [Res.fatal.injEq] at this
    rw [← this.1] at hf
    revert hf
    simp [Err.eval_fatal, Err.kind]

/-! ## C20: the program of `main` -/

theorem use_zero (s : State) : s.use 0 0 = s := by
  simp [State.use]

theorem take_val_eq_use (s : State) : s.take_val = s.use 1 0 := by
  simp [State.use, State.take_val]

theorem take_val_list_eq_use (s : State) : s.take_val_list = s.use 0 1 := by
  simp [State.use, State.take_val_list]

theorem use_use (s : State) (v c v1 c1 : Nat) : (s.use v c).use v1 c1 = s.use (v + v1) (c + c1) := by
  simp only [State.use, State.mk.injEq, val_array.mk.injEq, val_list_array.mk.injEq, true_and,
    and_true]
  omega

theorem use_vals (s : State) (v c : Nat) :
    (s.use v c).mem_val.buff_size = s.mem_val.buff_size - v := rfl

theorem use_cells (s : State) (v c : Nat) :
    (s.use v c).mem_val_list.buff_size = s.mem_val_list.buff_size - c := rfl

theorem evals_var {env : val_list} {n : Nat} {v : value} (h : env.nth n = some v) (s : State) :
    Evals (term.VAR n) env s (Res.ok v s) := by
  have hg := get_value_loop_nth env n value.NULL s
  rw [h] at hg
  exact ⟨1, hg, by simp⟩

theorem evals_num (i : Int) (env : val_list) {s : State} (h : 0 < s.mem_val.buff_size) :
    Evals (term.NUM i) env s (Res.ok (value.VNUM i) (s.use 1 0)) :=
  ⟨1, by rw [← take_val_eq_use]; exact mk_vnum_ok i h, by simp⟩

theorem evals_lam (b : term) (env : val_list) {s : State} (h : 0 < s.mem_val.buff_size) :
    Evals (term.LAM b) env s (Res.ok (value.VCLOS b env) (s.use 1 0)) :=
  ⟨1, by rw [← take_val_eq_use]; exact mk_vclos_ok b env h, by simp⟩

theorem evals_plus_num {l r : term} {env : val_list} {s s1 s2 : State} {a b : Int}
    (hl : Evals l env s (Res.ok (value.VNUM a) s1))
    (hr : Evals r env s1 (Res.ok (value.VNUM b) s2)) (h : 0 < s2.mem_val.buff_size) :
    Evals (term.PLUS l r) env s (Res.ok (value.VNUM (wrap_int (a + b))) (s2.use 1 0)) := by
  have := evals_plus hl hr
  simp only [mk_vnum_ok _ h, take_val_eq_use] at this
  exact this

theorem evals_app_use {f a body : term} {env cenv : val_list} {s s1 s2 : State} {v : value}
    {r : Res value}
    (hf : Evals f env s (Res.ok (value.VCLOS body cenv) s1))
    (ha : Evals a env s1 (Res.ok v s2)) (hcell : 0 < s2.mem_val_list.buff_size)
    (hb : Evals body (val_list.cons v cenv) (s2.use 0 1) r) :
    Evals (term.APP f a) env s r :=
  (evals_app hf ha hcell r).2 (by rw [take_val_list_eq_use]; exact hb)

theorem Z_half_body_evals (s : State) (hv : 2 ≤ s.mem_val.buff_size)
    (hc : 1 ≤ s.mem_val_list.buff_size) :
    Evals Z_half_body (val_list.cons Z_half_clos (val_list.cons F_clos val_list.NULL)) s
      (Res.ok (value.VCLOS (term.LAM F_body) (val_list.cons Z_eta_clos val_list.NULL))
        (s.use 2 1)) := by
  have hf : Evals (term.VAR 1)
      (val_list.cons Z_half_clos (val_list.cons F_clos val_list.NULL)) s
      (Res.ok (value.VCLOS (term.LAM (term.LAM F_body)) val_list.NULL) s) :=
    by refine evals_var (n := 1) ?_ s; rfl
  have ha : Evals (term.LAM Z_eta_body)
      (val_list.cons Z_half_clos (val_list.cons F_clos val_list.NULL)) s
      (Res.ok Z_eta_clos (s.use 1 0)) := evals_lam _ _ (by omega)
  have hb : Evals (term.LAM (term.LAM F_body)) (val_list.cons Z_eta_clos val_list.NULL)
      ((s.use 1 0).use 0 1)
      (Res.ok (value.VCLOS (term.LAM F_body) (val_list.cons Z_eta_clos val_list.NULL))
        (((s.use 1 0).use 0 1).use 1 0)) :=
    evals_lam _ _ (by simp only [use_use, use_vals]; omega)
  have h := evals_app_use hf ha (by simp only [use_cells]; omega) hb
  simpa [use_use] using h

theorem Z_eta_body_evals (a : value) (s : State) (hv : 3 ≤ s.mem_val.buff_size)
    (hc : 3 ≤ s.mem_val_list.buff_size) :
    Evals Z_eta_body
      (val_list.cons a (val_list.cons Z_half_clos (val_list.cons F_clos val_list.NULL))) s
      (Res.ok (value.VCLOS F_body (val_list.cons a (val_list.cons Z_eta_clos val_list.NULL)))
        (s.use 3 3)) := by
  have hx : Evals (term.VAR 1)
      (val_list.cons a (val_list.cons Z_half_clos (val_list.cons F_clos val_list.NULL))) s
      (Res.ok (value.VCLOS Z_half_body (val_list.cons F_clos val_list.NULL)) s) :=
    by refine evals_var (n := 1) ?_ s; rfl
  have hbody := Z_half_body_evals (s.use 0 1) (by simp only [use_vals]; omega)
    (by simp only [use_cells]; omega)
  have hinner : Evals (term.APP (term.VAR 1) (term.VAR 1))
      (val_list.cons a (val_list.cons Z_half_clos (val_list.cons F_clos val_list.NULL))) s
      (Res.ok (value.VCLOS (term.LAM F_body) (val_list.cons Z_eta_clos val_list.NULL))
        (s.use 2 2)) := by
    have h := evals_app_use hx hx (by omega) hbody
    simpa [use_use] using h
  have hv0 : Evals (term.VAR 0)
      (val_list.cons a (val_list.cons Z_half_clos (val_list.cons F_clos val_list.NULL)))
      (s.use 2 2) (Res.ok a (s.use 2 2)) := by refine evals_var (n := 0) ?_ _; rfl
  have hlam : Evals (term.LAM F_body) (val_list.cons a (val_list.cons Z_eta_clos val_list.NULL))
      ((s.use 2 2).use 0 1)
      (Res.ok (value.VCLOS F_body (val_list.cons a (val_list.cons Z_eta_clos val_list.NULL)))
        (((s.use 2 2).use 0 1).use 1 0)) :=
    evals_lam _ _ (by simp only [use_use, use_vals]; omega)
  have h := evals_app_use hinner hv0 (by simp only [use_cells]; omega) hlam
  simpa [use_use] using h

theorem wrap_int_pred (x : Nat) (hx : x + 1 ≤ 2147483647) :
    wrap_int (((x + 1 : Nat) : Int) + -1) = (x : Int) := by
  unfold wrap_int
  omega

theorem wrap_int_add_wrap (a b : Int) : wrap_int (a + wrap_int b) = wrap_int (a + b) := by
  unfold wrap_int
  omega

/-- The recursion of `F` through `Z`: with `x` bound to a natural number that
fits in an `int`, the body of `F` evaluates to `x * y` reduced to an `int`,
taking `6 x + 1` value slots and `5 x` environment cells. -/
theorem F_body_evals : ∀ (x : Nat) (y : Int) (s : State), x ≤ 2147483647 →
    6 * x + 1 ≤ s.mem_val.buff_size → 5 * x ≤ s.mem_val_list.buff_size →
    Evals F_body
      (val_list.cons (value.VNUM y)
        (val_list.cons (value.VNUM x) (val_list.cons Z_eta_clos val_list.NULL))) s
      (Res.ok (value.VNUM (wrap_int (x * y))) (s.use (6 * x + 1) (5 * x))) := by
  intro x
  induction x with
  | zero =>
    intro y s _ hv _
    have hc : Evals (term.VAR 1)
        (val_list.cons (value.VNUM y)
          (val_list.cons (value.VNUM ((0 : Nat) : Int)) (val_list.cons Z_eta_clos val_list.NULL)))
        s (Res.ok (value.VNUM ((0 : Nat) : Int)) s) := by refine evals_var (n := 1) ?_ s; rfl
    have hn : Evals (term.NUM 0)
        (val_list.cons (value.VNUM y)
          (val_list.cons (value.VNUM ((0 : Nat) : Int)) (val_list.cons Z_eta_clos val_list.NULL)))
        s (Res.ok (value.VNUM 0) (s.use 1 0)) := evals_num 0 _ (by omega)
    have h0 : wrap_int (((0 : Nat) : Int) * y) = 0 := by simp [wrap_int]
    rw [h0]
    unfold F_body
    refine (evals_ite hc _).2 ?_
    simpa using hn
  | succ x ih =>
    intro y s hx hv hc
    have hcond : Evals (term.VAR 1)
        (val_list.cons (value.VNUM y)
          (val_list.cons (value.VNUM ((x + 1 : Nat) : Int))
            (val_list.cons Z_eta_clos val_list.NULL)))
        s (Res.ok (value.VNUM ((x + 1 : Nat) : Int)) s) := by refine evals_var (n := 1) ?_ s; rfl
    have hy : Evals (term.VAR 0)
        (val_list.cons (value.VNUM y)
          (val_list.cons (value.VNUM ((x + 1 : Nat) : Int))
            (val_list.cons Z_eta_clos val_list.NULL)))
        s (Res.ok (value.VNUM y) s) := by refine evals_var (n := 0) ?_ s; rfl
    have hf : Evals (term.VAR 2)
        (val_list.cons (value.VNUM y)
          (val_list.cons (value.VNUM ((x + 1 : Nat) : Int))
            (val_list.cons Z_eta_clos val_list.NULL)))
        s (Res.ok (value.VCLOS Z_eta_body
          (val_list.cons Z_half_clos (val_list.cons F_clos val_list.NULL))) s) :=
      by refine evals_var (n := 2) ?_ s; rfl
    have hm1 : Evals (term.NUM (-1))
        (val_list.cons (value.VNUM y)
          (val_list.cons (value.VNUM ((x + 1 : Nat) : Int))
            (val_list.cons Z_eta_clos val_list.NULL)))
        s (Res.ok (value.VNUM (-1)) (s.use 1 0)) := evals_num (-1) _ (by omega)
    have hdec : Evals (term.PLUS (term.VAR 1) (term.NUM (-1)))
        (val_list.cons (value.VNUM y)
          (val_list.cons (value.VNUM ((x + 1 : Nat) : Int))
            (val_list.cons Z_eta_clos val_list.NULL)))
        s (Res.ok (value.VNUM (x : Int)) (s.use 2 0)) := by
      have h := evals_plus_num hcond hm1 (by simp only [use_vals]; omega)
      rw [wrap_int_pred x hx] at h
      simpa [use_use] using h
    have heta := Z_eta_body_evals (value.VNUM (x : Int)) ((s.use 2 0).use 0 1)
      (by simp only [use_use, use_vals]; omega) (by simp only [use_use, use_cells]; omega)
    have hrec : Evals (term.APP (term.VAR 2) (term.PLUS (term.VAR 1) (term.NUM (-1))))
        (val_list.cons (value.VNUM y)
          (val_list.cons (value.VNUM ((x + 1 : Nat) : Int))
            (val_list.cons Z_eta_clos val_list.NULL)))
        s (Res.ok (value.VCLOS F_body
          (val_list.cons (value.VNUM (x : Int)) (val_list.cons Z_eta_clos val_list.NULL)))
          (s.use 5 4)) := by
      have h := evals_app_use hf hdec (by simp only [use_cells]; omega) heta
      simpa [use_use] using h
    have hy2 : Evals (term.VAR 0)
        (val_list.cons (value.VNUM y)
          (val_list.cons (value.VNUM ((x + 1 : Nat) : Int))
            (val_list.cons Z_eta_clos val_list.NULL)))
        (s.use 5 4) (Res.ok (value.VNUM y) (s.use 5 4)) := by refine evals_var (n := 0) ?_ _; rfl
    have hih := ih y ((s.use 5 4).use 0 1) (by omega)
      (by simp only [use_use, use_vals]; omega) (by simp only [use_use, use_cells]; omega)
    have hcall : Evals
        (term.APP (term.APP (term.VAR 2) (term.PLUS (term.VAR 1) (term.NUM (-1))))
          (term.VAR 0))
        (val_list.cons (value.VNUM y)
          (val_list.cons (value.VNUM ((x + 1 : Nat) : Int))
            (val_list.cons Z_eta_clos val_list.NULL)))
        s (Res.ok (value.VNUM (wrap_int (x * y))) (s.use (6 * x + 6) (5 * x + 5))) := by
      have h := evals_app_use hrec hy2 (by simp only [use_cells]; omega) hih
      have e : ((s.use 5 4).use 0 1).use (6 * x + 1) (5 * x) = s.use (6 * x + 6) (5 * x + 5) := by
        simp only [use_use]
        congr 1 <;> omega
      rw [e] at h
      exact h
    have hsum := evals_plus_num hy hcall (by simp only [use_vals]; omega)
    have e1 : wrap_int (y + wrap_int (x * y)) = wrap_int (((x + 1 : Nat) : Int) * y) := by
      rw [wrap_int_add_wrap]
      congr 1
      push_cast
      ring
    have e2 : (s.use (6 * x + 6) (5 * x + 5)).use 1 0 = s.use (6 * (x + 1) + 1) (5 * (x + 1)) := by
      simp only [use_use]
      congr 1
    rw [e1, e2] at hsum
    unfold F_body
    refine (evals_ite hcond _).2 ?_
    have hne : ((x + 1 : Nat) : Int) ≠ 0 := by omega
    simpa [hne] using hsum

/-- The whole program: `Z F` applied to `Number(x)` and `Number(y)`, for a
natural number `x` that fits in an `int`, evaluates to `x * y` reduced to an
`int`, taking `6 x + 10` value slots and `5 x + 5` environment cells. -/
theorem mult_program_evals (x : Nat) (y : Int) (s : State) (hx : x ≤ 2147483647)
    (hv : 6 * x + 10 ≤ s.mem_val.buff_size) (hc : 5 * x + 5 ≤ s.mem_val_list.buff_size) :
    Evals (mult_program x y) val_list.NULL s
      (Res.ok (value.VNUM (wrap_int (x * y))) (s.use (6 * x + 10) (5 * x + 5))) := by
  have hZ : Evals Z_comb val_list.NULL s
      (Res.ok (value.VCLOS (term.APP (term.LAM Z_half_body) (term.LAM Z_half_body))
        val_list.NULL) (s.use 1 0)) := evals_lam _ _ (by omega)
  have hF : Evals F_term val_list.NULL (s.use 1 0) (Res.ok F_clos (s.use 2 0)) := by
    have h := evals_lam (term.LAM (term.LAM F_body)) val_list.NULL (s := s.use 1 0)
      (by simp only [use_vals]; omega)
    simpa [use_use] using h
  have h1 : Evals (term.LAM Z_half_body) (val_list.cons F_clos val_list.NULL) (s.use 2 1)
      (Res.ok Z_half_clos (s.use 3 1)) := by
    have h := evals_lam Z_half_body (val_list.cons F_clos val_list.NULL) (s := s.use 2 1)
      (by simp only [use_vals]; omega)
    simpa [use_use] using h
  have h2 : Evals (term.LAM Z_half_body) (val_list.cons F_clos val_list.NULL) (s.use 3 1)
      (Res.ok Z_half_clos (s.use 4 1)) := by
    have h := evals_lam Z_half_body (val_list.cons F_clos val_list.NULL) (s := s.use 3 1)
      (by simp only [use_vals]; omega)
    simpa [use_use] using h
  have h3 := Z_half_body_evals ((s.use 4 1).use 0 1) (by simp only [use_use, use_vals]; omega)
    (by simp only [use_use, use_cells]; omega)
  have hbody : Evals (term.APP (term.LAM Z_half_body) (term.LAM Z_half_body))
      (val_list.cons F_clos val_list.NULL) ((s.use 2 0).use 0 1)
      (Res.ok (value.VCLOS (term.LAM F_body) (val_list.cons Z_eta_clos val_list.NULL))
        (s.use 6 3)) := by
    have h := evals_app_use h1 h2 (by simp only [use_cells]; omega) h3
    simpa [use_use] using h
  have hZF : Evals (term.APP Z_comb F_term) val_list.NULL s
      (Res.ok (value.VCLOS (term.LAM F_body) (val_list.cons Z_eta_clos val_list.NULL))
        (s.use 6 3)) :=
    evals_app_use hZ hF (by simp only [use_cells]; omega) hbody
  have hnx : Evals (term.NUM x) val_list.NULL (s.use 6 3)
      (Res.ok (value.VNUM x) (s.use 7 3)) := by
    have h := evals_num (x : Int) val_list.NULL (s := s.use 6 3)
      (by simp only [use_vals]; omega)
    simpa [use_use] using h
  have hlam : Evals (term.LAM F_body)
      (val_list.cons (value.VNUM x) (val_list.cons Z_eta_clos val_list.NULL))
      ((s.use 7 3).use 0 1)
      (Res.ok (value.VCLOS F_body
        (val_list.cons (value.VNUM x) (val_list.cons Z_eta_clos val_list.NULL)))
        (s.use 8 4)) := by
    have h := evals_lam F_body
      (val_list.cons (value.VNUM x) (val_list.cons Z_eta_clos val_list.NULL))
      (s := (s.use 7 3).use 0 1) (by simp only [use_use, use_vals]; omega)
    simpa [use_use] using h
  have hZFx : Evals (term.APP (term.APP Z_comb F_term) (term.NUM x)) val_list.NULL s
      (Res.ok (value.VCLOS F_body
        (val_list.cons (value.VNUM x) (val_list.cons Z_eta_clos val_list.NULL)))
        (s.use 8 4)) :=
    evals_app_use hZF hnx (by simp only [use_cells]; omega) hlam
  have hny : Evals (term.NUM y) val_list.NULL (s.use 8 4)
      (Res.ok (value.VNUM y) (s.use 9 4)) := by
    have h := evals_num y val_list.NULL (s := s.use 8 4) (by simp only [use_vals]; omega)
    simpa [use_use] using h
  have hrec := F_body_evals x y ((s.use 9 4).use 0 1) hx
    (by simp only [use_use, use_vals]; omega) (by simp only [use_use, use_cells]; omega)
  have e : ((s.use 9 4).use 0 1).use (6 * x + 1) (5 * x) = s.use (6 * x + 10) (5 * x + 5) := by
    simp only [use_use]
    congr 1 <;> omega
  rw [e] at hrec
  exact evals_app_use hZFx hny (by simp only [use_cells]; omega) hrec

/-- C20, amended: with the configured capacities `parse_term` accepts the text
embedded in `main` as `Application(Application(Application(Z, F),
Number(1000)), Number(1000))`, taking 40 term slots, and `eval` of it under the
empty environment returns `Number(1000000)`, taking 6010 value slots and 5005
environment cells, so no pool is exhausted. More generally, for every `x` with
`0 ≤ x ≤ 2147483647` and every `y`, with at least `6 x + 10` free value slots
and `5 x + 5` free environment cells, applying `Z F` to `Number(x)` and
`Number(y)` evaluates to `Number` of `x * y` reduced modulo `2^32` to an `int`,
which is `x * y` whenever the product fits in an `int`. -/
theorem main_program_multiplies :
    parse_term (init_state test)
      = Res.ok (mult_program 1000 1000) { init_state [] with mem_term := ⟨9960, 40⟩ } ∧
    Evals (mult_program 1000 1000) val_list.NULL { init_state [] with mem_term := ⟨9960, 40⟩ }
      (Res.ok (value.VNUM 1000000)
        { init_state [] with
          mem_term := ⟨9960, 40⟩
          mem_val := ⟨993990, 6010⟩
          mem_val_list := ⟨994995, 5005⟩ }) ∧
    (∀ (x : Nat) (y : Int) (s : State), x ≤ 2147483647 →
      6 * x + 10 ≤ s.mem_val.buff_size → 5 * x + 5 ≤ s.mem_val_list.buff_size →
      Evals (mult_program x y) val_list.NULL s
        (Res.ok (value.VNUM (wrap_int (x * y))) (s.use (6 * x + 10) (5 * x + 5))) ∧
      (int_range (x * y) → wrap_int (x * y) = x * y)) := by
  refine ⟨by decide!, ?_, fun x y s hx hv hc =>
    ⟨mult_program_evals x y s hx hv hc, wrap_int_of_range⟩⟩
  exact mult_program_evals 1000 1000 { init_state [] with mem_term := ⟨9960, 40⟩ }
    (by decide) (by decide) (by decide)

/-- C20, witness: `3 * (-5)` is `-15`. -/
theorem main_program_multiplies_witness :
    Evals (mult_program 3 (-5)) val_list.NULL (init_state [])
      (Res.ok (value.VNUM (-15))
        { init_state [] with mem_val := ⟨999972, 28⟩, mem_val_list := ⟨999980, 20⟩ }) :=
  (main_program_multiplies.2.2 3 (-5) (init_state []) (by decide) (by decide) (by decide)).1

/-- C20 as stated fails in its general part: for `x = 2` and `y = 2^30`, with
the configured pools, `Z F` applied to `Number(x)` and `Number(y)` evaluates to
`Number(-2^31)`, not to `Number(x * y)`. -/
theorem mult_program_overflow :
    Evals (mult_program 2 1073741824) val_list.NULL (init_state [])
      (Res.ok (value.VNUM (-2147483648))
        { init_state [] with mem_val := ⟨999978, 22⟩, mem_val_list := ⟨999985, 15⟩ }) ∧
    ¬ Evals (mult_program 2 1073741824) val_list.NULL (init_state [])
      (Res.ok (value.VNUM (2 * 1073741824))
        { init_state [] with mem_val := ⟨999978, 22⟩, mem_val_list := ⟨999985, 15⟩ }) := by
  have h : Evals (mult_program 2 1073741824) val_list.NULL (init_state [])
      (Res.ok (value.VNUM (-2147483648))
        { init_state [] with mem_val := ⟨999978, 22⟩, mem_val_list := ⟨999985, 15⟩ }) :=
    mult_program_evals 2 1073741824 (init_state []) (by decide) (by decide) (by decide)
  refine ⟨h, fun h2 => ?_⟩
  have e := Evals.det h h2
  simp at e

end TinyLC
